import Mathlib

/-!
Verification of spectralmask: spectral resampling, spectral library and adaptive SAM masking.

Shallow embedding of `src/spectral.cpp` and `src/masking.cpp`.

Conventions of the embedding.

* `float`/`double` values are elements of a linearly ordered field `K` with a floor function
  (exact arithmetic); every definition is generic in `K`, so it can be evaluated over `ℚ` and
  instantiated over `ℝ`.
* `int`/`long` values are `Int` (no wrap-around: signed overflow is undefined behaviour in C++
  and is not reachable for inputs that fit in memory).
* C arrays are lists; an index expression `a[i]` is `getI a i` (`rowI` for an array of arrays).
  A read outside the array, undefined in C++, yields `0` (the empty row); theorems about the
  masking parameters carry the allocation invariant `masking_wf` that keeps accesses in bounds.
* `sqrt` and `acos` of `<cmath>` are parameters of the masking functions.  The only non-finite
  values that exact arithmetic can produce in `masking_thresh` are the quotient by a zero norm
  and `acos` outside `[-1, 1]`; they are represented by `none` (see `fdiv`, `facos`, `flt`).
-/

set_option linter.unusedSectionVars false

namespace SpectralMask

/-! ## Definitions: spectral.h / spectral.cpp -/

/-- Returned error values from calls to spectral_ functions (`spectral.h`). -/
inductive spectral_err_t where
  | SPECTRAL_NO_ERR
  | SPECTRAL_FILE_NOT_FOUND
  | SPECTRAL_NOT_VALID
  | SPECTRAL_DIRECTORY_NOT_FOUND
  | SPECTRAL_DIRECTORY_FILE_ERROR
  deriving DecidableEq, Repr

/-- Struct `spectrum_t` of `spectral.h`: `values` is the array behind the `float*`. -/
structure spectrum_t (K : Type) where
  num_values : Int
  start_wlen : K
  step_wlen : K
  values : List K
  deriving DecidableEq, Repr

/-- Struct `spectral_library_t` of `spectral.h`. -/
structure spectral_library_t (K : Type) where
  num_spectra : Int
  spectra : List (spectrum_t K)
  deriving DecidableEq, Repr

/-- Array read `a[i]` with an `int` index (`0` stands for a read outside the array, which is
undefined in C++). -/
def getI {A : Type} [Zero A] (a : List A) (i : Int) : A :=
  if i < 0 then 0 else a.getD i.toNat 0

/-- Row read `a[i]` of an array of arrays with an `int` index (the empty row stands for a read
outside the array). -/
def rowI {A : Type} (a : List (List A)) (i : Int) : List A :=
  if i < 0 then [] else a.getD i.toNat []

/-- Array write `a[i] = v` with an `int` index. -/
def setI {A : Type} (a : List A) (i : Int) (v : A) : List A :=
  if i < 0 then a else a.set i.toNat v

/-- What `spectral_read_file` sees of a file: `none` when `file.open` fails, otherwise, for every
newline-terminated line in order, the pair `(val1, val2)` left by `stream >> val1; stream >> val2`
(a line on which the first extraction fails leaves `val1 = 0`).  A last line without a newline
sets `eofbit` in `getline` and is dropped by the `if (file.eof()) break;` at line 47, so it is
not part of the list. -/
abbrev file_t (K : Type) := Option (List (K × K))

section
variable {K : Type} [LinearOrderedField K] [FloorRing K]

/-- Records of a file that have a strictly positive wavelength, in file order: the pairs that
the specification of `parse` keeps. -/
def valid_pairs (records : List (K × K)) : List (K × K) :=
  records.filter (fun p => decide (0 < p.1))

/-- Lines 37-57 of `spectral_read_file`: the records with `val1 > 0` are pushed on `wlens` and
`vals`. -/
def read_pairs (records : List (K × K)) : List K × List K :=
  records.foldl
    (fun acc r => if r.1 > 0 then (acc.1 ++ [r.1], acc.2 ++ [r.2]) else acc) ([], [])

/-- Lines 69-78 of `spectral_read_file`: `min_step` starts at `wlens[0]` and is lowered by every
strictly positive consecutive difference below it. -/
def find_min_step (wlens : List K) : K :=
  (List.range (wlens.length - 1)).foldl
    (fun min_step (t : Nat) =>
      let i : Int := (t : Int) + 1
      let step := getI wlens i - getI wlens (i - 1)
      if step < min_step ∧ step > 0 then step else min_step)
    (getI wlens 0)

/-- Lines 84-99 of `spectral_read_file`: the `while (wlen < max_wlen)` loop, one iteration per unit
of fuel; `none` when the fuel is used up before the loop condition fails.  The addition
`wlen += step_wlen` is exact here; `resample_loop_add` has it as a parameter. -/
def resample_loop (wlens vals : List K) (max_wlen step_wlen : K) :
    Nat → K → Int → List K → Option (List K)
  | 0, wlen, _, values_interpolated =>
    if wlen < max_wlen then none else some values_interpolated
  | fuel + 1, wlen, wlen_upper_ind, values_interpolated =>
    if wlen < max_wlen then
      let wlen_upper_ind :=
        if wlen ≥ getI wlens wlen_upper_ind then wlen_upper_ind + 1 else wlen_upper_ind
      let lower_ind := wlen_upper_ind - 1
      let upper_ind := wlen_upper_ind
      let lower_wlen := getI wlens lower_ind
      let upper_wlen := getI wlens upper_ind
      let val := getI vals lower_ind
        + (wlen - lower_wlen) / (upper_wlen - lower_wlen) * (getI vals upper_ind - getI vals lower_ind)
      resample_loop wlens vals max_wlen step_wlen fuel (wlen + step_wlen) wlen_upper_ind
        (values_interpolated ++ [val])
    else some values_interpolated

/-- Number of iterations after which `wlen = min_wlen + t * step_wlen` has reached `max_wlen`
(`resample_loop_fuel` proves that the loop never needs more when `step_wlen > 0`). -/
def resample_fuel (min_wlen max_wlen step_wlen : K) : Nat :=
  ⌈(max_wlen - min_wlen) / step_wlen⌉.toNat

/-- Function `spectral_read_file` of `spectral.cpp`, on the file content described at `file_t`,
in exact arithmetic.  The `while` loop is run with `resample_fuel` iterations of fuel, which is
always enough when the addition is exact (`resample_loop_fuel`), so the `none` branch is never
taken; `spectral_read_file_add` has the addition and the fuel as parameters. -/
def spectral_read_file (file : file_t K) : Except spectral_err_t (spectrum_t K) :=
  match file with
  | none => .error .SPECTRAL_FILE_NOT_FOUND
  | some [] => .error .SPECTRAL_NOT_VALID
  | some (r :: rs) =>
    let wlens := (read_pairs (r :: rs)).1
    let vals := (read_pairs (r :: rs)).2
    if wlens.length = 0 then .error .SPECTRAL_FILE_NOT_FOUND
    else if wlens.length ≠ vals.length then .error .SPECTRAL_NOT_VALID
    else
      let min_wlen := getI wlens 0
      let max_wlen := getI wlens ((wlens.length : Int) - 1)
      let step_wlen := find_min_step wlens
      match resample_loop wlens vals max_wlen step_wlen
          (resample_fuel min_wlen max_wlen step_wlen) min_wlen 0 [] with
      | none => .error .SPECTRAL_NOT_VALID
      | some values_interpolated =>
        if values_interpolated.length = 0 then .error .SPECTRAL_FILE_NOT_FOUND
        else .ok
          { num_values := values_interpolated.length
            start_wlen := min_wlen
            step_wlen := step_wlen
            values := values_interpolated }

/-- Function `spectral_copy`: a new array of `num_values` floats filled by `memcpy`. -/
def spectral_copy (source : spectrum_t K) : spectrum_t K :=
  { num_values := source.num_values
    start_wlen := source.start_wlen
    step_wlen := source.step_wlen
    values := source.values.take source.num_values.toNat }

/-- Function `spectral_get_value` of `spectral.cpp`, with `lower_ind` and `upper_ind` as
unbounded integers; `spectral_get_value_int32` has them as the 32-bit `int`s of the source, and
the two agree whenever the floor and its successor fit into an `int`
(`spectral_get_value_int32_eq`). -/
def spectral_get_value (spectrum : spectrum_t K) (wlen : K) : Except spectral_err_t K :=
  if spectrum.num_values = 0 then .error .SPECTRAL_NOT_VALID
  else
    let lower_ind : Int := ⌊(wlen - spectrum.start_wlen) / spectrum.step_wlen⌋
    let upper_ind : Int := lower_ind + 1
    if lower_ind < 0 then .ok (getI spectrum.values 0)
    else if lower_ind ≥ spectrum.num_values ∨ upper_ind ≥ spectrum.num_values then
      .ok (getI spectrum.values (spectrum.num_values - 1))
    else
      let lower_wlen := spectrum.start_wlen + spectrum.step_wlen * (lower_ind : K)
      let upper_wlen := spectrum.start_wlen + spectrum.step_wlen * (upper_ind : K)
      .ok (getI spectrum.values lower_ind
        + (wlen - lower_wlen) / (upper_wlen - lower_wlen)
          * (getI spectrum.values upper_ind - getI spectrum.values lower_ind))

/-- Lines 233-245 of `spectral_construct_library_from_files`: every file is read, the spectra
read without error are pushed on `spectra` and counted in `num_valid_files`. -/
def read_valid_files (files : List (file_t K)) : List (spectrum_t K) × Int :=
  files.foldl
    (fun acc file =>
      match spectral_read_file file with
      | .ok spectrum => (acc.1 ++ [spectrum], acc.2 + 1)
      | .error _ => acc)
    ([], 0)

/-- Spectra of the files of a list that `spectral_read_file` reads without error, in list
order: the library that the specification of `build` describes. -/
def parsed_spectra (files : List (file_t K)) : List (spectrum_t K) :=
  files.filterMap (fun file =>
    match spectral_read_file file with
    | .ok spectrum => some spectrum
    | .error _ => none)

/-- Function `spectral_construct_library_from_files`: the returned pair is the error value and the
content of `*library` after the call.  `files` are the contents of `filenames[0..num_files-1]`. -/
def spectral_construct_library_from_files (files : List (file_t K)) :
    spectral_err_t × spectral_library_t K :=
  let spectra := (read_valid_files files).1
  let num_valid_files := (read_valid_files files).2
  if num_valid_files = 0 then
    (.SPECTRAL_DIRECTORY_FILE_ERROR, { num_spectra := 0, spectra := [] })
  else
    (.SPECTRAL_NO_ERR,
      { num_spectra := num_valid_files
        spectra := (List.range num_valid_files.toNat).map
          (fun i => spectral_copy (spectra.getD i ⟨0, 0, 0, []⟩)) })

end

/-! ## Definitions: masking.h / masking.cpp -/

/-- Struct `masking_t` of `masking.h`. -/
structure masking_t (K : Type) where
  num_masking_spectra : Int
  num_bands : Int
  orig_spectra : List (List K)
  updated_spectra : List (List K)
  num_samples_in_spectra : List Int
  sam_thresh : List K
  start_band_ind : Int
  end_band_ind : Int
  deriving DecidableEq, Repr

/-- Masking error values, as used by `masking.cpp`. -/
inductive masking_err_t where
  | MASKING_NO_ERR
  | MASKING_REFLECTANCE_LIBRARY_ERR
  | MASKING_TRANSMITTANCE_LIBRARY_ERR
  deriving DecidableEq, Repr

/-- Enum `masking_input_data_type_t` of `masking.h`. -/
inductive masking_input_data_type_t where
  | REFLECTANCE_MASKING
  | TRANSMITTANCE_MASKING
  deriving DecidableEq, Repr

/-- Type `mask_thresh_t` of `masking.h`: samples along the first direction, reference spectrum
number along the next. -/
abbrev mask_thresh_t := List (List Bool)

/-- Indices visited by `for (int i = start_band_ind; i <= end_band_ind; i++)`. -/
def band_inds (start_band_ind end_band_ind : Int) : List Int :=
  (List.range (end_band_ind - start_band_ind + 1).toNat).map
    (fun (t : Nat) => start_band_ind + (t : Int))

section
variable {K : Type} [LinearOrderedField K] [FloorRing K]

/-- Floating-point quotient of two finite values; `none` is the non-finite result of a division
by zero (`NaN` or an infinity). -/
def fdiv (a b : K) : Option K := if b = 0 then none else some (a / b)

/-- Library function `acos` on the result of `fdiv`: `NaN` (`none`) on a non-finite argument and
outside `[-1, 1]`. -/
def facos (acos : K → K) (x : Option K) : Option K :=
  match x with
  | none => none
  | some c => if -1 ≤ c ∧ c ≤ 1 then some (acos c) else none

/-- Comparison `x < t` of a possibly `NaN` value with a finite one: false on `NaN`. -/
def flt (x : Option K) (t : K) : Bool :=
  match x with
  | none => false
  | some a => decide (a < t)

/-- Function `spectral_construct_library_from_directory`; `directory` is the outcome of
`spectral_get_files_in_directory` followed by opening the listed paths: `none` when the
directory cannot be listed, else the files in listing order. -/
def spectral_construct_library_from_directory (directory : Option (List (file_t K))) :
    spectral_err_t × spectral_library_t K :=
  match directory with
  | none => (.SPECTRAL_DIRECTORY_NOT_FOUND, { num_spectra := 0, spectra := [] })
  | some files => spectral_construct_library_from_files files

/-- Lines 39-57 of `masking_init`: the masking parameters built from a library. -/
def masking_from_library (library : spectral_library_t K) (wlens : List K) (sam_thresh : K) :
    masking_t K :=
  let resampled : List (List K) := (List.range library.num_spectra.toNat).map (fun (i : Nat) =>
    wlens.map (fun w =>
      match spectral_get_value (library.spectra.getD i ⟨0, 0, 0, []⟩) w with
      | .ok v => v
      | .error _ => 0))
  { num_masking_spectra := library.num_spectra
    num_bands := wlens.length
    orig_spectra := resampled
    updated_spectra := resampled
    num_samples_in_spectra := List.replicate library.num_spectra.toNat 0
    sam_thresh := List.replicate library.num_spectra.toNat sam_thresh
    start_band_ind := 0
    end_band_ind := (wlens.length : Int) - 1 }

/-- Function `masking_init` of `masking.cpp`.  `reflectance_dir` and `transmittance_dir` are the
contents of the two directories named by the macros of `masking.h`; `wlens` is the array of
`num_wlens` wavelengths.  `none` for `*mask_param` when the function returns before writing
it. -/
def masking_init (reflectance_dir transmittance_dir : Option (List (file_t K))) (wlens : List K)
    (masking_type : masking_input_data_type_t) : masking_err_t × Option (masking_t K) :=
  match masking_type with
  | .REFLECTANCE_MASKING =>
    let r := spectral_construct_library_from_directory reflectance_dir
    if r.1 ≠ .SPECTRAL_NO_ERR then (.MASKING_REFLECTANCE_LIBRARY_ERR, none)
    else (.MASKING_NO_ERR, some (masking_from_library r.2 wlens (3 / 10)))
  | .TRANSMITTANCE_MASKING =>
    let r := spectral_construct_library_from_directory transmittance_dir
    if r.1 ≠ .SPECTRAL_NO_ERR then (.MASKING_TRANSMITTANCE_LIBRARY_ERR, none)
    else (.MASKING_NO_ERR, some (masking_from_library r.2 wlens (1 / 10)))

/-- Lines 79-84 of `masking_thresh`: the norm of one reference spectrum over the band range. -/
def ref_norm (sqrt : K → K) (start_band_ind end_band_ind : Int) (spectrum : List K) : K :=
  sqrt ((band_inds start_band_ind end_band_ind).foldl
    (fun acc j => acc + getI spectrum j * getI spectrum j) 0)

/-- Lines 101-104 of `masking_thresh`: the accumulated product of the pixel with a reference. -/
def samval (start_band_ind end_band_ind : Int) (pixel_vals : Int → K) (spectrum : List K) : K :=
  (band_inds start_band_ind end_band_ind).foldl
    (fun acc i => acc + pixel_vals i * getI spectrum i) 0

/-- Lines 118-127 of `masking_thresh`: the running-mean update of one reference spectrum with
count `n`, together with the accumulated sum of squares of the updated values. -/
def update_spectrum (start_band_ind end_band_ind : Int) (pixel_vals : Int → K) (n : Int)
    (spectrum : List K) : List K × K :=
  (band_inds start_band_ind end_band_ind).foldl
    (fun st i =>
      let delta := pixel_vals i - getI st.1 i
      let spectrum := setI st.1 i (getI st.1 i + delta / ((n : K) * 1))
      (spectrum, st.2 + getI spectrum i * getI spectrum i))
    (spectrum, 0)

/-- State of the loops of `masking_thresh`: the masking parameters, the array
`ref_norms_updated` and the rows of `*ret_thresh` written so far. -/
structure thresh_state (K : Type) where
  mask_param : masking_t K
  ref_norms_updated : List K
  ret_thresh : mask_thresh_t

/-- Lines 99-111 of `masking_thresh`: the value of `pixel_belong` for reference `k` and a pixel
with values `pixel_vals` and norm `pixel_norm`. -/
def pixel_belong (acos : K → K) (mask_param : masking_t K) (ref_norms_orig ref_norms_updated : List K)
    (pixel_vals : Int → K) (pixel_norm : K) (k : Int) : Bool :=
  let samval_orig := samval mask_param.start_band_ind mask_param.end_band_ind pixel_vals
    (rowI mask_param.orig_spectra k)
  let samval_updated := samval mask_param.start_band_ind mask_param.end_band_ind pixel_vals
    (rowI mask_param.updated_spectra k)
  let samval_orig := facos acos (fdiv samval_orig (pixel_norm * getI ref_norms_orig k))
  let samval_updated := facos acos (fdiv samval_updated (pixel_norm * getI ref_norms_updated k))
  flt samval_orig (getI mask_param.sam_thresh k) || flt samval_updated (getI mask_param.sam_thresh k)

/-- Lines 98-131 of `masking_thresh`: the body of the loop over the reference spectra, for
reference `k`; `st.2.2` is the row `(*ret_thresh)[j]` written so far. -/
def thresh_spectrum (sqrt acos : K → K) (ref_norms_orig : List K) (pixel_vals : Int → K)
    (pixel_norm : K) (st : masking_t K × List K × List Bool) (k : Int) :
    masking_t K × List K × List Bool :=
  let mask_param := st.1
  let ref_norms_updated := st.2.1
  let pixel_belong := pixel_belong acos mask_param ref_norms_orig ref_norms_updated pixel_vals
    pixel_norm k
  let row := st.2.2 ++ [pixel_belong]
  if pixel_belong then
    let n := getI mask_param.num_samples_in_spectra k + 1
    let upd := update_spectrum mask_param.start_band_ind mask_param.end_band_ind pixel_vals n
      (rowI mask_param.updated_spectra k)
    ({ mask_param with
        updated_spectra := setI mask_param.updated_spectra k upd.1
        num_samples_in_spectra := setI mask_param.num_samples_in_spectra k n },
      setI ref_norms_updated k (sqrt upd.2), row)
  else (mask_param, ref_norms_updated, row)

/-- Values `pixel_vals[i] = line_data[i*num_samples + j]` read at lines 91-92. -/
def pixel_of (num_samples : Int) (line_data : List K) (j : Int) : Int → K :=
  fun i => getI line_data (i * num_samples + j)

/-- Lines 89-95 of `masking_thresh`: the norm of the pixel over the band range. -/
def pixel_norm_of (sqrt : K → K) (start_band_ind end_band_ind : Int) (pixel_vals : Int → K) : K :=
  sqrt ((band_inds start_band_ind end_band_ind).foldl
    (fun acc i => acc + pixel_vals i * pixel_vals i) 0)

/-- State of the loop over the reference spectra (lines 98-131) after the references
`0, .., k - 1` have been handled for one pixel. -/
def spectra_after (sqrt acos : K → K) (ref_norms_orig : List K) (pixel_vals : Int → K)
    (pixel_norm : K) (st : masking_t K × List K × List Bool) (k : Nat) :
    masking_t K × List K × List Bool :=
  ((List.range k).map (fun (t : Nat) => (t : Int))).foldl
    (thresh_spectrum sqrt acos ref_norms_orig pixel_vals pixel_norm) st

/-- Lines 88-132 of `masking_thresh`: the body of the loop over the samples, for sample `j`. -/
def thresh_sample (sqrt acos : K → K) (num_samples : Int) (line_data : List K)
    (ref_norms_orig : List K) (st : thresh_state K) (j : Int) : thresh_state K :=
  let pixel_vals := pixel_of num_samples line_data j
  let pixel_norm := pixel_norm_of sqrt st.mask_param.start_band_ind st.mask_param.end_band_ind
    pixel_vals
  let r := spectra_after sqrt acos ref_norms_orig pixel_vals pixel_norm
    (st.mask_param, st.ref_norms_updated, []) st.mask_param.num_masking_spectra.toNat
  { mask_param := r.1, ref_norms_updated := r.2.1, ret_thresh := st.ret_thresh ++ [r.2.2] }

/-- Array `ref_norms_orig` computed at lines 76-85 of `masking_thresh`. -/
def thresh_norms_orig (sqrt : K → K) (mask_param : masking_t K) : List K :=
  (List.range mask_param.num_masking_spectra.toNat).map (fun (i : Nat) =>
    ref_norm sqrt mask_param.start_band_ind mask_param.end_band_ind
      (rowI mask_param.orig_spectra (i : Int)))

/-- Lines 76-85 of `masking_thresh`: the state at the entry of the loop over the samples. -/
def thresh_entry (sqrt : K → K) (mask_param : masking_t K) : thresh_state K :=
  { mask_param := mask_param
    ref_norms_updated := (List.range mask_param.num_masking_spectra.toNat).map (fun (i : Nat) =>
      ref_norm sqrt mask_param.start_band_ind mask_param.end_band_ind
        (rowI mask_param.updated_spectra (i : Int)))
    ret_thresh := [] }

/-- State of `masking_thresh` after the samples `0, .., j - 1` of the line have been handled. -/
def thresh_after (sqrt acos : K → K) (mask_param : masking_t K) (num_samples : Int)
    (line_data : List K) (j : Nat) : thresh_state K :=
  ((List.range j).map (fun (t : Nat) => (t : Int))).foldl
    (thresh_sample sqrt acos num_samples line_data (thresh_norms_orig sqrt mask_param))
    (thresh_entry sqrt mask_param)

/-- Function `masking_thresh` of `masking.cpp`: the masking parameters after the call and the
table written to `*ret_thresh`. -/
def masking_thresh (sqrt acos : K → K) (mask_param : masking_t K) (num_samples : Int)
    (line_data : List K) : masking_t K × mask_thresh_t :=
  let st := thresh_after sqrt acos mask_param num_samples line_data num_samples.toNat
  (st.mask_param, st.ret_thresh)

/-- Lines 43-64 of `main.cpp`, generalised to any sequence of calls: `masking_thresh` is called
on each `(num_samples, line_data)` in turn on the same masking parameters; the result is the
final parameters and the tables returned by the calls. -/
def masking_run (sqrt acos : K → K) (mask_param : masking_t K) :
    List (Int × List K) → masking_t K × List mask_thresh_t
  | [] => (mask_param, [])
  | call :: rest =>
    let r := masking_thresh sqrt acos mask_param call.1 call.2
    let r' := masking_run sqrt acos r.1 rest
    (r'.1, r.2 :: r'.2)

/-- Allocation invariant of `masking_t` established by `masking_init`: the four arrays have
`num_masking_spectra` entries, every spectrum has `num_bands` entries, and the band range lies
inside `[0, num_bands - 1]`.  It makes every array access of `masking_thresh` defined. -/
def masking_wf (m : masking_t K) : Prop :=
  m.orig_spectra.length = m.num_masking_spectra.toNat ∧
  m.updated_spectra.length = m.num_masking_spectra.toNat ∧
  m.num_samples_in_spectra.length = m.num_masking_spectra.toNat ∧
  m.sam_thresh.length = m.num_masking_spectra.toNat ∧
  (∀ s ∈ m.orig_spectra, s.length = m.num_bands.toNat) ∧
  (∀ s ∈ m.updated_spectra, s.length = m.num_bands.toNat) ∧
  0 ≤ m.start_band_ind ∧ m.end_band_ind < m.num_bands

/-- Fields of the masking parameters that `masking_thresh` never writes: `m2` has the same
numbers of spectra and bands, original spectra, thresholds and band range as `m1`. -/
def same_frame (m1 m2 : masking_t K) : Prop :=
  m2.num_masking_spectra = m1.num_masking_spectra ∧ m2.num_bands = m1.num_bands ∧
  m2.orig_spectra = m1.orig_spectra ∧ m2.sam_thresh = m1.sam_thresh ∧
  m2.start_band_ind = m1.start_band_ind ∧ m2.end_band_ind = m1.end_band_ind

/-- Running-mean invariant of reference `k` with respect to the pixels `ps` (as functions of the
band index) that have updated it: the count is their number and, once there is one, every value
of the updated spectrum in the band range is the mean of their values in that band. -/
def mean_inv (m : masking_t K) (k : Int) (ps : List (Int → K)) : Prop :=
  getI m.num_samples_in_spectra k = (ps.length : Int) ∧
  (ps ≠ [] → ∀ i ∈ band_inds m.start_band_ind m.end_band_ind,
    getI (rowI m.updated_spectra k) i = (ps.map (fun q => q i)).sum / (ps.length : K))

/-- Coherence of the array `ref_norms_updated` of `masking_thresh`: it has one entry per
reference, the norm over the band range of the current updated spectrum. -/
def norms_inv (sqrt : K → K) (m : masking_t K) (ref_norms_updated : List K) : Prop :=
  ref_norms_updated.length = m.num_masking_spectra.toNat ∧
  ∀ k : Int, 0 ≤ k → k < m.num_masking_spectra →
    getI ref_norms_updated k
      = ref_norm sqrt m.start_band_ind m.end_band_ind (rowI m.updated_spectra k)

/-- Entry `(*ret_thresh)[j][k]` as the loop computes it: `pixel_belong` of sample `j` in the
state reached after the samples before `j`. -/
def belong_at (sqrt acos : K → K) (m : masking_t K) (num_samples : Int) (line_data : List K)
    (j : Nat) (k : Int) : Bool :=
  pixel_belong acos (thresh_after sqrt acos m num_samples line_data j).mask_param
    (thresh_norms_orig sqrt m)
    (thresh_after sqrt acos m num_samples line_data j).ref_norms_updated
    (pixel_of num_samples line_data (j : Int))
    (pixel_norm_of sqrt
      (thresh_after sqrt acos m num_samples line_data j).mask_param.start_band_ind
      (thresh_after sqrt acos m num_samples line_data j).mask_param.end_band_ind
      (pixel_of num_samples line_data (j : Int))) k

/-- Example state: one reference spectrum `[1]` on one band, threshold `3/10`, no sample seen;
it is the state that `masking_init` builds from a directory with the single file
`400 1`, `500 1` for the wavelength `400`. -/
def example_mask : masking_t ℚ :=
  { num_masking_spectra := 1
    num_bands := 1
    orig_spectra := [[1]]
    updated_spectra := [[1]]
    num_samples_in_spectra := [0]
    sam_thresh := [3 / 10]
    start_band_ind := 0
    end_band_ind := 0 }

/-- Example square root on `ℚ`, exact at `4`. -/
def example_sqrt (x : ℚ) : ℚ := if x = 4 then 2 else x

/-- Example arc cosine on `ℚ`, exact at `1`. -/
def example_acos (x : ℚ) : ℚ := 1 - x

/-- Band vector of a pixel: its values over the band range, in band order. -/
def pixel_band_vector (m : masking_t K) (pixel_vals : Int → K) : List K :=
  (band_inds m.start_band_ind m.end_band_ind).map pixel_vals

/-- Band vector of a reference spectrum: its values over the band range, in band order. -/
def ref_band_vector (m : masking_t K) (spectrum : List K) : List K :=
  (band_inds m.start_band_ind m.end_band_ind).map (getI spectrum)

/-- Band vectors of the samples of one call that the returned table marks as belonging to
reference `k`, in sample order. -/
def members_of_line (m : masking_t K) (num_samples : Int) (line_data : List K)
    (ret : mask_thresh_t) (k : Nat) : List (List K) :=
  ((List.range num_samples.toNat).filter (fun (j : Nat) => (ret.getD j []).getD k false)).map
    (fun (j : Nat) => pixel_band_vector m (pixel_of num_samples line_data (j : Int)))

/-- Band vectors of all the samples of a sequence of calls that the returned tables mark as
belonging to reference `k`, in processing order. -/
def members_of_run (sqrt acos : K → K) (m : masking_t K) :
    List (Int × List K) → Nat → List (List K)
  | [], _ => []
  | call :: rest, k =>
    members_of_line m call.1 call.2 (masking_thresh sqrt acos m call.1 call.2).2 k
      ++ members_of_run sqrt acos (masking_thresh sqrt acos m call.1 call.2).1 rest k

/-- Arithmetic mean of component `t` of a list of vectors. -/
def mean_component (vectors : List (List K)) (t : Nat) : K :=
  (vectors.map (fun p => p.getD t 0)).sum / (vectors.length : K)

/-- Dot product of two vectors. -/
def vec_dot (p r : List K) : K := (List.zipWith (fun x y => x * y) p r).sum

/-- Euclidean norm of a vector, with the square root function `sqrt`. -/
def vec_norm (sqrt : K → K) (p : List K) : K := sqrt (vec_dot p p)

/-- Spectral angle `arccos(dot(p, r) / (norm(p) * norm(r)))` of two vectors; `none` when the
quotient is undefined (a zero norm) or outside the domain `[-1, 1]` of `arccos`. -/
def sam_angle (sqrt acos : K → K) (p r : List K) : Option K :=
  facos acos (fdiv (vec_dot p r) (vec_norm sqrt p * vec_norm sqrt r))

/-- Function `masking_pixel_belongs` of `masking.cpp`. -/
def masking_pixel_belongs (mask_param : masking_t K) (threshed : mask_thresh_t) (sample : Int) :
    Bool :=
  ((List.range mask_param.num_masking_spectra.toNat).map (fun (i : Nat) => (i : Int))).foldl
    (fun belongs i => belongs || (rowI threshed sample).getD i.toNat false) false


/-- Directory read by `masking_init` for a masking type (the `switch` at lines 22-37). -/
def mode_directory (reflectance_dir transmittance_dir : Option (List (file_t K)))
    (masking_type : masking_input_data_type_t) : Option (List (file_t K)) :=
  match masking_type with
  | .REFLECTANCE_MASKING => reflectance_dir
  | .TRANSMITTANCE_MASKING => transmittance_dir

/-- Default threshold of a masking type in the specification of `init`: `0.3` for reflectance and
`0.10` for transmittance. -/
def mode_threshold (masking_type : masking_input_data_type_t) : K :=
  match masking_type with
  | .REFLECTANCE_MASKING => 3 / 10
  | .TRANSMITTANCE_MASKING => 1 / 10

/-- Two masking parameters agree on everything inside the band range: same number of reference
spectra and band range and, for every reference, same count, same threshold and same values of
the original and of the updated spectrum at every band of the band range.  Values outside the
band range are free. -/
def band_agree (m1 m2 : masking_t K) : Prop :=
  m2.num_masking_spectra = m1.num_masking_spectra ∧
  m2.start_band_ind = m1.start_band_ind ∧ m2.end_band_ind = m1.end_band_ind ∧
  ∀ k : Nat, (k : Int) < m1.num_masking_spectra →
    getI m2.num_samples_in_spectra (k : Int) = getI m1.num_samples_in_spectra (k : Int) ∧
    getI m2.sam_thresh (k : Int) = getI m1.sam_thresh (k : Int) ∧
    ∀ i ∈ band_inds m1.start_band_ind m1.end_band_ind,
      getI (rowI m2.orig_spectra (k : Int)) i = getI (rowI m1.orig_spectra (k : Int)) i ∧
      getI (rowI m2.updated_spectra (k : Int)) i = getI (rowI m1.updated_spectra (k : Int)) i

/-- Two lines of `num_samples` samples agree inside the band range of `m`. -/
def lines_agree (m : masking_t K) (num_samples : Int) (line1 line2 : List K) : Prop :=
  ∀ j : Nat, (j : Int) < num_samples →
    ∀ i ∈ band_inds m.start_band_ind m.end_band_ind,
      pixel_of num_samples line2 (j : Int) i = pixel_of num_samples line1 (j : Int) i

/-- Example state with two bands of which only band `0` is in the band range. -/
def example_mask_a : masking_t ℚ :=
  { num_masking_spectra := 1
    num_bands := 2
    orig_spectra := [[1, 5]]
    updated_spectra := [[1, 5]]
    num_samples_in_spectra := [0]
    sam_thresh := [3 / 10]
    start_band_ind := 0
    end_band_ind := 0 }

/-- Example state that differs from `example_mask_a` in band `1` only. -/
def example_mask_b : masking_t ℚ :=
  { num_masking_spectra := 1
    num_bands := 2
    orig_spectra := [[1, 7]]
    updated_spectra := [[1, 9]]
    num_samples_in_spectra := [0]
    sam_thresh := [3 / 10]
    start_band_ind := 0
    end_band_ind := 0 }

/-- Value of `samval_orig` after the division of line 105 of `masking_thresh`, which line 106
hands to `acos` (`none` when it is not finite).  Nothing is applied to it in between. -/
def cos_orig (mask_param : masking_t K) (ref_norms_orig : List K) (pixel_vals : Int → K)
    (pixel_norm : K) (k : Int) : Option K :=
  fdiv (samval mask_param.start_band_ind mask_param.end_band_ind pixel_vals
    (rowI mask_param.orig_spectra k)) (pixel_norm * getI ref_norms_orig k)

/-- Value of `samval_updated` after the division of line 107 of `masking_thresh`, which line 108
hands to `acos` (`none` when it is not finite). -/
def cos_updated (mask_param : masking_t K) (ref_norms_updated : List K) (pixel_vals : Int → K)
    (pixel_norm : K) (k : Int) : Option K :=
  fdiv (samval mask_param.start_band_ind mask_param.end_band_ind pixel_vals
    (rowI mask_param.updated_spectra k)) (pixel_norm * getI ref_norms_updated k)

/-- Example state with the single reference spectrum `[1, 1]` on two bands. -/
def diag_mask : masking_t K :=
  { num_masking_spectra := 1
    num_bands := 2
    orig_spectra := [[1, 1]]
    updated_spectra := [[1, 1]]
    num_samples_in_spectra := [0]
    sam_thresh := [3 / 10]
    start_band_ind := 0
    end_band_ind := 1 }

/-- Example square root on `ℚ` that rounds the square root of `2` down to four digits, as a
finite-precision square root does. -/
def rounded_sqrt (x : ℚ) : ℚ := if x = 2 then 1414 / 1000 else x

/-- Example square root on `ℚ` that takes at `2` the value of the IEEE single-precision square
root, `11863283 / 2^23`. -/
def single_sqrt (x : ℚ) : ℚ := if x = 2 then 11863283 / 8388608 else x

/-- Example state built by `masking_init` from a directory with the single file `400 4`, `500 3`,
`600 3` for the wavelengths `400, 500`: one reference spectrum `[4, 3]` on two bands. -/
def drift_mask : masking_t K :=
  { num_masking_spectra := 1
    num_bands := 2
    orig_spectra := [[4, 3]]
    updated_spectra := [[4, 3]]
    num_samples_in_spectra := [0]
    sam_thresh := [3 / 10]
    start_band_ind := 0
    end_band_ind := 1 }

/-- Example line of two samples on two bands, band-major: the pixels `(5, 12)` and `(3, 4)`. -/
def drift_line : List K := [5, 3, 12, 4]

/-- The samples of the line `line` of `nA + nB` samples are the samples of the line `A` of `nA`
samples followed by the samples of the line `B` of `nB` samples, every line in the band-major
layout (sample `j` of band `i` at index `i * num_samples + j`) with the bands
`0, .., num_bands - 1`. -/
def samples_concat (num_bands : Int) (nA nB : Nat) (A B line : List K) : Prop :=
  ∀ i : Int, 0 ≤ i → i < num_bands →
    (∀ j : Nat, j < nA →
      pixel_of ((nA : Int) + (nB : Int)) line (j : Int) i = pixel_of (nA : Int) A (j : Int) i) ∧
    (∀ j : Nat, j < nB →
      pixel_of ((nA : Int) + (nB : Int)) line ((nA : Int) + (j : Int)) i
        = pixel_of (nB : Int) B (j : Int) i)

/-- The line of one sample that holds sample `j` of `line_data`: its value in band `i` is at
index `i`. -/
def pixel_line (num_bands num_samples : Int) (line_data : List K) (j : Int) : List K :=
  (List.range num_bands.toNat).map (fun (i : Nat) => pixel_of num_samples line_data j (i : Int))

/-- Left fold of the single-pixel step over the samples `0, .., num_samples - 1` in increasing
order: the step is one call of `masking_thresh` on the line that holds the one sample, its row
is appended to the rows written so far. -/
def classify_fold (sqrt acos : K → K) (mask_param : masking_t K) (num_samples : Int)
    (line_data : List K) : masking_t K × mask_thresh_t :=
  ((List.range num_samples.toNat).map (fun (t : Nat) => (t : Int))).foldl
    (fun st j =>
      let r := masking_thresh sqrt acos st.1 1 (pixel_line st.1.num_bands num_samples line_data j)
      (r.1, st.2 ++ r.2))
    (mask_param, [])

end

/-! ## Theorems -/

section
variable {K : Type} [LinearOrderedField K] [FloorRing K]

theorem getI_natCast {A : Type} [Zero A] (a : List A) (i : Nat) :
    getI a (i : Int) = a.getD i 0 := by
  simp [getI]

theorem getI_of_lt {A : Type} [Zero A] (a : List A) (i : Nat) (h : i < a.length) :
    a[i]? = some (getI a (i : Int)) := by
  have h0 : ¬ ((i : Int) < 0) := by omega
  simp [getI, List.getD, List.getElem?_eq_getElem h, h0]

/-- Value of `spectral_get_value` when `lower_ind` is `i` and `i + 1` is a valid index. -/
theorem spectral_get_value_interp (s : spectrum_t K) (w : K) (i : Int)
    (hstep : 0 < s.step_wlen) (h0 : 0 ≤ i) (hi : i + 1 < s.num_values)
    (hlo : s.start_wlen + (i : K) * s.step_wlen ≤ w)
    (hhi : w < s.start_wlen + ((i : K) + 1) * s.step_wlen) :
    spectral_get_value s w = .ok (getI s.values i
      + (w - (s.start_wlen + (i : K) * s.step_wlen)) / s.step_wlen
        * (getI s.values (i + 1) - getI s.values i)) := by
  have hfl : ⌊(w - s.start_wlen) / s.step_wlen⌋ = i := by
    rw [Int.floor_eq_iff]
    constructor
    · rw [le_div_iff₀ hstep]; linarith
    · rw [div_lt_iff₀ hstep]; linarith
  have hn : s.num_values ≠ 0 := by omega
  unfold spectral_get_value
  simp only [hfl, hn, if_false]
  rw [if_neg (by omega), if_neg (by omega)]
  congr 3
  push_cast
  ring

/-- Value of `spectral_get_value` below the first grid point. -/
theorem spectral_get_value_below (s : spectrum_t K) (w : K)
    (hstep : 0 < s.step_wlen) (hn : 1 ≤ s.num_values) (hw : w < s.start_wlen) :
    spectral_get_value s w = .ok (getI s.values 0) := by
  have hfl : ⌊(w - s.start_wlen) / s.step_wlen⌋ < 0 := by
    rw [Int.floor_lt]
    simp only [Int.cast_zero]
    exact div_neg_of_neg_of_pos (by linarith) hstep
  have hn : s.num_values ≠ 0 := by omega
  unfold spectral_get_value
  simp only [hn, if_false]
  rw [if_pos hfl]

/-- Value of `spectral_get_value` from the last grid point on. -/
theorem spectral_get_value_above (s : spectrum_t K) (w : K)
    (hstep : 0 < s.step_wlen) (hn : 1 ≤ s.num_values)
    (hw : s.start_wlen + ((s.num_values : K) - 1) * s.step_wlen ≤ w) :
    spectral_get_value s w = .ok (getI s.values (s.num_values - 1)) := by
  have hfl : s.num_values - 1 ≤ ⌊(w - s.start_wlen) / s.step_wlen⌋ := by
    rw [Int.le_floor, le_div_iff₀ hstep]
    push_cast
    linarith
  have hn : s.num_values ≠ 0 := by omega
  unfold spectral_get_value
  simp only [hn, if_false]
  rw [if_neg (by omega), if_pos (by omega)]

end

section
variable {K : Type} [LinearOrderedField K] [FloorRing K]

/-- C3: on a spectrum with a positive step and `num_values` values, `spectral_get_value` at the
grid wavelength `start_wlen + i * step_wlen` of a valid index `i` succeeds and returns exactly
`values[i]`. -/
theorem spectral_get_value_grid (s : spectrum_t K) (i : Nat)
    (hstep : 0 < s.step_wlen) (hlen : (s.values.length : Int) = s.num_values)
    (hi : (i : Int) < s.num_values) :
    ∃ v, s.values[i]? = some v ∧
      spectral_get_value s (s.start_wlen + (i : K) * s.step_wlen) = .ok v := by
  refine ⟨getI s.values (i : Int), getI_of_lt _ _ (by omega), ?_⟩
  by_cases hlast : (i : Int) + 1 < s.num_values
  · rw [spectral_get_value_interp s _ (i : Int) hstep (by omega) hlast (by simp)
      (by push_cast; linarith)]
    simp
  · have hi1 : s.num_values - 1 = (i : Int) := by omega
    rw [spectral_get_value_above s _ hstep (by omega), hi1]
    have : (s.num_values : K) - 1 = (i : K) := by
      have := congrArg (fun z : Int => (z : K)) hi1
      simpa using this
    rw [this]

theorem spectral_get_value_grid_witness :
    ∃ v, ([0, 1, 4] : List ℚ)[1]? = some v ∧
      spectral_get_value (⟨3, 400, 100, [0, 1, 4]⟩ : spectrum_t ℚ) (400 + ((1 : Nat) : ℚ) * 100)
        = .ok v :=
  spectral_get_value_grid ⟨3, 400, 100, [0, 1, 4]⟩ 1 (by norm_num) (by simp) (by norm_num)

theorem read_pairs_foldl (records : List (K × K)) (acc : List K × List K) :
    records.foldl
      (fun acc r => if r.1 > 0 then (acc.1 ++ [r.1], acc.2 ++ [r.2]) else acc) acc
    = (acc.1 ++ (valid_pairs records).map Prod.fst, acc.2 ++ (valid_pairs records).map Prod.snd) := by
  induction records generalizing acc with
  | nil => simp [valid_pairs]
  | cons r rs ih =>
    rw [List.foldl_cons, ih]
    by_cases h : r.1 > 0
    · have h' : decide (0 < r.1) = true := by simpa using h
      simp [valid_pairs, List.filter_cons, h, h']
    · have h' : decide (0 < r.1) = false := by simpa using h
      simp [valid_pairs, List.filter_cons, h, h']

theorem read_pairs_eq (records : List (K × K)) :
    read_pairs records
      = ((valid_pairs records).map Prod.fst, (valid_pairs records).map Prod.snd) := by
  unfold read_pairs
  rw [read_pairs_foldl]
  simp

theorem valid_pairs_pos (records : List (K × K)) (p : K × K) (hp : p ∈ valid_pairs records) :
    0 < p.1 := by
  simpa using (List.mem_filter.1 hp).2

theorem find_min_step_pos (wlens : List K) (h : 0 < getI wlens 0) : 0 < find_min_step wlens := by
  unfold find_min_step
  generalize List.range (wlens.length - 1) = l
  generalize getI wlens 0 = init at h
  induction l generalizing init with
  | nil => simpa using h
  | cons t l ih =>
    rw [List.foldl_cons]
    apply ih
    dsimp only
    split_ifs with hc
    · exact hc.2
    · exact h

/-- The `while` loop of `spectral_read_file` ends within `fuel` iterations as soon as
`fuel * step_wlen` covers the distance to `max_wlen`; it appends at least one value when the loop
condition holds at entry and none otherwise. -/
theorem resample_loop_some (wlens vals : List K) (max_wlen step_wlen : K) :
    ∀ (fuel : Nat) (wlen : K) (upper : Int) (acc : List K),
      max_wlen - wlen ≤ (fuel : K) * step_wlen →
      ∃ vs, resample_loop wlens vals max_wlen step_wlen fuel wlen upper acc = some vs ∧
        (wlen < max_wlen → acc.length < vs.length) ∧ (¬ wlen < max_wlen → vs = acc) := by
  intro fuel
  induction fuel with
  | zero =>
    intro wlen upper acc h
    have hn : ¬ wlen < max_wlen := by
      simp only [Nat.cast_zero, zero_mul] at h
      intro hlt; linarith
    exact ⟨acc, by simp [resample_loop, hn], fun h' => absurd h' hn, fun _ => rfl⟩
  | succ fuel ih =>
    intro wlen upper acc h
    by_cases hlt : wlen < max_wlen
    · have h' : max_wlen - (wlen + step_wlen) ≤ (fuel : K) * step_wlen := by
        push_cast at h
        linarith
      obtain ⟨vs, hvs, h1, h2⟩ := ih (wlen + step_wlen)
        (if wlen ≥ getI wlens upper then upper + 1 else upper)
        (acc ++ [getI vals ((if wlen ≥ getI wlens upper then upper + 1 else upper) - 1)
          + (wlen - getI wlens ((if wlen ≥ getI wlens upper then upper + 1 else upper) - 1))
            / (getI wlens (if wlen ≥ getI wlens upper then upper + 1 else upper)
              - getI wlens ((if wlen ≥ getI wlens upper then upper + 1 else upper) - 1))
            * (getI vals (if wlen ≥ getI wlens upper then upper + 1 else upper)
              - getI vals ((if wlen ≥ getI wlens upper then upper + 1 else upper) - 1))]) h'
      refine ⟨vs, ?_, fun _ => ?_, fun hc => absurd hlt hc⟩
      · simp only [resample_loop, hlt, if_true]
        exact hvs
      by_cases hlt' : wlen + step_wlen < max_wlen
      · have := h1 hlt'
        simp only [List.length_append, List.length_singleton] at this
        omega
      · rw [h2 hlt']
        simp
    · exact ⟨acc, by simp [resample_loop, hlt], fun h' => absurd h' hlt, fun _ => rfl⟩

/-- The fuel `resample_fuel` given to the `while` loop by `spectral_read_file` is enough. -/
theorem resample_loop_fuel (wlens vals : List K) (min_wlen max_wlen step_wlen : K)
    (hstep : 0 < step_wlen) (upper : Int) (acc : List K) :
    ∃ vs, resample_loop wlens vals max_wlen step_wlen
        (resample_fuel min_wlen max_wlen step_wlen) min_wlen upper acc = some vs ∧
      (min_wlen < max_wlen → acc.length < vs.length) ∧ (¬ min_wlen < max_wlen → vs = acc) := by
  apply resample_loop_some wlens vals max_wlen step_wlen
  unfold resample_fuel
  have h1 : (max_wlen - min_wlen) / step_wlen ≤ (⌈(max_wlen - min_wlen) / step_wlen⌉ : K) :=
    Int.le_ceil _
  have h2 : (⌈(max_wlen - min_wlen) / step_wlen⌉ : K)
      ≤ ((⌈(max_wlen - min_wlen) / step_wlen⌉.toNat : Nat) : K) := by
    exact_mod_cast Int.self_le_toNat ⌈(max_wlen - min_wlen) / step_wlen⌉
  have h3 := h1.trans h2
  rw [div_le_iff₀ hstep] at h3
  exact h3

theorem getI_map_fst_zero (L : List (K × K)) (a : K × K) (h : L.head? = some a) :
    getI (L.map Prod.fst) 0 = a.1 := by
  cases L with
  | nil => simp at h
  | cons x xs =>
    simp only [List.head?_cons, Option.some.injEq] at h
    subst h
    simp [getI]

theorem getI_map_fst_last (L : List (K × K)) (b : K × K) (h : L.getLast? = some b) :
    getI (L.map Prod.fst) (((L.map Prod.fst).length : Int) - 1) = b.1 := by
  cases L with
  | nil => simp at h
  | cons x xs =>
    have hlen : (((x :: xs).map Prod.fst).length : Int) - 1 = ((xs.length : Nat) : Int) := by
      simp
    rw [List.getLast?_eq_getElem?] at h
    simp only [List.length_cons, Nat.add_sub_cancel] at h
    rw [hlen, getI_natCast, List.getD_eq_getElem?_getD, List.getElem?_map, h]
    rfl

/-- The three outcomes of `spectral_read_file` on a file with at least one record. -/
theorem spectral_read_file_cases (r : K × K) (rs : List (K × K)) :
    (valid_pairs (r :: rs) = [] ∧
      spectral_read_file (some (r :: rs)) = .error .SPECTRAL_FILE_NOT_FOUND) ∨
    (∃ a b, (valid_pairs (r :: rs)).head? = some a ∧ (valid_pairs (r :: rs)).getLast? = some b ∧
      ¬ a.1 < b.1 ∧ spectral_read_file (some (r :: rs)) = .error .SPECTRAL_FILE_NOT_FOUND) ∨
    (∃ a b vs, (valid_pairs (r :: rs)).head? = some a ∧
      (valid_pairs (r :: rs)).getLast? = some b ∧ a.1 < b.1 ∧ 0 < vs.length ∧
      spectral_read_file (some (r :: rs)) = .ok
        { num_values := vs.length
          start_wlen := a.1
          step_wlen := find_min_step ((valid_pairs (r :: rs)).map Prod.fst)
          values := vs }) := by
  rcases hL : valid_pairs (r :: rs) with _ | ⟨a, t⟩
  · left
    refine ⟨rfl, ?_⟩
    simp [spectral_read_file, read_pairs_eq, hL]
  · right
    have hne : valid_pairs (r :: rs) ≠ [] := by simp [hL]
    obtain ⟨b, hb⟩ : ∃ b, (valid_pairs (r :: rs)).getLast? = some b :=
      ⟨_, List.getLast?_eq_getLast _ hne⟩
    have ha : (valid_pairs (r :: rs)).head? = some a := by simp [hL]
    have hmin := getI_map_fst_zero _ _ ha
    have hmax := getI_map_fst_last _ _ hb
    have hpos : 0 < a.1 := valid_pairs_pos (r :: rs) a (by simp [hL])
    have hstep : 0 < find_min_step ((valid_pairs (r :: rs)).map Prod.fst) :=
      find_min_step_pos _ (by rw [hmin]; exact hpos)
    obtain ⟨vs, hvs, h1, h2⟩ := resample_loop_fuel ((valid_pairs (r :: rs)).map Prod.fst)
      ((valid_pairs (r :: rs)).map Prod.snd) a.1 b.1 _ hstep 0 []
    have hlen0 : ¬ ((valid_pairs (r :: rs)).map Prod.fst).length = 0 := by simp [hL]
    have hres : spectral_read_file (some (r :: rs)) =
        if vs.length = 0 then .error .SPECTRAL_FILE_NOT_FOUND
        else .ok
          { num_values := vs.length
            start_wlen := a.1
            step_wlen := find_min_step ((valid_pairs (r :: rs)).map Prod.fst)
            values := vs } := by
      simp only [spectral_read_file, read_pairs_eq]
      rw [if_neg hlen0, if_neg (by simp), hmin, hmax, hvs]
    rw [← hL]
    by_cases hlt : a.1 < b.1
    · right
      have hpos : 0 < vs.length := by simpa using h1 hlt
      refine ⟨a, b, vs, ha, hb, hlt, hpos, ?_⟩
      rw [hres, if_neg (by omega)]
    · left
      refine ⟨a, b, ha, hb, hlt, ?_⟩
      rw [hres, h2 hlt]
      simp

/-- C5 (the code at the failing input): for the records `(1, 0), (5, 1)` the only difference of
consecutive wavelengths is `4`, and `spectral_read_file` succeeds with `step_wlen = 1`, the
first wavelength, on a grid of four points. -/
theorem spectral_read_file_step_is_first_wavelength :
    spectral_read_file (some [((1 : ℚ), (0 : ℚ)), (5, 1)])
      = .ok ⟨4, 1, 1, [0, 1 / 4, 1 / 2, 3 / 4]⟩ := by
  have h1 : find_min_step ([1, 5] : List ℚ) = 1 := by
    norm_num [find_min_step, List.range_succ, getI]
  have h2 : resample_fuel (1 : ℚ) 5 1 = 4 := by
    norm_num [resample_fuel]
    rfl
  have h3 : resample_loop ([1, 5] : List ℚ) [0, 1] 5 1 4 1 0 [] = some [0, 1 / 4, 1 / 2, 3 / 4] := by
    norm_num [resample_loop, getI]
  simp [spectral_read_file, read_pairs, getI, h1, h2, h3]

theorem read_400_500 :
    spectral_read_file (some [((400 : ℚ), (0 : ℚ)), (500, 1)]) = .ok ⟨1, 400, 100, [0]⟩ := by
  have h1 : find_min_step ([400, 500] : List ℚ) = 100 := by
    norm_num [find_min_step, List.range_succ, getI]
  have h2 : resample_fuel (400 : ℚ) 500 100 = 1 := by
    norm_num [resample_fuel]
  have h3 : resample_loop ([400, 500] : List ℚ) [0, 1] 500 100 1 400 0 [] = some [0] := by
    norm_num [resample_loop, getI]
  simp [spectral_read_file, read_pairs, getI, h1, h2, h3]

/-- C6 (the code at the failing input): the records `(400, 0), (500, 1)` are uniformly spaced;
`spectral_read_file` keeps the single grid point `400`, and `spectral_get_value` at the
original wavelength `500` returns `0`, not the input amplitude `1`. -/
theorem round_trip_loses_last_point :
    spectral_read_file (some [((400 : ℚ), (0 : ℚ)), (500, 1)]) = .ok ⟨1, 400, 100, [0]⟩ ∧
    spectral_get_value (⟨1, 400, 100, [0]⟩ : spectrum_t ℚ) 400 = .ok 0 ∧
    spectral_get_value (⟨1, 400, 100, [0]⟩ : spectrum_t ℚ) 500 = .ok 0 := by
  refine ⟨read_400_500, ?_, ?_⟩
  · norm_num [spectral_get_value, getI]
  · norm_num [spectral_get_value, getI]

/-- C7 (the code at the failing input): on the spectrum read from `(400, 0), (500, 1)`,
`spectral_get_value` returns `0` at `450` (not `1/2`), `0` at `399` and `0` at `1000`. -/
theorem interpolation_400_500 :
    spectral_read_file (some [((400 : ℚ), (0 : ℚ)), (500, 1)]) = .ok ⟨1, 400, 100, [0]⟩ ∧
    spectral_get_value (⟨1, 400, 100, [0]⟩ : spectrum_t ℚ) 450 = .ok 0 ∧
    spectral_get_value (⟨1, 400, 100, [0]⟩ : spectrum_t ℚ) 399 = .ok 0 ∧
    spectral_get_value (⟨1, 400, 100, [0]⟩ : spectrum_t ℚ) 1000 = .ok 0 := by
  refine ⟨read_400_500, ?_, ?_, ?_⟩
  · norm_num [spectral_get_value, getI]
  · norm_num [spectral_get_value, getI]
  · norm_num [spectral_get_value, getI]

/-- A spectrum returned by `spectral_read_file` has `num_values` equal to the length of its value
array, at least one value and a strictly positive step. -/
theorem spectral_read_file_ok (file : file_t K) (s : spectrum_t K)
    (h : spectral_read_file file = .ok s) :
    (s.values.length : Int) = s.num_values ∧ 1 ≤ s.num_values ∧ 0 < s.step_wlen := by
  rcases file with _ | _ | ⟨r, rs⟩
  · simp [spectral_read_file] at h
  · simp [spectral_read_file] at h
  · rcases spectral_read_file_cases r rs with ⟨-, h2⟩ | ⟨a, b, -, -, -, h2⟩ |
      ⟨a, b, vs, ha, -, -, hpos, h2⟩
    · rw [h2] at h; cases h
    · rw [h2] at h; cases h
    · rw [h2] at h
      cases h
      refine ⟨rfl, ?_, ?_⟩
      · show (1 : Int) ≤ (vs.length : Int)
        omega
      · apply find_min_step_pos
        rw [getI_map_fst_zero _ _ ha]
        exact valid_pairs_pos (r :: rs) a (List.mem_of_mem_head? ha)

theorem spectral_copy_eq (s : spectrum_t K) (h : (s.values.length : Int) = s.num_values) :
    spectral_copy s = s := by
  cases s with
  | mk n st sp vs =>
    simp only [spectral_copy, spectrum_t.mk.injEq, true_and]
    apply List.take_of_length_le
    simp only at h
    omega

theorem read_valid_files_foldl (files : List (file_t K)) (acc : List (spectrum_t K) × Int) :
    files.foldl
      (fun acc file =>
        match spectral_read_file file with
        | .ok spectrum => (acc.1 ++ [spectrum], acc.2 + 1)
        | .error _ => acc) acc
    = (acc.1 ++ parsed_spectra files, acc.2 + ((parsed_spectra files).length : Int)) := by
  induction files generalizing acc with
  | nil => simp [parsed_spectra]
  | cons f fs ih =>
    rw [List.foldl_cons, ih]
    cases hf : spectral_read_file f with
    | error e => simp [parsed_spectra, List.filterMap_cons, hf]
    | ok sp =>
      simp only [parsed_spectra, List.filterMap_cons, hf, List.append_assoc, List.singleton_append,
        List.length_cons, Nat.cast_add, Nat.cast_one]
      congr 1
      ring

theorem read_valid_files_eq (files : List (file_t K)) :
    read_valid_files files = (parsed_spectra files, ((parsed_spectra files).length : Int)) := by
  unfold read_valid_files
  rw [read_valid_files_foldl]
  simp

theorem map_getD_range {A : Type} (l : List A) (d : A) :
    (List.range l.length).map (fun i => l.getD i d) = l := by
  apply List.ext_getElem
  · simp
  · intro n h1 h2
    simp [List.getD, List.getElem?_eq_getElem h2]

theorem parsed_spectra_copy (files : List (file_t K)) :
    (List.range (parsed_spectra files).length).map
      (fun i => spectral_copy ((parsed_spectra files).getD i ⟨0, 0, 0, []⟩))
    = parsed_spectra files := by
  have h : ∀ s ∈ parsed_spectra files, spectral_copy s = s := by
    intro s hs
    obtain ⟨f, -, hf⟩ := List.mem_filterMap.1 hs
    cases hr : spectral_read_file f with
    | error e => simp [hr] at hf
    | ok sp =>
      simp only [hr, Option.some.injEq] at hf
      subst hf
      exact spectral_copy_eq _ (spectral_read_file_ok f _ hr).1
  have h2 : (List.range (parsed_spectra files).length).map
      (fun i => spectral_copy ((parsed_spectra files).getD i ⟨0, 0, 0, []⟩))
      = ((List.range (parsed_spectra files).length).map
          (fun i => (parsed_spectra files).getD i ⟨0, 0, 0, []⟩)).map spectral_copy := by
    simp [List.map_map, Function.comp_def]
  rw [h2, map_getD_range]
  conv_rhs => rw [← List.map_id (parsed_spectra files)]
  exact List.map_congr_left h

/-- Result of `spectral_construct_library_from_files` in terms of the files that parse. -/
theorem spectral_construct_library_from_files_eq (files : List (file_t K)) :
    spectral_construct_library_from_files files =
      if parsed_spectra files = [] then
        (.SPECTRAL_DIRECTORY_FILE_ERROR, { num_spectra := 0, spectra := [] })
      else
        (.SPECTRAL_NO_ERR,
          { num_spectra := ((parsed_spectra files).length : Int)
            spectra := parsed_spectra files }) := by
  unfold spectral_construct_library_from_files
  simp only [read_valid_files_eq, Int.toNat_ofNat, parsed_spectra_copy]
  by_cases h : parsed_spectra files = []
  · simp [h]
  · have : ¬ ((parsed_spectra files).length : Int) = 0 := by
      simpa using h
    rw [if_neg this, if_neg h]

/-- C9: when at least one file of the list is read without error,
`spectral_construct_library_from_files` returns `SPECTRAL_NO_ERR` and the library holds exactly
the spectra of the files that are read without error, in file-list order and with the same
fields as returned by `spectral_read_file`; the other files are skipped. -/
theorem library_resilience (files : List (file_t K)) (h : parsed_spectra files ≠ []) :
    spectral_construct_library_from_files files =
      (.SPECTRAL_NO_ERR,
        { num_spectra := ((parsed_spectra files).length : Int)
          spectra := parsed_spectra files }) := by
  rw [spectral_construct_library_from_files_eq, if_neg h]

theorem parsed_two_files :
    parsed_spectra [some [((400 : ℚ), (0 : ℚ)), (500, 1)], some []]
      = [⟨1, 400, 100, [0]⟩] := by
  have h2 : spectral_read_file (some ([] : List (ℚ × ℚ))) = .error .SPECTRAL_NOT_VALID := rfl
  simp only [parsed_spectra, List.filterMap_cons, read_400_500, h2, List.filterMap_nil]

theorem library_resilience_witness :
    spectral_construct_library_from_files [some [((400 : ℚ), (0 : ℚ)), (500, 1)], some []] =
      (.SPECTRAL_NO_ERR, { num_spectra := 1, spectra := [⟨1, 400, 100, [0]⟩] }) := by
  have h := library_resilience [some [((400 : ℚ), (0 : ℚ)), (500, 1)], some []]
    (by rw [parsed_two_files]; simp)
  rw [parsed_two_files] at h
  exact h

/-- C10: `spectral_construct_library_from_files` returns `SPECTRAL_DIRECTORY_FILE_ERROR` exactly
when no file of the list is read without error (the empty list included); the library is then
empty with `num_spectra = 0`; and the returned value is never anything but
`SPECTRAL_DIRECTORY_FILE_ERROR` or `SPECTRAL_NO_ERR`, whatever the errors of the files. -/
theorem library_failure (files : List (file_t K)) :
    ((spectral_construct_library_from_files files).1 = .SPECTRAL_DIRECTORY_FILE_ERROR ↔
      ∀ file ∈ files, ∀ s, spectral_read_file file ≠ .ok s) ∧
    ((spectral_construct_library_from_files files).1 = .SPECTRAL_DIRECTORY_FILE_ERROR →
      (spectral_construct_library_from_files files).2 = { num_spectra := 0, spectra := [] }) ∧
    ((spectral_construct_library_from_files files).1 = .SPECTRAL_DIRECTORY_FILE_ERROR ∨
      (spectral_construct_library_from_files files).1 = .SPECTRAL_NO_ERR) := by
  have hiff : parsed_spectra files = [] ↔ ∀ file ∈ files, ∀ s, spectral_read_file file ≠ .ok s := by
    unfold parsed_spectra
    rw [List.filterMap_eq_nil_iff]
    constructor
    · intro h file hf s hs
      have := h file hf
      simp [hs] at this
    · intro h file hf
      cases hr : spectral_read_file file with
      | error e => rfl
      | ok sp => exact absurd hr (h file hf sp)
  rw [spectral_construct_library_from_files_eq]
  by_cases h : parsed_spectra files = []
  · rw [if_pos h]
    exact ⟨⟨fun _ => hiff.1 h, fun _ => rfl⟩, fun _ => rfl, Or.inl rfl⟩
  · rw [if_neg h]
    refine ⟨⟨fun hc => ?_, fun hc => absurd (hiff.2 hc) h⟩, fun hc => ?_, Or.inr rfl⟩
    · cases hc
    · cases hc

/-! ### Arrays -/

theorem length_setI {A : Type} (a : List A) (i : Int) (v : A) : (setI a i v).length = a.length := by
  unfold setI
  split_ifs <;> simp

theorem getI_setI_eq {A : Type} [Zero A] (a : List A) (i : Int) (v : A) (h0 : 0 ≤ i)
    (h : i.toNat < a.length) : getI (setI a i v) i = v := by
  have h0' : ¬ i < 0 := by omega
  simp [getI, setI, h0', List.getD, List.getElem?_set, h]

theorem getI_setI_ne {A : Type} [Zero A] (a : List A) (i j : Int) (v : A) (h : i ≠ j) :
    getI (setI a i v) j = getI a j := by
  unfold getI setI
  by_cases hj : j < 0
  · simp [hj]
  · by_cases hi : i < 0
    · simp [hi]
    · have hne : i.toNat ≠ j.toNat := by omega
      simp [hi, hj, List.getD, List.getElem?_set_ne hne]

theorem rowI_setI_eq {A : Type} (a : List (List A)) (i : Int) (v : List A) (h0 : 0 ≤ i)
    (h : i.toNat < a.length) : rowI (setI a i v) i = v := by
  have h0' : ¬ i < 0 := by omega
  simp [rowI, setI, h0', List.getD, List.getElem?_set, h]

theorem rowI_setI_ne {A : Type} (a : List (List A)) (i j : Int) (v : List A) (h : i ≠ j) :
    rowI (setI a i v) j = rowI a j := by
  unfold rowI setI
  by_cases hj : j < 0
  · simp [hj]
  · by_cases hi : i < 0
    · simp [hi]
    · have hne : i.toNat ≠ j.toNat := by omega
      simp [hi, hj, List.getD, List.getElem?_set_ne hne]

theorem rowI_mem {A : Type} (a : List (List A)) (i : Int) (h0 : 0 ≤ i) (h : i.toNat < a.length) :
    rowI a i ∈ a := by
  have h0' : ¬ i < 0 := by omega
  simp only [rowI, h0', if_false, List.getD_eq_getElem?_getD, List.getElem?_eq_getElem h,
    Option.getD_some]
  exact List.getElem_mem h

theorem mem_setI {A : Type} (a : List A) (i : Int) (v x : A) (h : x ∈ setI a i v) :
    x ∈ a ∨ x = v := by
  unfold setI at h
  split_ifs at h
  · exact Or.inl h
  · rcases List.mem_or_eq_of_mem_set h with h | h
    · exact Or.inl h
    · exact Or.inr h

theorem mem_band_inds (s e i : Int) : i ∈ band_inds s e ↔ s ≤ i ∧ i ≤ e := by
  unfold band_inds
  simp only [List.mem_map, List.mem_range]
  constructor
  · rintro ⟨t, ht, rfl⟩
    omega
  · intro h
    exact ⟨(i - s).toNat, by omega, by omega⟩

theorem nodup_band_inds (s e : Int) : (band_inds s e).Nodup := by
  unfold band_inds
  apply List.Nodup.map _ (List.nodup_range _)
  intro a b h
  simpa using h

theorem getD_band_inds (s e : Int) (t : Nat) (h : t < (band_inds s e).length) :
    (band_inds s e)[t]? = some (s + (t : Int)) := by
  unfold band_inds at h ⊢
  simp only [List.length_map, List.length_range] at h
  simp [List.getElem?_map, List.getElem?_range h]

/-! ### The running-mean update of one reference spectrum -/

theorem update_fold (pv : Int → K) (d : K) :
    ∀ (l : List Int) (s : List K) (acc : K), l.Nodup →
      (∀ i ∈ l, 0 ≤ i ∧ i.toNat < s.length) →
      (l.foldl
        (fun (st : List K × K) i =>
          let delta := pv i - getI st.1 i
          let spectrum := setI st.1 i (getI st.1 i + delta / d)
          (spectrum, st.2 + getI spectrum i * getI spectrum i))
        (s, acc)).1.length = s.length ∧
      (∀ i ∈ l, getI (l.foldl
        (fun (st : List K × K) i =>
          let delta := pv i - getI st.1 i
          let spectrum := setI st.1 i (getI st.1 i + delta / d)
          (spectrum, st.2 + getI spectrum i * getI spectrum i))
        (s, acc)).1 i = getI s i + (pv i - getI s i) / d) ∧
      (∀ i, i ∉ l → getI (l.foldl
        (fun (st : List K × K) i =>
          let delta := pv i - getI st.1 i
          let spectrum := setI st.1 i (getI st.1 i + delta / d)
          (spectrum, st.2 + getI spectrum i * getI spectrum i))
        (s, acc)).1 i = getI s i) ∧
      (l.foldl
        (fun (st : List K × K) i =>
          let delta := pv i - getI st.1 i
          let spectrum := setI st.1 i (getI st.1 i + delta / d)
          (spectrum, st.2 + getI spectrum i * getI spectrum i))
        (s, acc)).2 =
        l.foldl (fun a j => a + getI (l.foldl
          (fun (st : List K × K) i =>
            let delta := pv i - getI st.1 i
            let spectrum := setI st.1 i (getI st.1 i + delta / d)
            (spectrum, st.2 + getI spectrum i * getI spectrum i))
          (s, acc)).1 j * getI (l.foldl
          (fun (st : List K × K) i =>
            let delta := pv i - getI st.1 i
            let spectrum := setI st.1 i (getI st.1 i + delta / d)
            (spectrum, st.2 + getI spectrum i * getI spectrum i))
          (s, acc)).1 j) acc := by
  intro l
  induction l with
  | nil =>
    intro s acc _ _
    simp
  | cons i l ih =>
    intro s acc hnd hb
    have hi := hb i (List.mem_cons_self _ _)
    have hnd' := (List.nodup_cons.1 hnd).2
    have hil := (List.nodup_cons.1 hnd).1
    have hb' : ∀ j ∈ l, 0 ≤ j ∧ j.toNat < (setI s i (getI s i + (pv i - getI s i) / d)).length := by
      intro j hj
      rw [length_setI]
      exact hb j (List.mem_cons_of_mem _ hj)
    obtain ⟨h1, h2, h3, h4⟩ := ih (setI s i (getI s i + (pv i - getI s i) / d))
      (acc + getI (setI s i (getI s i + (pv i - getI s i) / d)) i
        * getI (setI s i (getI s i + (pv i - getI s i) / d)) i) hnd' hb'
    simp only [List.foldl_cons]
    refine ⟨?_, ?_, ?_, ?_⟩
    · rw [h1, length_setI]
    · intro j hj
      rcases List.mem_cons.1 hj with rfl | hj
      · rw [h3 j hil, getI_setI_eq _ _ _ hi.1 hi.2]
      · have hne : i ≠ j := fun h => hil (h ▸ hj)
        rw [h2 j hj, getI_setI_ne _ _ _ _ hne]
    · intro j hj
      have hne : i ≠ j := fun h => hj (h ▸ List.mem_cons_self _ _)
      rw [h3 j (fun h => hj (List.mem_cons_of_mem _ h)), getI_setI_ne _ _ _ _ hne]
    · rw [h4, h3 i hil]

/-- The update of lines 118-127 keeps the length of the spectrum, replaces every value `x` in the
band range by `x + (pixel - x) / n`, leaves the other values alone, and the accumulated sum of
squares is the one of the new values over the band range. -/
theorem update_spectrum_spec (sqrt : K → K) (start_band_ind end_band_ind : Int) (pv : Int → K)
    (n : Int) (s : List K) (h0 : 0 ≤ start_band_ind) (h1 : end_band_ind < s.length) :
    (update_spectrum start_band_ind end_band_ind pv n s).1.length = s.length ∧
    (∀ i ∈ band_inds start_band_ind end_band_ind,
      getI (update_spectrum start_band_ind end_band_ind pv n s).1 i
        = getI s i + (pv i - getI s i) / (n : K)) ∧
    (∀ i, i ∉ band_inds start_band_ind end_band_ind →
      getI (update_spectrum start_band_ind end_band_ind pv n s).1 i = getI s i) ∧
    sqrt (update_spectrum start_band_ind end_band_ind pv n s).2
      = ref_norm sqrt start_band_ind end_band_ind
          (update_spectrum start_band_ind end_band_ind pv n s).1 := by
  have hb : ∀ i ∈ band_inds start_band_ind end_band_ind, 0 ≤ i ∧ i.toNat < s.length := by
    intro i hi
    rw [mem_band_inds] at hi
    omega
  unfold update_spectrum ref_norm
  simp only [mul_one]
  obtain ⟨a, b, c, d⟩ := update_fold pv (n : K) (band_inds start_band_ind end_band_ind) s 0
    (nodup_band_inds _ _) hb
  exact ⟨a, b, c, congrArg sqrt d⟩

/-- Welford step: if `x` is the mean of the components `i` of `ps` (or anything when `ps` is
empty), then `x + (p i - x) / (length ps + 1)` is the mean of the components of `ps ++ [p]`. -/
theorem welford_step (ps : List (Int → K)) (p : Int → K) (i : Int) (x : K)
    (hx : ps ≠ [] → x = (ps.map (fun q => q i)).sum / (ps.length : K)) :
    x + (p i - x) / (((ps.length : Int) + 1 : Int) : K)
      = ((ps ++ [p]).map (fun q => q i)).sum / ((ps ++ [p]).length : K) := by
  have hpos : (0 : K) < (ps.length : K) + 1 := by positivity
  simp only [List.map_append, List.map_cons, List.map_nil, List.sum_append, List.sum_cons,
    List.sum_nil, add_zero, List.length_append, List.length_singleton, Nat.cast_add, Nat.cast_one,
    Int.cast_add, Int.cast_natCast, Int.cast_one]
  by_cases hps : ps = []
  · subst hps
    simp
  · have hlen : (0 : K) < (ps.length : K) := by
      have : 0 < ps.length := List.length_pos.2 hps
      exact_mod_cast this
    rw [hx hps]
    field_simp
    ring

theorem foldl_add_eq_sum (f g : Int → K) (l : List Int) (a : K) :
    l.foldl (fun acc i => acc + f i * g i) a
      = a + (List.zipWith (fun x y => x * y) (l.map f) (l.map g)).sum := by
  induction l generalizing a with
  | nil => simp
  | cons i l ih =>
    simp only [List.foldl_cons, ih, List.map_cons, List.zipWith_cons_cons, List.sum_cons]
    ring

theorem samval_eq_dot (m : masking_t K) (pv : Int → K) (s : List K) :
    samval m.start_band_ind m.end_band_ind pv s
      = vec_dot (pixel_band_vector m pv) (ref_band_vector m s) := by
  unfold samval vec_dot pixel_band_vector ref_band_vector
  rw [foldl_add_eq_sum]
  simp

theorem ref_norm_eq_norm (sqrt : K → K) (m : masking_t K) (s : List K) :
    ref_norm sqrt m.start_band_ind m.end_band_ind s = vec_norm sqrt (ref_band_vector m s) := by
  unfold ref_norm vec_norm vec_dot ref_band_vector
  rw [foldl_add_eq_sum]
  simp

theorem pixel_norm_eq_norm (sqrt : K → K) (m : masking_t K) (pv : Int → K) :
    pixel_norm_of sqrt m.start_band_ind m.end_band_ind pv
      = vec_norm sqrt (pixel_band_vector m pv) := by
  unfold pixel_norm_of vec_norm vec_dot pixel_band_vector
  rw [foldl_add_eq_sum]
  simp


/-! ### One reference spectrum, one pixel (lines 98-131) -/

theorem same_frame_refl (m : masking_t K) : same_frame m m :=
  ⟨rfl, rfl, rfl, rfl, rfl, rfl⟩

theorem same_frame_trans {m1 m2 m3 : masking_t K} (h12 : same_frame m1 m2)
    (h23 : same_frame m2 m3) : same_frame m1 m3 := by
  obtain ⟨a1, a2, a3, a4, a5, a6⟩ := h12
  obtain ⟨b1, b2, b3, b4, b5, b6⟩ := h23
  exact ⟨b1.trans a1, b2.trans a2, b3.trans a3, b4.trans a4, b5.trans a5, b6.trans a6⟩

/-- Effect of the body of the loop over the reference spectra. -/
theorem thresh_spectrum_step (sqrt acos : K → K) (no : List K) (pv : Int → K) (pn : K)
    (m : masking_t K) (norms : List K) (row : List Bool) (k' : Int)
    (hwf : masking_wf m) (hn : norms.length = m.num_masking_spectra.toNat)
    (h0 : 0 ≤ k') (h1 : k' < m.num_masking_spectra) :
    same_frame m (thresh_spectrum sqrt acos no pv pn (m, norms, row) k').1 ∧
    masking_wf (thresh_spectrum sqrt acos no pv pn (m, norms, row) k').1 ∧
    (thresh_spectrum sqrt acos no pv pn (m, norms, row) k').2.2
      = row ++ [pixel_belong acos m no norms pv pn k'] ∧
    (thresh_spectrum sqrt acos no pv pn (m, norms, row) k').2.1.length = norms.length ∧
    (∀ k, k ≠ k' →
      rowI (thresh_spectrum sqrt acos no pv pn (m, norms, row) k').1.updated_spectra k
        = rowI m.updated_spectra k ∧
      getI (thresh_spectrum sqrt acos no pv pn (m, norms, row) k').1.num_samples_in_spectra k
        = getI m.num_samples_in_spectra k ∧
      getI (thresh_spectrum sqrt acos no pv pn (m, norms, row) k').2.1 k = getI norms k) ∧
    (pixel_belong acos m no norms pv pn k' = false →
      (thresh_spectrum sqrt acos no pv pn (m, norms, row) k').1 = m ∧
      (thresh_spectrum sqrt acos no pv pn (m, norms, row) k').2.1 = norms) ∧
    (pixel_belong acos m no norms pv pn k' = true →
      rowI (thresh_spectrum sqrt acos no pv pn (m, norms, row) k').1.updated_spectra k'
        = (update_spectrum m.start_band_ind m.end_band_ind pv
            (getI m.num_samples_in_spectra k' + 1) (rowI m.updated_spectra k')).1 ∧
      getI (thresh_spectrum sqrt acos no pv pn (m, norms, row) k').1.num_samples_in_spectra k'
        = getI m.num_samples_in_spectra k' + 1 ∧
      getI (thresh_spectrum sqrt acos no pv pn (m, norms, row) k').2.1 k'
        = sqrt (update_spectrum m.start_band_ind m.end_band_ind pv
            (getI m.num_samples_in_spectra k' + 1) (rowI m.updated_spectra k')).2) := by
  obtain ⟨w1, w2, w3, w4, w5, w6, w7, w8⟩ := hwf
  have hk : k'.toNat < m.num_masking_spectra.toNat := by omega
  cases hb : pixel_belong acos m no norms pv pn k' with
  | false =>
    have hst : thresh_spectrum sqrt acos no pv pn (m, norms, row) k' = (m, norms, row ++ [false]) := by
      simp [thresh_spectrum, hb]
    rw [hst]
    exact ⟨same_frame_refl m, ⟨w1, w2, w3, w4, w5, w6, w7, w8⟩, rfl, rfl,
      fun k _ => ⟨rfl, rfl, rfl⟩, fun _ => ⟨rfl, rfl⟩, fun h => by cases h⟩
  | true =>
    have hst : thresh_spectrum sqrt acos no pv pn (m, norms, row) k' =
        ({ m with
            updated_spectra := setI m.updated_spectra k'
              (update_spectrum m.start_band_ind m.end_band_ind pv
                (getI m.num_samples_in_spectra k' + 1) (rowI m.updated_spectra k')).1
            num_samples_in_spectra := setI m.num_samples_in_spectra k'
              (getI m.num_samples_in_spectra k' + 1) },
          setI norms k' (sqrt (update_spectrum m.start_band_ind m.end_band_ind pv
                (getI m.num_samples_in_spectra k' + 1) (rowI m.updated_spectra k')).2),
          row ++ [true]) := by
      simp [thresh_spectrum, hb]
    rw [hst]
    have hrow : (rowI m.updated_spectra k').length = m.num_bands.toNat :=
      w6 _ (rowI_mem _ _ h0 (by omega))
    have hupd := update_spectrum_spec sqrt m.start_band_ind m.end_band_ind pv
      (getI m.num_samples_in_spectra k' + 1) (rowI m.updated_spectra k') w7 (by omega)
    refine ⟨?_, ?_, ?_, ?_, ?_, ?_, ?_⟩
    · exact ⟨rfl, rfl, rfl, rfl, rfl, rfl⟩
    · refine ⟨w1, ?_, ?_, w4, w5, ?_, w7, w8⟩
      · simp only [length_setI]; exact w2
      · simp only [length_setI]; exact w3
      · intro s hs
        rcases mem_setI _ _ _ _ hs with hs | hs
        · exact w6 s hs
        · rw [hs, hupd.1, hrow]
    · rfl
    · simp only [length_setI]
    · intro k hk'
      exact ⟨rowI_setI_ne _ _ _ _ (Ne.symm hk'), getI_setI_ne _ _ _ _ (Ne.symm hk'),
        getI_setI_ne _ _ _ _ (Ne.symm hk')⟩
    · intro h
      cases h
    · intro _
      refine ⟨?_, ?_, ?_⟩
      · exact rowI_setI_eq _ _ _ h0 (by omega)
      · exact getI_setI_eq _ _ _ h0 (by omega)
      · exact getI_setI_eq _ _ _ h0 (by omega)

/-! ### The loop over the reference spectra for one pixel -/

theorem spectra_after_zero (sqrt acos : K → K) (no : List K) (pv : Int → K) (pn : K)
    (st : masking_t K × List K × List Bool) :
    spectra_after sqrt acos no pv pn st 0 = st := by
  simp [spectra_after]

theorem spectra_after_succ (sqrt acos : K → K) (no : List K) (pv : Int → K) (pn : K)
    (st : masking_t K × List K × List Bool) (n : Nat) :
    spectra_after sqrt acos no pv pn st (n + 1)
      = thresh_spectrum sqrt acos no pv pn (spectra_after sqrt acos no pv pn st n) (n : Int) := by
  simp [spectra_after, List.range_succ, List.foldl_append]

/-- Bit written for reference `t` of the pixel: `pixel_belong` in the state reached after the
references before `t`. -/
theorem spectra_after_spec (sqrt acos : K → K) (no : List K) (pv : Int → K) (pn : K)
    (m : masking_t K) (norms : List K) (row : List Bool)
    (hwf : masking_wf m) (hn : norms.length = m.num_masking_spectra.toNat) :
    ∀ n : Nat, (n : Int) ≤ m.num_masking_spectra →
      same_frame m (spectra_after sqrt acos no pv pn (m, norms, row) n).1 ∧
      masking_wf (spectra_after sqrt acos no pv pn (m, norms, row) n).1 ∧
      (spectra_after sqrt acos no pv pn (m, norms, row) n).2.1.length = norms.length ∧
      (spectra_after sqrt acos no pv pn (m, norms, row) n).2.2
        = row ++ (List.range n).map (fun (t : Nat) =>
            pixel_belong acos (spectra_after sqrt acos no pv pn (m, norms, row) t).1 no
              (spectra_after sqrt acos no pv pn (m, norms, row) t).2.1 pv pn (t : Int)) ∧
      (∀ k : Int, (n : Int) ≤ k →
        rowI (spectra_after sqrt acos no pv pn (m, norms, row) n).1.updated_spectra k
          = rowI m.updated_spectra k ∧
        getI (spectra_after sqrt acos no pv pn (m, norms, row) n).1.num_samples_in_spectra k
          = getI m.num_samples_in_spectra k ∧
        getI (spectra_after sqrt acos no pv pn (m, norms, row) n).2.1 k = getI norms k) := by
  intro n
  induction n with
  | zero =>
    intro _
    rw [spectra_after_zero]
    exact ⟨same_frame_refl m, hwf, rfl, by simp, fun k _ => ⟨rfl, rfl, rfl⟩⟩
  | succ n ih =>
    intro hle
    obtain ⟨f, w, l, r, u⟩ := ih (by omega)
    have hnum := f.1
    obtain ⟨s1, s2, s3, s4, s5, -, -⟩ := thresh_spectrum_step sqrt acos no pv pn
      (spectra_after sqrt acos no pv pn (m, norms, row) n).1
      (spectra_after sqrt acos no pv pn (m, norms, row) n).2.1
      (spectra_after sqrt acos no pv pn (m, norms, row) n).2.2 (n : Int) w
      (by rw [l, hn, hnum]) (by omega) (by rw [hnum]; omega)
    rw [spectra_after_succ]
    refine ⟨same_frame_trans f s1, s2, s4.trans l, ?_, ?_⟩
    · rw [s3, r, List.range_succ, List.map_append, List.append_assoc]
      rfl
    · intro k hk
      have hne : k ≠ (n : Int) := by omega
      obtain ⟨a, b, c⟩ := s5 k hne
      obtain ⟨a', b', c'⟩ := u k (by omega)
      exact ⟨a.trans a', b.trans b', c.trans c'⟩


theorem pixel_belong_congr (acos : K → K) (m m' : masking_t K) (no norms norms' : List K)
    (pv : Int → K) (pn : K) (k : Int) (hf : same_frame m m')
    (hu : rowI m'.updated_spectra k = rowI m.updated_spectra k)
    (hnk : getI norms' k = getI norms k) :
    pixel_belong acos m' no norms' pv pn k = pixel_belong acos m no norms pv pn k := by
  obtain ⟨-, -, f3, f4, f5, f6⟩ := hf
  unfold pixel_belong
  rw [f3, f4, f5, f6, hu, hnk]

/-- Row written for one pixel: the bit of every reference is `pixel_belong` in the state at the
start of the pixel, because the references handled before do not touch its spectrum, count or
norm. -/
theorem spectra_after_row (sqrt acos : K → K) (no : List K) (pv : Int → K) (pn : K)
    (m : masking_t K) (norms : List K) (row : List Bool)
    (hwf : masking_wf m) (hn : norms.length = m.num_masking_spectra.toNat)
    (n : Nat) (hle : (n : Int) ≤ m.num_masking_spectra) :
    (spectra_after sqrt acos no pv pn (m, norms, row) n).2.2
      = row ++ (List.range n).map (fun (t : Nat) => pixel_belong acos m no norms pv pn (t : Int)) := by
  rw [(spectra_after_spec sqrt acos no pv pn m norms row hwf hn n hle).2.2.2.1]
  congr 1
  apply List.map_congr_left
  intro t ht
  have htn : t < n := List.mem_range.1 ht
  obtain ⟨f, -, -, -, u⟩ := spectra_after_spec sqrt acos no pv pn m norms row hwf hn t (by omega)
  obtain ⟨a, -, c⟩ := u (t : Int) le_rfl
  exact pixel_belong_congr acos m _ no norms _ pv pn _ f a c

theorem mean_inv_congr (m m' : masking_t K) (k : Int) (ps : List (Int → K))
    (hf : same_frame m m') (hu : rowI m'.updated_spectra k = rowI m.updated_spectra k)
    (hc : getI m'.num_samples_in_spectra k = getI m.num_samples_in_spectra k)
    (h : mean_inv m k ps) : mean_inv m' k ps := by
  obtain ⟨-, -, -, -, f5, f6⟩ := hf
  unfold mean_inv at h ⊢
  rw [hc, hu, f5, f6]
  exact h

/-- The body of the loop over the references keeps the running-mean invariant of reference `k`:
the pixel joins the list exactly when the body is run for `k` and `pixel_belong` holds. -/
theorem thresh_spectrum_mean (sqrt acos : K → K) (no : List K) (pv : Int → K) (pn : K)
    (m : masking_t K) (norms : List K) (row : List Bool) (k' k : Int) (ps : List (Int → K))
    (hwf : masking_wf m) (hn : norms.length = m.num_masking_spectra.toNat)
    (h0 : 0 ≤ k') (h1 : k' < m.num_masking_spectra) (h : mean_inv m k ps) :
    mean_inv (thresh_spectrum sqrt acos no pv pn (m, norms, row) k').1 k
      (if k' = k ∧ pixel_belong acos m no norms pv pn k' = true then ps ++ [pv] else ps) := by
  obtain ⟨s1, s2, s3, s4, s5, s6, s7⟩ :=
    thresh_spectrum_step sqrt acos no pv pn m norms row k' hwf hn h0 h1
  by_cases hk : k' = k
  · subst hk
    cases hb : pixel_belong acos m no norms pv pn k' with
    | false =>
      rw [if_neg (by simp)]
      rw [(s6 hb).1]
      exact h
    | true =>
      rw [if_pos ⟨rfl, rfl⟩]
      obtain ⟨a, b, -⟩ := s7 hb
      obtain ⟨w1, w2, w3, w4, w5, w6, w7, w8⟩ := hwf
      have hrow : (rowI m.updated_spectra k').length = m.num_bands.toNat :=
        w6 _ (rowI_mem _ _ h0 (by omega))
      have hupd := update_spectrum_spec sqrt m.start_band_ind m.end_band_ind pv
        (getI m.num_samples_in_spectra k' + 1) (rowI m.updated_spectra k') w7 (by omega)
      obtain ⟨-, -, -, -, f5, f6⟩ := s1
      refine ⟨?_, fun _ i hi => ?_⟩
      · rw [b, h.1]
        simp
      · rw [f5, f6] at hi
        rw [a, hupd.2.1 i hi, h.1]
        exact welford_step ps pv i _ (fun hps => h.2 hps i hi)
  · rw [if_neg (fun hc => hk hc.1)]
    obtain ⟨a, b, -⟩ := s5 k (Ne.symm hk)
    exact mean_inv_congr m _ k ps s1 a b h

/-- The body of the loop over the references keeps `ref_norms_updated` coherent. -/
theorem thresh_spectrum_norms (sqrt acos : K → K) (no : List K) (pv : Int → K) (pn : K)
    (m : masking_t K) (norms : List K) (row : List Bool) (k' : Int)
    (hwf : masking_wf m) (h0 : 0 ≤ k') (h1 : k' < m.num_masking_spectra)
    (h : norms_inv sqrt m norms) :
    norms_inv sqrt (thresh_spectrum sqrt acos no pv pn (m, norms, row) k').1
      (thresh_spectrum sqrt acos no pv pn (m, norms, row) k').2.1 := by
  obtain ⟨s1, s2, s3, s4, s5, s6, s7⟩ :=
    thresh_spectrum_step sqrt acos no pv pn m norms row k' hwf h.1 h0 h1
  obtain ⟨f1, -, -, -, f5, f6⟩ := s1
  refine ⟨by rw [s4, h.1, f1], fun k hk0 hk1 => ?_⟩
  rw [f1] at hk1
  rw [f5, f6]
  by_cases hk : k = k'
  · subst hk
    cases hb : pixel_belong acos m no norms pv pn k with
    | false =>
      rw [(s6 hb).1, (s6 hb).2]
      exact h.2 k hk0 hk1
    | true =>
      obtain ⟨a, -, c⟩ := s7 hb
      obtain ⟨w1, w2, w3, w4, w5, w6, w7, w8⟩ := hwf
      have hrow : (rowI m.updated_spectra k).length = m.num_bands.toNat :=
        w6 _ (rowI_mem _ _ h0 (by omega))
      have hupd := update_spectrum_spec sqrt m.start_band_ind m.end_band_ind pv
        (getI m.num_samples_in_spectra k + 1) (rowI m.updated_spectra k) w7 (by omega)
      rw [a, c]
      exact hupd.2.2.2
  · obtain ⟨a, -, c⟩ := s5 k hk
    rw [a, c]
    exact h.2 k hk0 hk1

theorem spectra_after_norms (sqrt acos : K → K) (no : List K) (pv : Int → K) (pn : K)
    (m : masking_t K) (norms : List K) (row : List Bool)
    (hwf : masking_wf m) (h : norms_inv sqrt m norms) :
    ∀ n : Nat, (n : Int) ≤ m.num_masking_spectra →
      norms_inv sqrt (spectra_after sqrt acos no pv pn (m, norms, row) n).1
        (spectra_after sqrt acos no pv pn (m, norms, row) n).2.1 := by
  intro n
  induction n with
  | zero =>
    intro _
    rw [spectra_after_zero]
    exact h
  | succ n ih =>
    intro hle
    obtain ⟨f, w, -, -, -⟩ := spectra_after_spec sqrt acos no pv pn m norms row hwf h.1 n (by omega)
    have hlt : (n : Int) < (spectra_after sqrt acos no pv pn (m, norms, row) n).1.num_masking_spectra := by
      rw [f.1]; omega
    rw [spectra_after_succ]
    exact thresh_spectrum_norms sqrt acos no pv pn
      (spectra_after sqrt acos no pv pn (m, norms, row) n).1
      (spectra_after sqrt acos no pv pn (m, norms, row) n).2.1
      (spectra_after sqrt acos no pv pn (m, norms, row) n).2.2 (n : Int) w (by omega)
      hlt (ih (by omega))

theorem spectra_after_mean (sqrt acos : K → K) (no : List K) (pv : Int → K) (pn : K)
    (m : masking_t K) (norms : List K) (row : List Bool) (k : Nat) (ps : List (Int → K))
    (hwf : masking_wf m) (hn : norms.length = m.num_masking_spectra.toNat)
    (h : mean_inv m (k : Int) ps) :
    ∀ n : Nat, (n : Int) ≤ m.num_masking_spectra →
      mean_inv (spectra_after sqrt acos no pv pn (m, norms, row) n).1 (k : Int)
        (if k < n ∧ pixel_belong acos m no norms pv pn (k : Int) = true then ps ++ [pv] else ps) := by
  intro n
  induction n with
  | zero =>
    intro _
    rw [spectra_after_zero, if_neg (by simp)]
    exact h
  | succ n ih =>
    intro hle
    obtain ⟨f, w, l, -, u⟩ := spectra_after_spec sqrt acos no pv pn m norms row hwf hn n (by omega)
    have hstep := thresh_spectrum_mean sqrt acos no pv pn
      (spectra_after sqrt acos no pv pn (m, norms, row) n).1
      (spectra_after sqrt acos no pv pn (m, norms, row) n).2.1
      (spectra_after sqrt acos no pv pn (m, norms, row) n).2.2 (n : Int) (k : Int) _ w
      (by rw [l, hn, f.1]) (by omega) (by rw [f.1]; omega) (ih (by omega))
    rw [spectra_after_succ]
    by_cases hk : n = k
    · subst hk
      obtain ⟨a, -, c⟩ := u (n : Int) le_rfl
      rw [pixel_belong_congr acos m _ no norms _ pv pn _ f a c] at hstep
      simpa using hstep
    · have hne : ¬ ((n : Int) = (k : Int)) := by omega
      rw [if_neg (fun hc => hne hc.1)] at hstep
      have hiff : (k < n + 1 ∧ pixel_belong acos m no norms pv pn (k : Int) = true)
          ↔ (k < n ∧ pixel_belong acos m no norms pv pn (k : Int) = true) := by
        constructor
        · rintro ⟨a, b⟩; exact ⟨by omega, b⟩
        · rintro ⟨a, b⟩; exact ⟨by omega, b⟩
      simp only [hiff]
      exact hstep

/-! ### The loop over the samples of a line -/

theorem getI_map_range (f : Nat → K) (n : Nat) (k : Int) (h0 : 0 ≤ k) (h1 : k.toNat < n) :
    getI ((List.range n).map f) k = f k.toNat := by
  have h0' : ¬ k < 0 := by omega
  simp [getI, h0', List.getD_eq_getElem?_getD, List.getElem?_map, List.getElem?_range h1]

theorem thresh_entry_norms (sqrt : K → K) (m : masking_t K) :
    norms_inv sqrt m (thresh_entry sqrt m).ref_norms_updated := by
  refine ⟨by simp [thresh_entry], fun k h0 h1 => ?_⟩
  unfold thresh_entry
  simp only
  rw [getI_map_range _ _ _ h0 (by omega)]
  have : ((k.toNat : Nat) : Int) = k := by omega
  rw [this]

theorem thresh_norms_orig_get (sqrt : K → K) (m : masking_t K) (k : Int) (h0 : 0 ≤ k)
    (h1 : k < m.num_masking_spectra) :
    getI (thresh_norms_orig sqrt m) k
      = ref_norm sqrt m.start_band_ind m.end_band_ind (rowI m.orig_spectra k) := by
  unfold thresh_norms_orig
  rw [getI_map_range _ _ _ h0 (by omega)]
  have : ((k.toNat : Nat) : Int) = k := by omega
  rw [this]

theorem thresh_after_zero (sqrt acos : K → K) (m : masking_t K) (num_samples : Int)
    (line_data : List K) :
    thresh_after sqrt acos m num_samples line_data 0 = thresh_entry sqrt m := by
  simp [thresh_after]

theorem thresh_after_succ (sqrt acos : K → K) (m : masking_t K) (num_samples : Int)
    (line_data : List K) (j : Nat) :
    thresh_after sqrt acos m num_samples line_data (j + 1)
      = thresh_sample sqrt acos num_samples line_data (thresh_norms_orig sqrt m)
          (thresh_after sqrt acos m num_samples line_data j) (j : Int) := by
  simp [thresh_after, List.range_succ, List.foldl_append]

/-- Effect of the body of the loop over the samples on a coherent state. -/
theorem thresh_sample_spec (sqrt acos : K → K) (num_samples : Int) (line_data no : List K)
    (st : thresh_state K) (j : Int) (hwf : masking_wf st.mask_param)
    (hn : norms_inv sqrt st.mask_param st.ref_norms_updated) :
    same_frame st.mask_param (thresh_sample sqrt acos num_samples line_data no st j).mask_param ∧
    masking_wf (thresh_sample sqrt acos num_samples line_data no st j).mask_param ∧
    norms_inv sqrt (thresh_sample sqrt acos num_samples line_data no st j).mask_param
      (thresh_sample sqrt acos num_samples line_data no st j).ref_norms_updated ∧
    (thresh_sample sqrt acos num_samples line_data no st j).ret_thresh
      = st.ret_thresh ++ [(List.range st.mask_param.num_masking_spectra.toNat).map
          (fun (t : Nat) => pixel_belong acos st.mask_param no st.ref_norms_updated
            (pixel_of num_samples line_data j)
            (pixel_norm_of sqrt st.mask_param.start_band_ind st.mask_param.end_band_ind
              (pixel_of num_samples line_data j)) (t : Int))] ∧
    (∀ (k : Nat) (ps : List (Int → K)), (k : Int) < st.mask_param.num_masking_spectra →
      mean_inv st.mask_param (k : Int) ps →
      mean_inv (thresh_sample sqrt acos num_samples line_data no st j).mask_param (k : Int)
        (if pixel_belong acos st.mask_param no st.ref_norms_updated
            (pixel_of num_samples line_data j)
            (pixel_norm_of sqrt st.mask_param.start_band_ind st.mask_param.end_band_ind
              (pixel_of num_samples line_data j)) (k : Int) = true
          then ps ++ [pixel_of num_samples line_data j] else ps)) := by
  have hle' : ((st.mask_param.num_masking_spectra.toNat : Nat) : Int)
      ≤ st.mask_param.num_masking_spectra ∨ st.mask_param.num_masking_spectra.toNat = 0 := by
    omega
  rcases hle' with hle' | hz
  · obtain ⟨f, w, -, -, -⟩ := spectra_after_spec sqrt acos no (pixel_of num_samples line_data j)
      (pixel_norm_of sqrt st.mask_param.start_band_ind st.mask_param.end_band_ind
        (pixel_of num_samples line_data j)) st.mask_param st.ref_norms_updated [] hwf hn.1 _ hle'
    refine ⟨f, w, ?_, ?_, ?_⟩
    · exact spectra_after_norms sqrt acos no _ _ _ _ [] hwf hn _ hle'
    · unfold thresh_sample
      simp only
      rw [spectra_after_row sqrt acos no _ _ _ _ [] hwf hn.1 _ hle']
      simp
    · intro k ps hk hps
      have := spectra_after_mean sqrt acos no (pixel_of num_samples line_data j)
        (pixel_norm_of sqrt st.mask_param.start_band_ind st.mask_param.end_band_ind
          (pixel_of num_samples line_data j)) st.mask_param st.ref_norms_updated [] k ps hwf hn.1
        hps _ hle'
      have hk' : k < st.mask_param.num_masking_spectra.toNat := by omega
      simp only [hk', true_and] at this
      exact this
  · have h0 : ∀ x, spectra_after sqrt acos no (pixel_of num_samples line_data j)
        (pixel_norm_of sqrt st.mask_param.start_band_ind st.mask_param.end_band_ind
          (pixel_of num_samples line_data j)) x st.mask_param.num_masking_spectra.toNat = x := by
      intro x
      rw [hz, spectra_after_zero]
    unfold thresh_sample
    simp only [h0]
    refine ⟨same_frame_refl _, hwf, hn, by simp [hz], ?_⟩
    intro k ps hk
    omega

/-- State of `masking_thresh` after `J` samples: the never-written fields are those of the entry,
the state is well formed and the cached norms are coherent; the table holds one row per sample
with the bits `belong_at`; and the running-mean invariant of reference `k` has taken in exactly
the pixels of the samples whose bit for `k` is set. -/
theorem thresh_after_spec (sqrt acos : K → K) (m : masking_t K) (num_samples : Int)
    (line_data : List K) (hwf : masking_wf m) :
    ∀ J : Nat,
      same_frame m (thresh_after sqrt acos m num_samples line_data J).mask_param ∧
      masking_wf (thresh_after sqrt acos m num_samples line_data J).mask_param ∧
      norms_inv sqrt (thresh_after sqrt acos m num_samples line_data J).mask_param
        (thresh_after sqrt acos m num_samples line_data J).ref_norms_updated ∧
      (thresh_after sqrt acos m num_samples line_data J).ret_thresh
        = (List.range J).map (fun (j : Nat) =>
            (List.range m.num_masking_spectra.toNat).map (fun (t : Nat) =>
              belong_at sqrt acos m num_samples line_data j (t : Int))) ∧
      (∀ (k : Nat) (ps : List (Int → K)), (k : Int) < m.num_masking_spectra →
        mean_inv m (k : Int) ps →
        mean_inv (thresh_after sqrt acos m num_samples line_data J).mask_param (k : Int)
          (ps ++ ((List.range J).filter (fun (j : Nat) =>
            belong_at sqrt acos m num_samples line_data j (k : Int))).map
              (fun (j : Nat) => pixel_of num_samples line_data (j : Int)))) := by
  intro J
  induction J with
  | zero =>
    rw [thresh_after_zero]
    refine ⟨same_frame_refl m, hwf, thresh_entry_norms sqrt m, by simp [thresh_entry], ?_⟩
    intro k ps _ h
    simpa [thresh_entry] using h
  | succ J ih =>
    obtain ⟨f, w, n, r, u⟩ := ih
    obtain ⟨f', w', n', r', u'⟩ := thresh_sample_spec sqrt acos num_samples line_data
      (thresh_norms_orig sqrt m) (thresh_after sqrt acos m num_samples line_data J) (J : Int) w n
    rw [thresh_after_succ]
    refine ⟨same_frame_trans f f', w', n', ?_, ?_⟩
    · rw [r', r, List.range_succ, List.map_append, f.1]
      rfl
    · intro k ps hk hps
      have := u' k _ (by rw [f.1]; exact hk) (u k ps hk hps)
      rw [List.range_succ, List.filter_append, List.map_append, ← List.append_assoc]
      by_cases hb : belong_at sqrt acos m num_samples line_data J (k : Int) = true
      · have hb' := hb
        unfold belong_at at hb'
        rw [if_pos hb'] at this
        simpa [List.filter_cons, hb] using this
      · have hb' := hb
        unfold belong_at at hb'
        rw [if_neg hb'] at this
        simpa [List.filter_cons, hb] using this

/-! ### The membership rule -/

theorem flt_iff (x : Option K) (t : K) : flt x t = true ↔ ∃ a, x = some a ∧ a < t := by
  cases x with
  | none => simp [flt]
  | some a => simp [flt]

/-- The bit `belong_at` of sample `j` and reference `k` in terms of the spectral angles of the
band vector of the pixel with the original spectrum and with the updated spectrum as it stands
after the samples before `j`. -/
theorem belong_at_iff (sqrt acos : K → K) (m : masking_t K) (num_samples : Int)
    (line_data : List K) (j : Nat) (k : Int) (hwf : masking_wf m) (h0 : 0 ≤ k)
    (h1 : k < m.num_masking_spectra) :
    belong_at sqrt acos m num_samples line_data j k = true ↔
      (∃ a, sam_angle sqrt acos (pixel_band_vector m (pixel_of num_samples line_data (j : Int)))
          (ref_band_vector m (rowI m.orig_spectra k)) = some a ∧ a < getI m.sam_thresh k) ∨
      (∃ a, sam_angle sqrt acos (pixel_band_vector m (pixel_of num_samples line_data (j : Int)))
          (ref_band_vector m
            (rowI (thresh_after sqrt acos m num_samples line_data j).mask_param.updated_spectra k))
          = some a ∧ a < getI m.sam_thresh k) := by
  obtain ⟨f, -, n, -, -⟩ := thresh_after_spec sqrt acos m num_samples line_data hwf j
  obtain ⟨f1, -, f3, f4, f5, f6⟩ := f
  have hn := n.2 k h0 (by rw [f1]; exact h1)
  unfold belong_at pixel_belong
  simp only [Bool.or_eq_true, flt_iff]
  rw [hn, thresh_norms_orig_get sqrt m k h0 h1, f3, f4, f5, f6, samval_eq_dot, samval_eq_dot,
    ref_norm_eq_norm, ref_norm_eq_norm, pixel_norm_eq_norm]
  rfl

/-- Table returned by `masking_thresh`: one row per sample, one bit `belong_at` per reference. -/
theorem masking_thresh_table (sqrt acos : K → K) (m : masking_t K) (num_samples : Int)
    (line_data : List K) (hwf : masking_wf m) :
    (masking_thresh sqrt acos m num_samples line_data).2
      = (List.range num_samples.toNat).map (fun (j : Nat) =>
          (List.range m.num_masking_spectra.toNat).map (fun (t : Nat) =>
            belong_at sqrt acos m num_samples line_data j (t : Int))) := by
  unfold masking_thresh
  exact (thresh_after_spec sqrt acos m num_samples line_data hwf _).2.2.2.1

/-- C2: in the table returned by `masking_thresh` on a well-formed state, the entry of sample `j`
and reference `k` exists and is true if and only if the spectral angle of the pixel over the band
range with `orig_spectra[k]` is below `sam_thresh[k]` or its angle with `updated_spectra[k]`, as
it stands after the samples before `j`, is below `sam_thresh[k]`.  The comparison is strict: when
both angles equal the threshold the entry is false. -/
theorem membership_rule (sqrt acos : K → K) (m : masking_t K) (num_samples : Int)
    (line_data : List K) (j k : Nat) (hwf : masking_wf m) (hj : (j : Int) < num_samples)
    (hk : (k : Int) < m.num_masking_spectra) :
    ∃ row b, (masking_thresh sqrt acos m num_samples line_data).2[j]? = some row ∧
      row[k]? = some b ∧
      (b = true ↔
        (∃ a, sam_angle sqrt acos (pixel_band_vector m (pixel_of num_samples line_data (j : Int)))
            (ref_band_vector m (rowI m.orig_spectra (k : Int))) = some a ∧
          a < getI m.sam_thresh (k : Int)) ∨
        (∃ a, sam_angle sqrt acos (pixel_band_vector m (pixel_of num_samples line_data (j : Int)))
            (ref_band_vector m
              (rowI (thresh_after sqrt acos m num_samples line_data j).mask_param.updated_spectra
                (k : Int))) = some a ∧
          a < getI m.sam_thresh (k : Int))) ∧
      (sam_angle sqrt acos (pixel_band_vector m (pixel_of num_samples line_data (j : Int)))
          (ref_band_vector m (rowI m.orig_spectra (k : Int))) = some (getI m.sam_thresh (k : Int)) →
        sam_angle sqrt acos (pixel_band_vector m (pixel_of num_samples line_data (j : Int)))
          (ref_band_vector m
            (rowI (thresh_after sqrt acos m num_samples line_data j).mask_param.updated_spectra
              (k : Int))) = some (getI m.sam_thresh (k : Int)) →
        b = false) := by
  have hj' : j < num_samples.toNat := by omega
  have hk' : k < m.num_masking_spectra.toNat := by omega
  have hiff := belong_at_iff sqrt acos m num_samples line_data j (k : Int) hwf (by omega) hk
  refine ⟨(List.range m.num_masking_spectra.toNat).map (fun (t : Nat) =>
      belong_at sqrt acos m num_samples line_data j (t : Int)),
    belong_at sqrt acos m num_samples line_data j (k : Int), ?_, ?_, hiff, ?_⟩
  · rw [masking_thresh_table sqrt acos m num_samples line_data hwf, List.getElem?_map,
      List.getElem?_range hj']
    rfl
  · rw [List.getElem?_map, List.getElem?_range hk']
    rfl
  · intro ha hb
    cases hbel : belong_at sqrt acos m num_samples line_data j (k : Int) with
    | false => rfl
    | true =>
      exfalso
      rcases hiff.1 hbel with ⟨a, h1, h2⟩ | ⟨a, h1, h2⟩
      · rw [ha] at h1
        cases h1
        exact lt_irrefl _ h2
      · rw [hb] at h1
        cases h1
        exact lt_irrefl _ h2

/-! ### The running mean over a sequence of calls -/

theorem pixel_band_vector_frame (m m' : masking_t K) (hf : same_frame m m') (pv : Int → K) :
    pixel_band_vector m' pv = pixel_band_vector m pv := by
  obtain ⟨-, -, -, -, f5, f6⟩ := hf
  unfold pixel_band_vector
  rw [f5, f6]

/-- One call of `masking_thresh`: frame, well-formedness, and the running mean of reference `k`
takes in the pixels of `members_of_line`. -/
theorem masking_thresh_mean (sqrt acos : K → K) (m : masking_t K) (num_samples : Int)
    (line_data : List K) (k : Nat) (ps : List (Int → K)) (hwf : masking_wf m)
    (hk : (k : Int) < m.num_masking_spectra) (h : mean_inv m (k : Int) ps) :
    same_frame m (masking_thresh sqrt acos m num_samples line_data).1 ∧
    masking_wf (masking_thresh sqrt acos m num_samples line_data).1 ∧
    ∃ qs : List (Int → K),
      members_of_line m num_samples line_data
        (masking_thresh sqrt acos m num_samples line_data).2 k = qs.map (pixel_band_vector m) ∧
      mean_inv (masking_thresh sqrt acos m num_samples line_data).1 (k : Int) (ps ++ qs) := by
  obtain ⟨f, w, -, -, u⟩ := thresh_after_spec sqrt acos m num_samples line_data hwf
    num_samples.toNat
  have hk' : k < m.num_masking_spectra.toNat := by omega
  refine ⟨f, w, _, ?_, u k ps hk h⟩
  unfold members_of_line
  rw [masking_thresh_table sqrt acos m num_samples line_data hwf, List.map_map]
  have hfilter : (List.range num_samples.toNat).filter (fun (j : Nat) =>
        (((List.range num_samples.toNat).map (fun (j : Nat) =>
          (List.range m.num_masking_spectra.toNat).map (fun (t : Nat) =>
            belong_at sqrt acos m num_samples line_data j (t : Int)))).getD j []).getD k false)
      = (List.range num_samples.toNat).filter (fun (j : Nat) =>
          belong_at sqrt acos m num_samples line_data j (k : Int)) := by
    apply List.filter_congr
    intro j hj
    have hj' : j < num_samples.toNat := List.mem_range.1 hj
    simp [List.getD_eq_getElem?_getD, List.getElem?_map, List.getElem?_range hj',
      List.getElem?_range hk']
  rw [hfilter]
  rfl

/-- Any sequence of calls of `masking_thresh`: the running mean of reference `k` takes in the
pixels of `members_of_run`. -/
theorem masking_run_mean (sqrt acos : K → K) (k : Nat) :
    ∀ (lines : List (Int × List K)) (m : masking_t K) (ps : List (Int → K)),
      masking_wf m → (k : Int) < m.num_masking_spectra → mean_inv m (k : Int) ps →
      same_frame m (masking_run sqrt acos m lines).1 ∧
      ∃ qs : List (Int → K),
        members_of_run sqrt acos m lines k = qs.map (pixel_band_vector m) ∧
        mean_inv (masking_run sqrt acos m lines).1 (k : Int) (ps ++ qs) := by
  intro lines
  induction lines with
  | nil =>
    intro m ps _ _ h
    exact ⟨same_frame_refl m, [], rfl, by simpa [masking_run] using h⟩
  | cons call rest ih =>
    intro m ps hwf hk h
    obtain ⟨f, w, qs, hq, hm⟩ := masking_thresh_mean sqrt acos m call.1 call.2 k ps hwf hk h
    obtain ⟨f', qs', hq', hm'⟩ := ih (masking_thresh sqrt acos m call.1 call.2).1 (ps ++ qs) w
      (by rw [f.1]; exact hk) hm
    refine ⟨same_frame_trans f f', qs ++ qs', ?_, ?_⟩
    · simp only [members_of_run, hq, hq', List.map_append]
      congr 1
      apply List.map_congr_left
      intro pv _
      exact pixel_band_vector_frame m _ f pv
    · rw [← List.append_assoc]
      exact hm'

theorem mean_component_map (m : masking_t K) (ps : List (Int → K)) (t : Nat)
    (ht : t < (band_inds m.start_band_ind m.end_band_ind).length) :
    mean_component (ps.map (pixel_band_vector m)) t
      = (ps.map (fun q => q (m.start_band_ind + (t : Int)))).sum / (ps.length : K) := by
  unfold mean_component
  rw [List.length_map, List.map_map]
  congr 2
  apply List.map_congr_left
  intro q _
  simp only [Function.comp, pixel_band_vector, List.getD_eq_getElem?_getD, List.getElem?_map,
    getD_band_inds _ _ t ht]
  rfl

/-- Running mean after any sequence of calls from a well-formed state in which the count of
reference `k` is zero. -/
theorem masking_run_mean_fresh (sqrt acos : K → K) (m : masking_t K)
    (lines : List (Int × List K)) (k : Nat) (hwf : masking_wf m)
    (hk : (k : Int) < m.num_masking_spectra) (hc : getI m.num_samples_in_spectra (k : Int) = 0) :
    getI (masking_run sqrt acos m lines).1.num_samples_in_spectra (k : Int)
      = ((members_of_run sqrt acos m lines k).length : Int) ∧
    (1 ≤ getI (masking_run sqrt acos m lines).1.num_samples_in_spectra (k : Int) →
      ∀ t : Nat, t < (band_inds m.start_band_ind m.end_band_ind).length →
        getI (rowI (masking_run sqrt acos m lines).1.updated_spectra (k : Int))
            (m.start_band_ind + (t : Int))
          = mean_component (members_of_run sqrt acos m lines k) t) := by
  have h0 : mean_inv m (k : Int) [] := ⟨by simpa using hc, fun h => absurd rfl h⟩
  obtain ⟨f, qs, hq, hm⟩ := masking_run_mean sqrt acos k lines m [] hwf hk h0
  rw [List.nil_append] at hm
  obtain ⟨-, -, -, -, f5, f6⟩ := f
  refine ⟨by rw [hm.1, hq, List.length_map], fun h1 t ht => ?_⟩
  have hne : qs ≠ [] := by
    intro hnil
    rw [hm.1, hnil] at h1
    simp at h1
  have hi : m.start_band_ind + (t : Int) ∈ band_inds m.start_band_ind m.end_band_ind := by
    rw [mem_band_inds]
    unfold band_inds at ht
    simp only [List.length_map, List.length_range] at ht
    omega
  rw [hq, mean_component_map m qs t ht]
  have := hm.2 hne (m.start_band_ind + (t : Int)) (by rw [f5, f6]; exact hi)
  exact this

/-! ### Freshly initialised masking parameters -/

theorem masking_from_library_wf (library : spectral_library_t K) (wlens : List K) (thr : K) :
    masking_wf (masking_from_library library wlens thr) := by
  unfold masking_wf masking_from_library
  simp only [List.length_map, List.length_range, List.length_replicate, List.mem_map,
    List.mem_range, Int.toNat_ofNat, true_and]
  refine ⟨?_, ?_, le_refl _, by omega⟩
  · rintro s ⟨i, -, rfl⟩
    simp
  · rintro s ⟨i, -, rfl⟩
    simp

theorem getI_replicate_zero (n : Nat) (k : Int) : getI (List.replicate n (0 : Int)) k = 0 := by
  unfold getI
  split_ifs
  · rfl
  · rw [List.getD_eq_getElem?_getD, List.getElem?_replicate]
    split_ifs <;> rfl

/-- State returned by a successful `masking_init`: it is well formed, every count is zero, the
updated spectra are the original ones and the band range is the whole range of bands. -/
theorem masking_init_fresh (reflectance_dir transmittance_dir : Option (List (file_t K)))
    (wlens : List K) (masking_type : masking_input_data_type_t) (m0 : masking_t K)
    (hinit : masking_init reflectance_dir transmittance_dir wlens masking_type
      = (.MASKING_NO_ERR, some m0)) :
    masking_wf m0 ∧ (∀ k : Int, getI m0.num_samples_in_spectra k = 0) ∧
    m0.updated_spectra = m0.orig_spectra ∧
    m0.start_band_ind = 0 ∧ m0.end_band_ind = (wlens.length : Int) - 1 := by
  have key : ∀ (library : spectral_library_t K) (thr : K),
      m0 = masking_from_library library wlens thr →
      masking_wf m0 ∧ (∀ k : Int, getI m0.num_samples_in_spectra k = 0) ∧
      m0.updated_spectra = m0.orig_spectra ∧
      m0.start_band_ind = 0 ∧ m0.end_band_ind = (wlens.length : Int) - 1 := by
    intro library thr h
    subst h
    exact ⟨masking_from_library_wf library wlens thr,
      fun k => getI_replicate_zero _ k, rfl, rfl, rfl⟩
  cases masking_type with
  | REFLECTANCE_MASKING =>
    simp only [masking_init] at hinit
    split_ifs at hinit
    · cases hinit
    · simp only [Prod.mk.injEq, Option.some.injEq, true_and] at hinit
      exact key _ _ hinit.symm
  | TRANSMITTANCE_MASKING =>
    simp only [masking_init] at hinit
    split_ifs at hinit
    · cases hinit
    · simp only [Prod.mk.injEq, Option.some.injEq, true_and] at hinit
      exact key _ _ hinit.symm

/-- C1: after a successful `masking_init` and any sequence of calls of `masking_thresh`, for
every reference `k` the count `num_samples_in_spectra[k]` is the number of pixels that the
returned tables mark as belonging to `k`, and when that count is at least one, every band `t` of
`updated_spectra[k]` is the arithmetic mean of band `t` of those pixels (the original spectrum
is not counted as an observation). -/
theorem adaptive_mean (sqrt acos : K → K)
    (reflectance_dir transmittance_dir : Option (List (file_t K))) (wlens : List K)
    (masking_type : masking_input_data_type_t) (m0 : masking_t K)
    (lines : List (Int × List K)) (k : Nat)
    (hinit : masking_init reflectance_dir transmittance_dir wlens masking_type
      = (.MASKING_NO_ERR, some m0))
    (hk : (k : Int) < m0.num_masking_spectra) :
    getI (masking_run sqrt acos m0 lines).1.num_samples_in_spectra (k : Int)
      = ((members_of_run sqrt acos m0 lines k).length : Int) ∧
    (1 ≤ getI (masking_run sqrt acos m0 lines).1.num_samples_in_spectra (k : Int) →
      ∀ t : Nat, t < wlens.length →
        getI (rowI (masking_run sqrt acos m0 lines).1.updated_spectra (k : Int)) (t : Int)
          = mean_component (members_of_run sqrt acos m0 lines k) t) := by
  obtain ⟨hwf, hc, -, hs, he⟩ :=
    masking_init_fresh reflectance_dir transmittance_dir wlens masking_type m0 hinit
  obtain ⟨h1, h2⟩ := masking_run_mean_fresh sqrt acos m0 lines k hwf hk (hc _)
  refine ⟨h1, fun hn t ht => ?_⟩
  have := h2 hn t (by
    unfold band_inds
    simp only [List.length_map, List.length_range]
    omega)
  rw [hs, zero_add] at this
  exact this

theorem example_mask_wf : masking_wf example_mask := by
  unfold masking_wf example_mask
  simp

theorem example_thresh :
    masking_thresh example_sqrt example_acos example_mask 1 [2]
      = ({ example_mask with updated_spectra := [[2]], num_samples_in_spectra := [1] }, [[true]]) := by
  simp [masking_thresh, thresh_after, thresh_sample, thresh_entry, thresh_norms_orig, spectra_after,
    thresh_spectrum, pixel_belong, update_spectrum, samval, ref_norm, pixel_norm_of, pixel_of,
    band_inds, example_mask, example_sqrt, example_acos, getI, setI, rowI, fdiv, facos, flt,
    List.range_succ]
  norm_num

theorem example_init :
    masking_init (some [some [((400 : ℚ), (1 : ℚ)), (500, 1)]]) none [400]
      .REFLECTANCE_MASKING = (.MASKING_NO_ERR, some example_mask) := by
  have h1 : find_min_step ([400, 500] : List ℚ) = 100 := by
    norm_num [find_min_step, List.range_succ, getI]
  have h2 : resample_fuel (400 : ℚ) 500 100 = 1 := by
    norm_num [resample_fuel]
  have h3 : resample_loop ([400, 500] : List ℚ) [1, 1] 500 100 1 400 0 [] = some [1] := by
    norm_num [resample_loop, getI]
  have hr : spectral_read_file (some [((400 : ℚ), (1 : ℚ)), (500, 1)]) = .ok ⟨1, 400, 100, [1]⟩ := by
    simp [spectral_read_file, read_pairs, getI, h1, h2, h3]
  have hp : parsed_spectra [some [((400 : ℚ), (1 : ℚ)), (500, 1)]] = [⟨1, 400, 100, [1]⟩] := by
    simp only [parsed_spectra, List.filterMap_cons, hr, List.filterMap_nil]
  have hg : spectral_get_value (⟨1, 400, 100, [1]⟩ : spectrum_t ℚ) 400 = .ok 1 := by
    norm_num [spectral_get_value, getI]
  simp [masking_init, spectral_construct_library_from_directory,
    spectral_construct_library_from_files_eq, hp, masking_from_library, hg, example_mask,
    List.range_succ]

theorem adaptive_mean_witness :
    getI (masking_run example_sqrt example_acos example_mask [((1 : Int), ([2] : List ℚ))]).1.num_samples_in_spectra
        ((0 : Nat) : Int)
      = ((members_of_run example_sqrt example_acos example_mask [((1 : Int), ([2] : List ℚ))] 0).length : Int) ∧
    (1 ≤ getI (masking_run example_sqrt example_acos example_mask
        [((1 : Int), ([2] : List ℚ))]).1.num_samples_in_spectra ((0 : Nat) : Int) →
      ∀ t : Nat, t < ([400] : List ℚ).length →
        getI (rowI (masking_run example_sqrt example_acos example_mask
            [((1 : Int), ([2] : List ℚ))]).1.updated_spectra ((0 : Nat) : Int)) (t : Int)
          = mean_component
              (members_of_run example_sqrt example_acos example_mask [((1 : Int), ([2] : List ℚ))] 0) t) :=
  adaptive_mean example_sqrt example_acos (some [some [((400 : ℚ), (1 : ℚ)), (500, 1)]]) none [400]
    .REFLECTANCE_MASKING example_mask [((1 : Int), ([2] : List ℚ))] 0 example_init
    (by simp [example_mask])

theorem membership_rule_witness :
    ∃ row b, (masking_thresh example_sqrt example_acos example_mask 1 [2]).2[0]? = some row ∧
      row[0]? = some b ∧
      (b = true ↔
        (∃ a, sam_angle example_sqrt example_acos
            (pixel_band_vector example_mask (pixel_of 1 [2] ((0 : Nat) : Int)))
            (ref_band_vector example_mask (rowI example_mask.orig_spectra ((0 : Nat) : Int)))
              = some a ∧
          a < getI example_mask.sam_thresh ((0 : Nat) : Int)) ∨
        (∃ a, sam_angle example_sqrt example_acos
            (pixel_band_vector example_mask (pixel_of 1 [2] ((0 : Nat) : Int)))
            (ref_band_vector example_mask
              (rowI (thresh_after example_sqrt example_acos example_mask 1 [2] 0).mask_param.updated_spectra
                ((0 : Nat) : Int))) = some a ∧
          a < getI example_mask.sam_thresh ((0 : Nat) : Int))) ∧
      (sam_angle example_sqrt example_acos
          (pixel_band_vector example_mask (pixel_of 1 [2] ((0 : Nat) : Int)))
          (ref_band_vector example_mask (rowI example_mask.orig_spectra ((0 : Nat) : Int)))
            = some (getI example_mask.sam_thresh ((0 : Nat) : Int)) →
        sam_angle example_sqrt example_acos
          (pixel_band_vector example_mask (pixel_of 1 [2] ((0 : Nat) : Int)))
          (ref_band_vector example_mask
            (rowI (thresh_after example_sqrt example_acos example_mask 1 [2] 0).mask_param.updated_spectra
              ((0 : Nat) : Int))) = some (getI example_mask.sam_thresh ((0 : Nat) : Int)) →
        b = false) :=
  membership_rule example_sqrt example_acos example_mask 1 [2] 0 0 example_mask_wf (by norm_num)
    (by simp [example_mask])


/-! ### `spectral_get_value` never fails on a non-empty spectrum -/

theorem spectral_get_value_total (s : spectrum_t K) (w : K) (h : s.num_values ≠ 0) :
    ∃ v, spectral_get_value s w = .ok v := by
  unfold spectral_get_value
  simp only [h, if_false]
  split_ifs
  · exact ⟨_, rfl⟩
  · exact ⟨_, rfl⟩
  · exact ⟨_, rfl⟩

/-- C18: `spectral_get_value` returns `SPECTRAL_NOT_VALID` exactly when `num_values = 0`; on
every other spectrum it succeeds with a value, for every wavelength, and it never returns another
error. -/
theorem spectral_get_value_fails_iff (s : spectrum_t K) (w : K) :
    (spectral_get_value s w = .error .SPECTRAL_NOT_VALID ↔ s.num_values = 0) ∧
    (s.num_values ≠ 0 → ∃ v, spectral_get_value s w = .ok v) ∧
    (∀ e, spectral_get_value s w = .error e → e = .SPECTRAL_NOT_VALID) := by
  refine ⟨⟨fun h => ?_, fun h => ?_⟩, spectral_get_value_total s w, fun e h => ?_⟩
  · by_contra hne
    obtain ⟨v, hv⟩ := spectral_get_value_total s w hne
    rw [hv] at h
    cases h
  · simp [spectral_get_value, h]
  · by_cases hn : s.num_values = 0
    · simp only [spectral_get_value, hn, if_true] at h
      cases h
      rfl
    · obtain ⟨v, hv⟩ := spectral_get_value_total s w hn
      rw [hv] at h
      cases h

/-! ### `masking_pixel_belongs` -/

theorem foldl_or_eq_any {A : Type} (f : A → Bool) (l : List A) (b : Bool) :
    l.foldl (fun belongs i => belongs || f i) b = (b || l.any f) := by
  induction l generalizing b with
  | nil => simp
  | cons x xs ih =>
    rw [List.foldl_cons, ih, List.any_cons, Bool.or_assoc]

/-- C12: `masking_pixel_belongs` is true exactly when the row of the sample holds `true` for at
least one reference index below `num_masking_spectra` (so it is false without references); it is
true on the row `[false, true, false]` and false on the row `[false, false]`. -/
theorem masking_pixel_belongs_iff :
    (∀ (m : masking_t K) (threshed : mask_thresh_t) (sample : Int),
      masking_pixel_belongs m threshed sample = true ↔
        ∃ k : Nat, (k : Int) < m.num_masking_spectra ∧
          (rowI threshed sample).getD k false = true) ∧
    (∀ (m : masking_t K) (threshed : mask_thresh_t) (sample : Int),
      m.num_masking_spectra ≤ 0 → masking_pixel_belongs m threshed sample = false) ∧
    masking_pixel_belongs (⟨3, 0, [], [], [], [], 0, 0⟩ : masking_t K)
      [[false, true, false]] 0 = true ∧
    masking_pixel_belongs (⟨2, 0, [], [], [], [], 0, 0⟩ : masking_t K)
      [[false, false]] 0 = false := by
  have key : ∀ (m : masking_t K) (threshed : mask_thresh_t) (sample : Int),
      masking_pixel_belongs m threshed sample = true ↔
        ∃ k : Nat, (k : Int) < m.num_masking_spectra ∧
          (rowI threshed sample).getD k false = true := by
    intro m threshed sample
    unfold masking_pixel_belongs
    rw [foldl_or_eq_any]
    simp only [Bool.false_or, List.any_eq_true, List.mem_map, List.mem_range]
    constructor
    · rintro ⟨i, ⟨k, hk, rfl⟩, h⟩
      exact ⟨k, by omega, by simpa using h⟩
    · rintro ⟨k, hk, h⟩
      exact ⟨(k : Int), ⟨k, by omega, rfl⟩, by simpa using h⟩
  refine ⟨key, ?_, ?_, ?_⟩
  · intro m threshed sample h0
    cases hb : masking_pixel_belongs m threshed sample with
    | false => rfl
    | true =>
      obtain ⟨k, hk, -⟩ := (key m threshed sample).1 hb
      omega
  · rw [key]
    exact ⟨1, by norm_num, by simp [rowI]⟩
  · cases hb : masking_pixel_belongs (⟨2, 0, [], [], [], [], 0, 0⟩ : masking_t K)
        [[false, false]] 0 with
    | false => rfl
    | true =>
      obtain ⟨k, hk, h⟩ := (key _ _ _).1 hb
      simp only at hk
      have hk2 : k = 0 ∨ k = 1 := by omega
      rcases hk2 with rfl | rfl <;> simp [rowI] at h

/-! ### Postcondition of `masking_init` -/

theorem getI_replicate {A : Type} [Zero A] (n : Nat) (x : A) (k : Int) (h0 : 0 ≤ k)
    (h1 : k.toNat < n) : getI (List.replicate n x) k = x := by
  have h0' : ¬ k < 0 := by omega
  simp [getI, h0', List.getD_eq_getElem?_getD, List.getElem?_replicate, h1]

theorem rowI_map_range {A : Type} (f : Nat → List A) (n : Nat) (k : Nat) (h1 : k < n) :
    rowI ((List.range n).map f) (k : Int) = f k := by
  have h0' : ¬ (k : Int) < 0 := by omega
  simp [rowI, h0', List.getD_eq_getElem?_getD, List.getElem?_map, List.getElem?_range h1]

/-- A library returned without error by `spectral_construct_library_from_directory` holds
`num_spectra` spectra, each with at least one value. -/
theorem library_ok (directory : Option (List (file_t K))) (library : spectral_library_t K)
    (h : spectral_construct_library_from_directory directory = (.SPECTRAL_NO_ERR, library)) :
    (library.spectra.length : Int) = library.num_spectra ∧
    ∀ s ∈ library.spectra, 1 ≤ s.num_values ∧ (s.values.length : Int) = s.num_values ∧
      0 < s.step_wlen := by
  rcases directory with _ | files
  · simp [spectral_construct_library_from_directory] at h
  · simp only [spectral_construct_library_from_directory,
      spectral_construct_library_from_files_eq] at h
    split_ifs at h with hp
    · simp at h
    · simp only [Prod.mk.injEq, true_and] at h
      subst h
      refine ⟨rfl, fun s hs => ?_⟩
      obtain ⟨f, -, hf⟩ := List.mem_filterMap.1 hs
      cases hr : spectral_read_file f with
      | error e => simp [hr] at hf
      | ok sp =>
        simp only [hr, Option.some.injEq] at hf
        subst hf
        obtain ⟨a, b, c⟩ := spectral_read_file_ok f _ hr
        exact ⟨b, a, c⟩

/-- C11: when the library of the masking type is built without error, `masking_init` returns
`MASKING_NO_ERR` and masking parameters with one reference per library spectrum, in which, for
every reference `k` and band `j`, `orig_spectra[k][j]` and `updated_spectra[k][j]` are the value
returned by `spectral_get_value` on spectrum `k` at `wlens[j]`, the count is `0`, the threshold
is the default of the type (`3/10` reflectance, `1/10` transmittance) and the band range is
`[0, num_wlens - 1]`. -/
theorem masking_init_post (reflectance_dir transmittance_dir : Option (List (file_t K)))
    (wlens : List K) (masking_type : masking_input_data_type_t) (library : spectral_library_t K)
    (hlib : spectral_construct_library_from_directory
      (mode_directory reflectance_dir transmittance_dir masking_type)
        = (.SPECTRAL_NO_ERR, library)) :
    ∃ m, masking_init reflectance_dir transmittance_dir wlens masking_type
        = (.MASKING_NO_ERR, some m) ∧
      m.num_masking_spectra = library.num_spectra ∧
      (library.spectra.length : Int) = library.num_spectra ∧
      m.num_bands = (wlens.length : Int) ∧
      m.start_band_ind = 0 ∧ m.end_band_ind = (wlens.length : Int) - 1 ∧
      ∀ k : Nat, (k : Int) < library.num_spectra →
        getI m.num_samples_in_spectra (k : Int) = 0 ∧
        getI m.sam_thresh (k : Int) = mode_threshold masking_type ∧
        ∀ j : Nat, j < wlens.length →
          ∃ s w, library.spectra[k]? = some s ∧ wlens[j]? = some w ∧
            spectral_get_value s w = .ok (getI (rowI m.orig_spectra (k : Int)) (j : Int)) ∧
            spectral_get_value s w = .ok (getI (rowI m.updated_spectra (k : Int)) (j : Int)) := by
  obtain ⟨hlen, hval⟩ := library_ok _ library hlib
  have hinit : masking_init reflectance_dir transmittance_dir wlens masking_type
      = (.MASKING_NO_ERR,
          some (masking_from_library library wlens (mode_threshold masking_type))) := by
    cases masking_type <;>
      simp only [masking_init, mode_directory, mode_threshold] at hlib ⊢ <;>
      rw [hlib] <;> simp
  refine ⟨_, hinit, rfl, hlen, rfl, rfl, rfl, fun k hk => ?_⟩
  have hk' : k < library.num_spectra.toNat := by omega
  have hkl : k < library.spectra.length := by omega
  refine ⟨getI_replicate_zero _ _, ?_, fun j hj => ?_⟩
  · exact getI_replicate _ _ _ (by omega) (by omega)
  · have hs : library.spectra[k] ∈ library.spectra := List.getElem_mem hkl
    obtain ⟨v, hv⟩ := spectral_get_value_total library.spectra[k] wlens[j]
      (by have := (hval _ hs).1; omega)
    have hrow : getI (rowI (masking_from_library library wlens
        (mode_threshold masking_type)).orig_spectra (k : Int)) (j : Int) = v := by
      simp only [masking_from_library]
      rw [rowI_map_range _ _ _ hk', getI_natCast, List.getD_eq_getElem?_getD, List.getElem?_map,
        List.getElem?_eq_getElem hj, List.getD_eq_getElem?_getD, List.getElem?_eq_getElem hkl]
      simp [hv]
    refine ⟨library.spectra[k], wlens[j], List.getElem?_eq_getElem hkl,
      List.getElem?_eq_getElem hj, ?_, ?_⟩
    · rw [hrow, hv]
    · have : (masking_from_library library wlens (mode_threshold masking_type)).updated_spectra
          = (masking_from_library library wlens (mode_threshold masking_type)).orig_spectra := rfl
      rw [this, hrow, hv]

theorem example_library :
    spectral_construct_library_from_directory
      (mode_directory (some [some [((400 : ℚ), (1 : ℚ)), (500, 1)]]) none .REFLECTANCE_MASKING)
      = (.SPECTRAL_NO_ERR, { num_spectra := 1, spectra := [⟨1, 400, 100, [1]⟩] }) := by
  have h1 : find_min_step ([400, 500] : List ℚ) = 100 := by
    norm_num [find_min_step, List.range_succ, getI]
  have h2 : resample_fuel (400 : ℚ) 500 100 = 1 := by
    norm_num [resample_fuel]
  have h3 : resample_loop ([400, 500] : List ℚ) [1, 1] 500 100 1 400 0 [] = some [1] := by
    norm_num [resample_loop, getI]
  have hr : spectral_read_file (some [((400 : ℚ), (1 : ℚ)), (500, 1)]) = .ok ⟨1, 400, 100, [1]⟩ := by
    simp [spectral_read_file, read_pairs, getI, h1, h2, h3]
  have hp : parsed_spectra [some [((400 : ℚ), (1 : ℚ)), (500, 1)]] = [⟨1, 400, 100, [1]⟩] := by
    simp only [parsed_spectra, List.filterMap_cons, hr, List.filterMap_nil]
  simp [mode_directory, spectral_construct_library_from_directory,
    spectral_construct_library_from_files_eq, hp]

theorem masking_init_post_witness :
    ∃ m, masking_init (some [some [((400 : ℚ), (1 : ℚ)), (500, 1)]]) none [400]
        .REFLECTANCE_MASKING = (.MASKING_NO_ERR, some m) ∧
      m.num_masking_spectra = 1 ∧
      (([⟨1, 400, 100, [1]⟩] : List (spectrum_t ℚ)).length : Int) = 1 ∧
      m.num_bands = (([400] : List ℚ).length : Int) ∧
      m.start_band_ind = 0 ∧ m.end_band_ind = (([400] : List ℚ).length : Int) - 1 ∧
      ∀ k : Nat, (k : Int) < 1 →
        getI m.num_samples_in_spectra (k : Int) = 0 ∧
        getI m.sam_thresh (k : Int) = mode_threshold .REFLECTANCE_MASKING ∧
        ∀ j : Nat, j < ([400] : List ℚ).length →
          ∃ s w, ([⟨1, 400, 100, [1]⟩] : List (spectrum_t ℚ))[k]? = some s ∧
            ([400] : List ℚ)[j]? = some w ∧
            spectral_get_value s w = .ok (getI (rowI m.orig_spectra (k : Int)) (j : Int)) ∧
            spectral_get_value s w = .ok (getI (rowI m.updated_spectra (k : Int)) (j : Int)) :=
  masking_init_post (some [some [((400 : ℚ), (1 : ℚ)), (500, 1)]]) none [400]
    .REFLECTANCE_MASKING { num_spectra := 1, spectra := [⟨1, 400, 100, [1]⟩] } example_library

/-! ### Exact effect of one pixel on one reference -/

/-- After the references `0, .., n - 1` have been handled for a pixel, the spectrum and the count of
reference `k` are updated exactly when `k < n` and `pixel_belong` holds for `k` in the state at
the start of the pixel. -/
theorem spectra_after_effect (sqrt acos : K → K) (no : List K) (pv : Int → K) (pn : K)
    (m : masking_t K) (norms : List K) (row : List Bool) (k : Nat)
    (hwf : masking_wf m) (hn : norms.length = m.num_masking_spectra.toNat) :
    ∀ n : Nat, (n : Int) ≤ m.num_masking_spectra →
      rowI (spectra_after sqrt acos no pv pn (m, norms, row) n).1.updated_spectra (k : Int)
        = (if k < n ∧ pixel_belong acos m no norms pv pn (k : Int) = true then
            (update_spectrum m.start_band_ind m.end_band_ind pv
              (getI m.num_samples_in_spectra (k : Int) + 1) (rowI m.updated_spectra (k : Int))).1
          else rowI m.updated_spectra (k : Int)) ∧
      getI (spectra_after sqrt acos no pv pn (m, norms, row) n).1.num_samples_in_spectra (k : Int)
        = (if k < n ∧ pixel_belong acos m no norms pv pn (k : Int) = true then
            getI m.num_samples_in_spectra (k : Int) + 1
          else getI m.num_samples_in_spectra (k : Int)) := by
  intro n
  induction n with
  | zero =>
    intro _
    rw [spectra_after_zero]
    simp
  | succ n ih =>
    intro hle
    obtain ⟨f, w, l, -, u⟩ := spectra_after_spec sqrt acos no pv pn m norms row hwf hn n (by omega)
    obtain ⟨ih1, ih2⟩ := ih (by omega)
    have hlt : (n : Int) < (spectra_after sqrt acos no pv pn (m, norms, row) n).1.num_masking_spectra := by
      rw [f.1]; omega
    obtain ⟨s1, -, -, -, s5, s6, s7⟩ := thresh_spectrum_step sqrt acos no pv pn
      (spectra_after sqrt acos no pv pn (m, norms, row) n).1
      (spectra_after sqrt acos no pv pn (m, norms, row) n).2.1
      (spectra_after sqrt acos no pv pn (m, norms, row) n).2.2 (n : Int) w
      (by rw [l, hn, f.1]) (by omega) hlt
    rw [spectra_after_succ]
    by_cases hk : n = k
    · subst hk
      obtain ⟨a, b, c⟩ := u (n : Int) le_rfl
      have hb := pixel_belong_congr acos m _ no norms _ pv pn _ f a c
      obtain ⟨-, -, -, -, f5, f6⟩ := f
      cases hbel : pixel_belong acos m no norms pv pn (n : Int) with
      | false =>
        rw [hbel] at hb
        obtain ⟨e1, -⟩ := s6 hb
        rw [e1, a, b]
        simp
      | true =>
        rw [hbel] at hb
        obtain ⟨e1, e2, -⟩ := s7 hb
        rw [e1, e2, a, b, f5, f6]
        simp
    · have hne : (k : Int) ≠ (n : Int) := by omega
      obtain ⟨a, b, -⟩ := s5 (k : Int) hne
      rw [a, b, ih1, ih2]
      have hiff : (k < n + 1 ∧ pixel_belong acos m no norms pv pn (k : Int) = true)
          ↔ (k < n ∧ pixel_belong acos m no norms pv pn (k : Int) = true) := by
        constructor
        · rintro ⟨a, b⟩; exact ⟨by omega, b⟩
        · rintro ⟨a, b⟩; exact ⟨by omega, b⟩
      simp only [hiff]
      exact ⟨trivial, trivial⟩

/-- Effect of the body of the loop over the samples on the spectrum and the count of a
reference `k`. -/
theorem thresh_sample_effect (sqrt acos : K → K) (num_samples : Int) (line_data no : List K)
    (st : thresh_state K) (j : Int) (k : Nat) (hwf : masking_wf st.mask_param)
    (hn : norms_inv sqrt st.mask_param st.ref_norms_updated)
    (hk : (k : Int) < st.mask_param.num_masking_spectra) :
    rowI (thresh_sample sqrt acos num_samples line_data no st j).mask_param.updated_spectra (k : Int)
      = (if pixel_belong acos st.mask_param no st.ref_norms_updated
            (pixel_of num_samples line_data j)
            (pixel_norm_of sqrt st.mask_param.start_band_ind st.mask_param.end_band_ind
              (pixel_of num_samples line_data j)) (k : Int) = true then
          (update_spectrum st.mask_param.start_band_ind st.mask_param.end_band_ind
            (pixel_of num_samples line_data j)
            (getI st.mask_param.num_samples_in_spectra (k : Int) + 1)
            (rowI st.mask_param.updated_spectra (k : Int))).1
        else rowI st.mask_param.updated_spectra (k : Int)) ∧
    getI (thresh_sample sqrt acos num_samples line_data no st j).mask_param.num_samples_in_spectra
        (k : Int)
      = (if pixel_belong acos st.mask_param no st.ref_norms_updated
            (pixel_of num_samples line_data j)
            (pixel_norm_of sqrt st.mask_param.start_band_ind st.mask_param.end_band_ind
              (pixel_of num_samples line_data j)) (k : Int) = true then
          getI st.mask_param.num_samples_in_spectra (k : Int) + 1
        else getI st.mask_param.num_samples_in_spectra (k : Int)) := by
  have hle : ((st.mask_param.num_masking_spectra.toNat : Nat) : Int)
      ≤ st.mask_param.num_masking_spectra := by omega
  have hk' : k < st.mask_param.num_masking_spectra.toNat := by omega
  have := spectra_after_effect sqrt acos no (pixel_of num_samples line_data j)
    (pixel_norm_of sqrt st.mask_param.start_band_ind st.mask_param.end_band_ind
      (pixel_of num_samples line_data j)) st.mask_param st.ref_norms_updated [] k hwf hn.1
    st.mask_param.num_masking_spectra.toNat hle
  simp only [hk', true_and] at this
  exact this

/-- Effect of sample `j` of a line on the spectrum and the count of reference `k`. -/
theorem thresh_after_effect (sqrt acos : K → K) (m : masking_t K) (num_samples : Int)
    (line_data : List K) (j k : Nat) (hwf : masking_wf m)
    (hk : (k : Int) < m.num_masking_spectra) :
    rowI (thresh_after sqrt acos m num_samples line_data (j + 1)).mask_param.updated_spectra
        (k : Int)
      = (if belong_at sqrt acos m num_samples line_data j (k : Int) = true then
          (update_spectrum m.start_band_ind m.end_band_ind
            (pixel_of num_samples line_data (j : Int))
            (getI (thresh_after sqrt acos m num_samples line_data j).mask_param.num_samples_in_spectra
              (k : Int) + 1)
            (rowI (thresh_after sqrt acos m num_samples line_data j).mask_param.updated_spectra
              (k : Int))).1
        else rowI (thresh_after sqrt acos m num_samples line_data j).mask_param.updated_spectra
          (k : Int)) ∧
    getI (thresh_after sqrt acos m num_samples line_data (j + 1)).mask_param.num_samples_in_spectra
        (k : Int)
      = (if belong_at sqrt acos m num_samples line_data j (k : Int) = true then
          getI (thresh_after sqrt acos m num_samples line_data j).mask_param.num_samples_in_spectra
            (k : Int) + 1
        else
          getI (thresh_after sqrt acos m num_samples line_data j).mask_param.num_samples_in_spectra
            (k : Int)) := by
  obtain ⟨f, w, n, -, -⟩ := thresh_after_spec sqrt acos m num_samples line_data hwf j
  have := thresh_sample_effect sqrt acos num_samples line_data (thresh_norms_orig sqrt m)
    (thresh_after sqrt acos m num_samples line_data j) (j : Int) k w n (by rw [f.1]; exact hk)
  rw [thresh_after_succ]
  obtain ⟨-, -, -, -, f5, f6⟩ := f
  unfold belong_at
  rw [f5, f6] at this ⊢
  exact this

/-- Count of reference `k` after `J` samples of a line: the count at entry plus the number of
samples whose bit for `k` is set. -/
theorem thresh_after_count (sqrt acos : K → K) (m : masking_t K) (num_samples : Int)
    (line_data : List K) (k : Nat) (hwf : masking_wf m)
    (hk : (k : Int) < m.num_masking_spectra) :
    ∀ J : Nat,
      getI (thresh_after sqrt acos m num_samples line_data J).mask_param.num_samples_in_spectra
          (k : Int)
        = getI m.num_samples_in_spectra (k : Int)
          + (((List.range J).filter (fun (j : Nat) =>
              belong_at sqrt acos m num_samples line_data j (k : Int))).length : Int) := by
  intro J
  induction J with
  | zero => simp [thresh_after_zero, thresh_entry]
  | succ J ih =>
    rw [(thresh_after_effect sqrt acos m num_samples line_data J k hwf hk).2, ih,
      List.range_succ, List.filter_append]
    by_cases hb : belong_at sqrt acos m num_samples line_data J (k : Int) = true
    · simp [hb, List.filter_cons]
      ring
    · simp [hb, List.filter_cons]

/-- Number of rows of a table whose entry for reference `k` is set, for the table that
`masking_thresh` returns. -/
theorem table_countP (sqrt acos : K → K) (m : masking_t K) (num_samples : Int)
    (line_data : List K) (k : Nat) (hwf : masking_wf m)
    (hk : (k : Int) < m.num_masking_spectra) :
    (masking_thresh sqrt acos m num_samples line_data).2.countP (fun row => row.getD k false)
      = ((List.range num_samples.toNat).filter (fun (j : Nat) =>
          belong_at sqrt acos m num_samples line_data j (k : Int))).length := by
  have hk' : k < m.num_masking_spectra.toNat := by omega
  rw [masking_thresh_table sqrt acos m num_samples line_data hwf, List.countP_map,
    List.countP_eq_length_filter]
  congr 1
  apply List.filter_congr
  intro j _
  simp [List.getD_eq_getElem?_getD, List.getElem?_map, List.getElem?_range hk']

/-- One call of `masking_thresh` adds to the count of reference `k` the number of rows of the
returned table whose entry for `k` is set, and keeps frame and well-formedness. -/
theorem masking_thresh_count (sqrt acos : K → K) (m : masking_t K) (num_samples : Int)
    (line_data : List K) (k : Nat) (hwf : masking_wf m)
    (hk : (k : Int) < m.num_masking_spectra) :
    same_frame m (masking_thresh sqrt acos m num_samples line_data).1 ∧
    masking_wf (masking_thresh sqrt acos m num_samples line_data).1 ∧
    getI (masking_thresh sqrt acos m num_samples line_data).1.num_samples_in_spectra (k : Int)
      = getI m.num_samples_in_spectra (k : Int)
        + (((masking_thresh sqrt acos m num_samples line_data).2.countP
            (fun row => row.getD k false) : Nat) : Int) := by
  obtain ⟨f, w, -, -, -⟩ := thresh_after_spec sqrt acos m num_samples line_data hwf
    num_samples.toNat
  refine ⟨f, w, ?_⟩
  rw [table_countP sqrt acos m num_samples line_data k hwf hk]
  exact thresh_after_count sqrt acos m num_samples line_data k hwf hk num_samples.toNat

theorem masking_run_count (sqrt acos : K → K) (k : Nat) :
    ∀ (lines : List (Int × List K)) (m : masking_t K), masking_wf m →
      (k : Int) < m.num_masking_spectra →
      getI (masking_run sqrt acos m lines).1.num_samples_in_spectra (k : Int)
        = getI m.num_samples_in_spectra (k : Int)
          + ((((masking_run sqrt acos m lines).2.map
              (fun ret => ret.countP (fun row => row.getD k false))).sum : Nat) : Int) := by
  intro lines
  induction lines with
  | nil =>
    intro m _ _
    simp [masking_run]
  | cons call rest ih =>
    intro m hwf hk
    obtain ⟨f, w, c⟩ := masking_thresh_count sqrt acos m call.1 call.2 k hwf hk
    have := ih (masking_thresh sqrt acos m call.1 call.2).1 w (by rw [f.1]; exact hk)
    simp only [masking_run, List.map_cons, List.sum_cons, Nat.cast_add]
    rw [this, c]
    ring

/-- Entry of sample `j` and reference `k` of the table returned by `masking_thresh`. -/
theorem masking_thresh_entry (sqrt acos : K → K) (m : masking_t K) (num_samples : Int)
    (line_data : List K) (j k : Nat) (hwf : masking_wf m) (hj : (j : Int) < num_samples)
    (hk : (k : Int) < m.num_masking_spectra) :
    ((masking_thresh sqrt acos m num_samples line_data).2.getD j []).getD k false
      = belong_at sqrt acos m num_samples line_data j (k : Int) := by
  have hj' : j < num_samples.toNat := by omega
  have hk' : k < m.num_masking_spectra.toNat := by omega
  rw [masking_thresh_table sqrt acos m num_samples line_data hwf]
  simp [List.getD_eq_getElem?_getD, List.getElem?_map, List.getElem?_range hj',
    List.getElem?_range hk']

/-- C20: for a reference `k` of well-formed masking parameters: the count is `0` when the
parameters come out of `masking_init`; one call of `masking_thresh` increases
`num_samples_in_spectra[k]` by exactly the number of samples whose entry for `k` in the returned
table is true; a sequence of calls increases it by the total number of true entries of column `k`
of all returned tables; and a sample whose entry for `k` is false leaves `updated_spectra[k]`
and `num_samples_in_spectra[k]` as they were before that sample. -/
theorem sample_count_bookkeeping (sqrt acos : K → K) (m : masking_t K) (k : Nat)
    (hwf : masking_wf m) (hk : (k : Int) < m.num_masking_spectra) :
    (∀ (reflectance_dir transmittance_dir : Option (List (file_t K))) (wlens : List K)
        (masking_type : masking_input_data_type_t),
      masking_init reflectance_dir transmittance_dir wlens masking_type
          = (.MASKING_NO_ERR, some m) →
        getI m.num_samples_in_spectra (k : Int) = 0) ∧
    (∀ (num_samples : Int) (line_data : List K),
      getI (masking_thresh sqrt acos m num_samples line_data).1.num_samples_in_spectra (k : Int)
        = getI m.num_samples_in_spectra (k : Int)
          + (((masking_thresh sqrt acos m num_samples line_data).2.countP
              (fun row => row.getD k false) : Nat) : Int)) ∧
    (∀ lines : List (Int × List K),
      getI (masking_run sqrt acos m lines).1.num_samples_in_spectra (k : Int)
        = getI m.num_samples_in_spectra (k : Int)
          + ((((masking_run sqrt acos m lines).2.map
              (fun ret => ret.countP (fun row => row.getD k false))).sum : Nat) : Int)) ∧
    (∀ (num_samples : Int) (line_data : List K) (j : Nat), (j : Int) < num_samples →
      ((masking_thresh sqrt acos m num_samples line_data).2.getD j []).getD k false = false →
        rowI (thresh_after sqrt acos m num_samples line_data (j + 1)).mask_param.updated_spectra
            (k : Int)
          = rowI (thresh_after sqrt acos m num_samples line_data j).mask_param.updated_spectra
            (k : Int) ∧
        getI (thresh_after sqrt acos m num_samples line_data (j + 1)).mask_param.num_samples_in_spectra
            (k : Int)
          = getI (thresh_after sqrt acos m num_samples line_data j).mask_param.num_samples_in_spectra
            (k : Int)) := by
  refine ⟨fun rd td wl ty hinit => ?_, fun n line => ?_, fun lines => ?_,
    fun n line j hj hfalse => ?_⟩
  · exact (masking_init_fresh rd td wl ty m hinit).2.1 _
  · exact (masking_thresh_count sqrt acos m n line k hwf hk).2.2
  · exact masking_run_count sqrt acos k lines m hwf hk
  · rw [masking_thresh_entry sqrt acos m n line j k hwf hj hk] at hfalse
    obtain ⟨a, b⟩ := thresh_after_effect sqrt acos m n line j k hwf hk
    rw [a, b]
    simp [hfalse]

theorem sample_count_bookkeeping_witness :
    (∀ (reflectance_dir transmittance_dir : Option (List (file_t ℚ))) (wlens : List ℚ)
        (masking_type : masking_input_data_type_t),
      masking_init reflectance_dir transmittance_dir wlens masking_type
          = (.MASKING_NO_ERR, some example_mask) →
        getI example_mask.num_samples_in_spectra ((0 : Nat) : Int) = 0) ∧
    (∀ (num_samples : Int) (line_data : List ℚ),
      getI (masking_thresh example_sqrt example_acos example_mask num_samples
          line_data).1.num_samples_in_spectra ((0 : Nat) : Int)
        = getI example_mask.num_samples_in_spectra ((0 : Nat) : Int)
          + (((masking_thresh example_sqrt example_acos example_mask num_samples line_data).2.countP
              (fun row => row.getD 0 false) : Nat) : Int)) ∧
    (∀ lines : List (Int × List ℚ),
      getI (masking_run example_sqrt example_acos example_mask lines).1.num_samples_in_spectra
          ((0 : Nat) : Int)
        = getI example_mask.num_samples_in_spectra ((0 : Nat) : Int)
          + ((((masking_run example_sqrt example_acos example_mask lines).2.map
              (fun ret => ret.countP (fun row => row.getD 0 false))).sum : Nat) : Int)) ∧
    (∀ (num_samples : Int) (line_data : List ℚ) (j : Nat), (j : Int) < num_samples →
      ((masking_thresh example_sqrt example_acos example_mask num_samples line_data).2.getD j
          []).getD 0 false = false →
        rowI (thresh_after example_sqrt example_acos example_mask num_samples line_data
            (j + 1)).mask_param.updated_spectra ((0 : Nat) : Int)
          = rowI (thresh_after example_sqrt example_acos example_mask num_samples line_data
            j).mask_param.updated_spectra ((0 : Nat) : Int) ∧
        getI (thresh_after example_sqrt example_acos example_mask num_samples line_data
            (j + 1)).mask_param.num_samples_in_spectra ((0 : Nat) : Int)
          = getI (thresh_after example_sqrt example_acos example_mask num_samples line_data
            j).mask_param.num_samples_in_spectra ((0 : Nat) : Int)) :=
  sample_count_bookkeeping example_sqrt example_acos example_mask 0 example_mask_wf
    (by simp [example_mask])

/-! ### Frame of `masking_thresh` -/

theorem rowI_of_neg {A : Type} (a : List (List A)) (k : Int) (h : k < 0) : rowI a k = [] := by
  simp [rowI, h]

theorem rowI_of_ge {A : Type} (a : List (List A)) (k : Int) (h : a.length ≤ k.toNat) :
    rowI a k = [] := by
  unfold rowI
  split_ifs
  · rfl
  · simp [List.getD_eq_getElem?_getD, List.getElem?_eq_none h]

/-- Rows of `updated_spectra` along the samples of a line: every row keeps its length and its
values outside the band range. -/
theorem thresh_after_outside (sqrt acos : K → K) (m : masking_t K) (num_samples : Int)
    (line_data : List K) (hwf : masking_wf m) :
    ∀ (J : Nat) (k : Int),
      (rowI (thresh_after sqrt acos m num_samples line_data J).mask_param.updated_spectra k).length
        = (rowI m.updated_spectra k).length ∧
      ∀ i : Int, i < m.start_band_ind ∨ m.end_band_ind < i →
        getI (rowI (thresh_after sqrt acos m num_samples line_data J).mask_param.updated_spectra k) i
          = getI (rowI m.updated_spectra k) i := by
  intro J
  induction J with
  | zero =>
    intro k
    rw [thresh_after_zero]
    exact ⟨rfl, fun i _ => rfl⟩
  | succ J ih =>
    intro k
    obtain ⟨f, w, -, -, -⟩ := thresh_after_spec sqrt acos m num_samples line_data hwf J
    obtain ⟨f', w', -, -, -⟩ := thresh_after_spec sqrt acos m num_samples line_data hwf (J + 1)
    obtain ⟨ihl, iho⟩ := ih k
    by_cases hk0 : k < 0
    · rw [rowI_of_neg _ k hk0, rowI_of_neg _ k hk0]
      exact ⟨rfl, fun i _ => rfl⟩
    · by_cases hk1 : k < m.num_masking_spectra
      · obtain ⟨n, rfl⟩ : ∃ n : Nat, k = (n : Int) := ⟨k.toNat, by omega⟩
        obtain ⟨e, -⟩ := thresh_after_effect sqrt acos m num_samples line_data J n hwf hk1
        rw [e]
        split_ifs with hb
        · obtain ⟨-, w2, -, -, -, w6, w7, w8⟩ := w
          have hrow : (rowI (thresh_after sqrt acos m num_samples line_data J).mask_param.updated_spectra
              (n : Int)).length
              = (thresh_after sqrt acos m num_samples line_data J).mask_param.num_bands.toNat :=
            w6 _ (rowI_mem _ _ (by omega) (by rw [w2, f.1]; omega))
          obtain ⟨-, -, -, -, f5, f6⟩ := f
          rw [f5] at w7
          rw [f6] at w8
          have hupd := update_spectrum_spec sqrt m.start_band_ind m.end_band_ind
            (pixel_of num_samples line_data (J : Int))
            (getI (thresh_after sqrt acos m num_samples line_data J).mask_param.num_samples_in_spectra
              (n : Int) + 1)
            (rowI (thresh_after sqrt acos m num_samples line_data J).mask_param.updated_spectra
              (n : Int)) w7 (by omega)
          refine ⟨hupd.1.trans ihl, fun i hi => ?_⟩
          rw [hupd.2.2.1 i (by rw [mem_band_inds]; omega)]
          exact iho i hi
        · exact ⟨ihl, iho⟩
      · have h1 : (thresh_after sqrt acos m num_samples line_data (J + 1)).mask_param.updated_spectra.length
            ≤ k.toNat := by
          rw [w'.2.1, f'.1]; omega
        have h2 : m.updated_spectra.length ≤ k.toNat := by
          rw [hwf.2.1]; omega
        rw [rowI_of_ge _ k h1, rowI_of_ge _ k h2]
        exact ⟨rfl, fun i _ => rfl⟩

/-- C15: a call of `masking_thresh` on well-formed masking parameters leaves the numbers of
reference spectra and bands, `orig_spectra`, `sam_thresh` and the band range as they were, keeps
the shape of `updated_spectra` and `num_samples_in_spectra`, and leaves every value
`updated_spectra[k][i]` with `i` outside the band range as it was. -/
theorem masking_thresh_frame (sqrt acos : K → K) (m : masking_t K) (num_samples : Int)
    (line_data : List K) (hwf : masking_wf m) :
    (masking_thresh sqrt acos m num_samples line_data).1.num_masking_spectra
      = m.num_masking_spectra ∧
    (masking_thresh sqrt acos m num_samples line_data).1.num_bands = m.num_bands ∧
    (masking_thresh sqrt acos m num_samples line_data).1.orig_spectra = m.orig_spectra ∧
    (masking_thresh sqrt acos m num_samples line_data).1.sam_thresh = m.sam_thresh ∧
    (masking_thresh sqrt acos m num_samples line_data).1.start_band_ind = m.start_band_ind ∧
    (masking_thresh sqrt acos m num_samples line_data).1.end_band_ind = m.end_band_ind ∧
    (masking_thresh sqrt acos m num_samples line_data).1.updated_spectra.length
      = m.updated_spectra.length ∧
    (masking_thresh sqrt acos m num_samples line_data).1.num_samples_in_spectra.length
      = m.num_samples_in_spectra.length ∧
    ∀ k : Int,
      (rowI (masking_thresh sqrt acos m num_samples line_data).1.updated_spectra k).length
        = (rowI m.updated_spectra k).length ∧
      ∀ i : Int, i < m.start_band_ind ∨ m.end_band_ind < i →
        getI (rowI (masking_thresh sqrt acos m num_samples line_data).1.updated_spectra k) i
          = getI (rowI m.updated_spectra k) i := by
  obtain ⟨f, w, -, -, -⟩ := thresh_after_spec sqrt acos m num_samples line_data hwf
    num_samples.toNat
  obtain ⟨f1, f2, f3, f4, f5, f6⟩ := f
  refine ⟨f1, f2, f3, f4, f5, f6, ?_, ?_, ?_⟩
  · show (thresh_after sqrt acos m num_samples line_data num_samples.toNat).mask_param.updated_spectra.length = _
    rw [w.2.1, hwf.2.1, f1]
  · show (thresh_after sqrt acos m num_samples line_data num_samples.toNat).mask_param.num_samples_in_spectra.length = _
    rw [w.2.2.1, hwf.2.2.1, f1]
  · exact thresh_after_outside sqrt acos m num_samples line_data hwf num_samples.toNat

theorem masking_thresh_frame_witness :
    (masking_thresh example_sqrt example_acos example_mask 1 [2]).1.num_masking_spectra
      = example_mask.num_masking_spectra ∧
    (masking_thresh example_sqrt example_acos example_mask 1 [2]).1.num_bands
      = example_mask.num_bands ∧
    (masking_thresh example_sqrt example_acos example_mask 1 [2]).1.orig_spectra
      = example_mask.orig_spectra ∧
    (masking_thresh example_sqrt example_acos example_mask 1 [2]).1.sam_thresh
      = example_mask.sam_thresh ∧
    (masking_thresh example_sqrt example_acos example_mask 1 [2]).1.start_band_ind
      = example_mask.start_band_ind ∧
    (masking_thresh example_sqrt example_acos example_mask 1 [2]).1.end_band_ind
      = example_mask.end_band_ind ∧
    (masking_thresh example_sqrt example_acos example_mask 1 [2]).1.updated_spectra.length
      = example_mask.updated_spectra.length ∧
    (masking_thresh example_sqrt example_acos example_mask 1 [2]).1.num_samples_in_spectra.length
      = example_mask.num_samples_in_spectra.length ∧
    ∀ k : Int,
      (rowI (masking_thresh example_sqrt example_acos example_mask 1 [2]).1.updated_spectra k).length
        = (rowI example_mask.updated_spectra k).length ∧
      ∀ i : Int, i < example_mask.start_band_ind ∨ example_mask.end_band_ind < i →
        getI (rowI (masking_thresh example_sqrt example_acos example_mask 1 [2]).1.updated_spectra k) i
          = getI (rowI example_mask.updated_spectra k) i :=
  masking_thresh_frame example_sqrt example_acos example_mask 1 [2] example_mask_wf

/-! ### Zero vectors -/

theorem pixel_belong_zero_norm (acos : K → K) (m : masking_t K) (no norms : List K)
    (pv : Int → K) (k : Int) : pixel_belong acos m no norms pv 0 k = false := by
  simp [pixel_belong, fdiv, facos, flt]

theorem foldl_sq_zero (pv : Int → K) (l : List Int) (h : ∀ i ∈ l, pv i = 0) :
    l.foldl (fun acc i => acc + pv i * pv i) 0 = 0 := by
  induction l with
  | nil => rfl
  | cons i l ih =>
    rw [List.foldl_cons, h i (List.mem_cons_self _ _)]
    simp only [mul_zero, add_zero]
    exact ih (fun x hx => h x (List.mem_cons_of_mem _ hx))

theorem spectra_after_zero_norm (sqrt acos : K → K) (no : List K) (pv : Int → K)
    (m : masking_t K) (norms : List K) (row : List Bool) :
    ∀ n : Nat, spectra_after sqrt acos no pv 0 (m, norms, row) n
      = (m, norms, row ++ List.replicate n false) := by
  intro n
  induction n with
  | zero => simp [spectra_after_zero]
  | succ n ih =>
    rw [spectra_after_succ, ih]
    simp only [thresh_spectrum, pixel_belong_zero_norm, Bool.false_eq_true, if_false,
      List.append_assoc]
    rw [List.replicate_succ']

/-- A sample with pixel norm zero leaves the masking parameters and the cached norms as they are
and writes a row of `false`. -/
theorem thresh_sample_zero_norm (sqrt acos : K → K) (num_samples : Int) (line_data no : List K)
    (st : thresh_state K) (j : Int)
    (h : pixel_norm_of sqrt st.mask_param.start_band_ind st.mask_param.end_band_ind
      (pixel_of num_samples line_data j) = 0) :
    thresh_sample sqrt acos num_samples line_data no st j
      = { mask_param := st.mask_param
          ref_norms_updated := st.ref_norms_updated
          ret_thresh := st.ret_thresh
            ++ [List.replicate st.mask_param.num_masking_spectra.toNat false] } := by
  unfold thresh_sample
  simp only [h, spectra_after_zero_norm, List.nil_append]

/-- C13: on well-formed masking parameters, with `sqrt 0 = 0`: a sample whose values over the
band range are all zero gets the entry `false` for every reference and leaves the masking
parameters (updated spectra and counts included) exactly as they were before it; and a reference
whose original and updated spectra both have norm zero over the band range gets the entry
`false` for every sample. -/
theorem zero_vector_safety (sqrt acos : K → K) (m : masking_t K) (num_samples : Int)
    (line_data : List K) (j k : Nat) (hwf : masking_wf m) (hsqrt : sqrt 0 = 0)
    (hj : (j : Int) < num_samples) (hk : (k : Int) < m.num_masking_spectra) :
    ((∀ x ∈ pixel_band_vector m (pixel_of num_samples line_data (j : Int)), x = 0) →
      ((masking_thresh sqrt acos m num_samples line_data).2.getD j []).getD k false = false ∧
      (thresh_after sqrt acos m num_samples line_data (j + 1)).mask_param
        = (thresh_after sqrt acos m num_samples line_data j).mask_param) ∧
    (vec_norm sqrt (ref_band_vector m (rowI m.orig_spectra (k : Int))) = 0 →
      vec_norm sqrt (ref_band_vector m
        (rowI (thresh_after sqrt acos m num_samples line_data j).mask_param.updated_spectra
          (k : Int))) = 0 →
      ((masking_thresh sqrt acos m num_samples line_data).2.getD j []).getD k false = false) := by
  obtain ⟨f, -, -, -, -⟩ := thresh_after_spec sqrt acos m num_samples line_data hwf j
  obtain ⟨-, -, -, -, f5, f6⟩ := f
  rw [masking_thresh_entry sqrt acos m num_samples line_data j k hwf hj hk]
  constructor
  · intro hz
    have hz' : ∀ i ∈ band_inds m.start_band_ind m.end_band_ind,
        pixel_of num_samples line_data (j : Int) i = 0 := by
      intro i hi
      exact hz _ (List.mem_map_of_mem _ hi)
    have hpn : pixel_norm_of sqrt
        (thresh_after sqrt acos m num_samples line_data j).mask_param.start_band_ind
        (thresh_after sqrt acos m num_samples line_data j).mask_param.end_band_ind
        (pixel_of num_samples line_data (j : Int)) = 0 := by
      rw [f5, f6]
      unfold pixel_norm_of
      rw [foldl_sq_zero _ _ hz', hsqrt]
    constructor
    · unfold belong_at
      rw [hpn]
      exact pixel_belong_zero_norm _ _ _ _ _ _
    · rw [thresh_after_succ, thresh_sample_zero_norm sqrt acos num_samples line_data _ _ _ hpn]
  · intro h1 h2
    cases hb : belong_at sqrt acos m num_samples line_data j (k : Int) with
    | false => rfl
    | true =>
      exfalso
      rcases (belong_at_iff sqrt acos m num_samples line_data j (k : Int) hwf (by omega) hk).1 hb
        with ⟨a, ha, -⟩ | ⟨a, ha, -⟩
      · simp [sam_angle, h1, fdiv, facos] at ha
      · simp [sam_angle, h2, fdiv, facos] at ha

theorem zero_vector_safety_witness :
    ((∀ x ∈ pixel_band_vector example_mask (pixel_of 1 [0] ((0 : Nat) : Int)), x = 0) →
      ((masking_thresh example_sqrt example_acos example_mask 1 [0]).2.getD 0 []).getD 0 false
        = false ∧
      (thresh_after example_sqrt example_acos example_mask 1 [0] (0 + 1)).mask_param
        = (thresh_after example_sqrt example_acos example_mask 1 [0] 0).mask_param) ∧
    (vec_norm example_sqrt (ref_band_vector example_mask
        (rowI example_mask.orig_spectra ((0 : Nat) : Int))) = 0 →
      vec_norm example_sqrt (ref_band_vector example_mask
        (rowI (thresh_after example_sqrt example_acos example_mask 1 [0] 0).mask_param.updated_spectra
          ((0 : Nat) : Int))) = 0 →
      ((masking_thresh example_sqrt example_acos example_mask 1 [0]).2.getD 0 []).getD 0 false
        = false) :=
  zero_vector_safety example_sqrt example_acos example_mask 1 [0] 0 0 example_mask_wf
    (by simp [example_sqrt]) (by norm_num) (by simp [example_mask])

/-! ### Bands outside the band range are not read -/

/-- The bit of sample `j` and reference `k` is the same in two runs whose inputs agree inside the
band range, provided the updated spectra of `k` agree inside the band range before sample `j`. -/
theorem belong_at_agree (sqrt acos : K → K) (m1 m2 : masking_t K) (num_samples : Int)
    (line1 line2 : List K) (j k : Nat) (hwf1 : masking_wf m1) (hwf2 : masking_wf m2)
    (ha : band_agree m1 m2) (hl : lines_agree m1 num_samples line1 line2)
    (hj : (j : Int) < num_samples) (hk : (k : Int) < m1.num_masking_spectra)
    (hu : ∀ i ∈ band_inds m1.start_band_ind m1.end_band_ind,
      getI (rowI (thresh_after sqrt acos m2 num_samples line2 j).mask_param.updated_spectra
          (k : Int)) i
        = getI (rowI (thresh_after sqrt acos m1 num_samples line1 j).mask_param.updated_spectra
          (k : Int)) i) :
    belong_at sqrt acos m2 num_samples line2 j (k : Int)
      = belong_at sqrt acos m1 num_samples line1 j (k : Int) := by
  obtain ⟨a1, a2, a3, a4⟩ := ha
  obtain ⟨-, a5, a6⟩ := a4 k hk
  have hp : pixel_band_vector m2 (pixel_of num_samples line2 (j : Int))
      = pixel_band_vector m1 (pixel_of num_samples line1 (j : Int)) := by
    unfold pixel_band_vector
    rw [a2, a3]
    exact List.map_congr_left (hl j hj)
  have ho : ref_band_vector m2 (rowI m2.orig_spectra (k : Int))
      = ref_band_vector m1 (rowI m1.orig_spectra (k : Int)) := by
    unfold ref_band_vector
    rw [a2, a3]
    exact List.map_congr_left (fun i hi => (a6 i hi).1)
  have hup : ref_band_vector m2
        (rowI (thresh_after sqrt acos m2 num_samples line2 j).mask_param.updated_spectra (k : Int))
      = ref_band_vector m1
        (rowI (thresh_after sqrt acos m1 num_samples line1 j).mask_param.updated_spectra
          (k : Int)) := by
    unfold ref_band_vector
    rw [a2, a3]
    exact List.map_congr_left hu
  have h1 := belong_at_iff sqrt acos m1 num_samples line1 j (k : Int) hwf1 (by omega) hk
  have h2 := belong_at_iff sqrt acos m2 num_samples line2 j (k : Int) hwf2 (by omega)
    (by rw [a1]; exact hk)
  rw [hp, ho, hup, a5] at h2
  rw [Bool.eq_iff_iff, h1, h2]

/-- Counts and in-band updated spectra stay equal along the samples of two runs whose inputs
agree inside the band range. -/
theorem thresh_after_agree (sqrt acos : K → K) (m1 m2 : masking_t K) (num_samples : Int)
    (line1 line2 : List K) (hwf1 : masking_wf m1) (hwf2 : masking_wf m2)
    (ha : band_agree m1 m2) (hl : lines_agree m1 num_samples line1 line2) :
    ∀ J : Nat, J ≤ num_samples.toNat → ∀ k : Nat, (k : Int) < m1.num_masking_spectra →
      getI (thresh_after sqrt acos m2 num_samples line2 J).mask_param.num_samples_in_spectra
          (k : Int)
        = getI (thresh_after sqrt acos m1 num_samples line1 J).mask_param.num_samples_in_spectra
          (k : Int) ∧
      ∀ i ∈ band_inds m1.start_band_ind m1.end_band_ind,
        getI (rowI (thresh_after sqrt acos m2 num_samples line2 J).mask_param.updated_spectra
            (k : Int)) i
          = getI (rowI (thresh_after sqrt acos m1 num_samples line1 J).mask_param.updated_spectra
            (k : Int)) i := by
  intro J
  induction J with
  | zero =>
    intro _ k hk
    rw [thresh_after_zero, thresh_after_zero]
    obtain ⟨c, -, o⟩ := ha.2.2.2 k hk
    exact ⟨c, fun i hi => (o i hi).2⟩
  | succ J ih =>
    intro hJ k hk
    obtain ⟨ihc, ihu⟩ := ih (by omega) k hk
    have hb := belong_at_agree sqrt acos m1 m2 num_samples line1 line2 J k hwf1 hwf2 ha hl
      (by omega) hk ihu
    obtain ⟨a1, a2, a3, -⟩ := ha
    obtain ⟨e1, c1⟩ := thresh_after_effect sqrt acos m1 num_samples line1 J k hwf1 hk
    obtain ⟨e2, c2⟩ := thresh_after_effect sqrt acos m2 num_samples line2 J k hwf2
      (by rw [a1]; exact hk)
    rw [e1, e2, c1, c2, hb, ihc, a2, a3]
    by_cases hbel : belong_at sqrt acos m1 num_samples line1 J (k : Int) = true
    · simp only [hbel, if_true, true_and]
      intro i hi
      obtain ⟨f1, w1, -, -, -⟩ := thresh_after_spec sqrt acos m1 num_samples line1 hwf1 J
      obtain ⟨f2, w2, -, -, -⟩ := thresh_after_spec sqrt acos m2 num_samples line2 hwf2 J
      have hlen : ∀ (m : masking_t K) (line : List K), masking_wf m →
          (k : Int) < m.num_masking_spectra →
          same_frame m (thresh_after sqrt acos m num_samples line J).mask_param →
          masking_wf (thresh_after sqrt acos m num_samples line J).mask_param →
          0 ≤ m.start_band_ind ∧ m.end_band_ind
            < ((rowI (thresh_after sqrt acos m num_samples line J).mask_param.updated_spectra
              (k : Int)).length : Int) := by
        intro m line hwf hk f w
        obtain ⟨g1, g2, -, -, g5, g6⟩ := f
        obtain ⟨-, w2, -, -, -, w6, w7, w8⟩ := w
        have := w6 _ (rowI_mem
          (thresh_after sqrt acos m num_samples line J).mask_param.updated_spectra (k : Int)
          (by omega) (by rw [w2, g1]; omega))
        rw [this]
        omega
      obtain ⟨h01, h11⟩ := hlen m1 line1 hwf1 hk f1 w1
      obtain ⟨h02, h12⟩ := hlen m2 line2 hwf2 (by rw [a1]; exact hk) f2 w2
      rw [a2] at h02
      rw [a3] at h12
      rw [(update_spectrum_spec sqrt m1.start_band_ind m1.end_band_ind _ _ _ h01 h11).2.1 i hi,
        (update_spectrum_spec sqrt m1.start_band_ind m1.end_band_ind _ _ _ h02 h12).2.1 i hi,
        ihu i hi, hl J (by omega) i hi]
    · simp only [hbel, if_false, true_and]
      exact ihu

/-- C16: two calls of `masking_thresh` on well-formed masking parameters that agree inside the
band range (original and updated spectra free outside it) and on lines whose samples agree on
the bands of the band range (free outside it) return the same table, and the resulting masking
parameters again agree inside the band range: same counts and same in-range updated spectra. -/
theorem bands_outside_not_read (sqrt acos : K → K) (m1 m2 : masking_t K) (num_samples : Int)
    (line1 line2 : List K) (hwf1 : masking_wf m1) (hwf2 : masking_wf m2)
    (ha : band_agree m1 m2) (hl : lines_agree m1 num_samples line1 line2) :
    (masking_thresh sqrt acos m2 num_samples line2).2
      = (masking_thresh sqrt acos m1 num_samples line1).2 ∧
    band_agree (masking_thresh sqrt acos m1 num_samples line1).1
      (masking_thresh sqrt acos m2 num_samples line2).1 := by
  have hag := thresh_after_agree sqrt acos m1 m2 num_samples line1 line2 hwf1 hwf2 ha hl
  obtain ⟨f1, -, -, -, -⟩ := thresh_after_spec sqrt acos m1 num_samples line1 hwf1
    num_samples.toNat
  obtain ⟨f2, -, -, -, -⟩ := thresh_after_spec sqrt acos m2 num_samples line2 hwf2
    num_samples.toNat
  obtain ⟨a1, a2, a3, a4⟩ := ha
  constructor
  · rw [masking_thresh_table sqrt acos m1 num_samples line1 hwf1,
      masking_thresh_table sqrt acos m2 num_samples line2 hwf2, a1]
    apply List.map_congr_left
    intro j hj
    have hj' : j < num_samples.toNat := List.mem_range.1 hj
    apply List.map_congr_left
    intro k hk
    have hk' : k < m1.num_masking_spectra.toNat := List.mem_range.1 hk
    exact belong_at_agree sqrt acos m1 m2 num_samples line1 line2 j k hwf1 hwf2
      ⟨a1, a2, a3, a4⟩ hl (by omega) (by omega)
      (hag j (by omega) k (by omega)).2
  · obtain ⟨g1, -, g3, g4, g5, g6⟩ := f1
    obtain ⟨h1, -, h3, h4, h5, h6⟩ := f2
    show band_agree (thresh_after sqrt acos m1 num_samples line1 num_samples.toNat).mask_param
      (thresh_after sqrt acos m2 num_samples line2 num_samples.toNat).mask_param
    refine ⟨by rw [h1, g1, a1], by rw [h5, g5, a2], by rw [h6, g6, a3], fun k hk => ?_⟩
    rw [g1] at hk
    obtain ⟨c, u⟩ := hag num_samples.toNat le_rfl k hk
    obtain ⟨-, t, o⟩ := a4 k hk
    rw [g5, g6, g4, h4, g3, h3]
    exact ⟨c, t, fun i hi => ⟨(o i hi).1, u i hi⟩⟩

theorem example_mask_a_wf : masking_wf example_mask_a := by
  unfold masking_wf example_mask_a
  simp

theorem example_mask_b_wf : masking_wf example_mask_b := by
  unfold masking_wf example_mask_b
  simp

theorem example_band_agree : band_agree example_mask_a example_mask_b := by
  refine ⟨rfl, rfl, rfl, fun k hk => ?_⟩
  have hk0 : k = 0 := by
    simp only [example_mask_a] at hk
    omega
  subst hk0
  refine ⟨rfl, rfl, fun i hi => ?_⟩
  rw [mem_band_inds] at hi
  have hi0 : i = 0 := by
    simp only [example_mask_a] at hi
    omega
  subst hi0
  simp [example_mask_a, example_mask_b, rowI, getI]

theorem example_lines_agree : lines_agree example_mask_a 1 [2, 3] [2, 4] := by
  intro j hj i hi
  rw [mem_band_inds] at hi
  have hi0 : i = 0 := by
    simp only [example_mask_a] at hi
    omega
  have hj0 : j = 0 := by omega
  subst hi0 hj0
  simp [pixel_of, getI]

theorem bands_outside_not_read_witness :
    (masking_thresh example_sqrt example_acos example_mask_b 1 [2, 4]).2
      = (masking_thresh example_sqrt example_acos example_mask_a 1 [2, 3]).2 ∧
    band_agree (masking_thresh example_sqrt example_acos example_mask_a 1 [2, 3]).1
      (masking_thresh example_sqrt example_acos example_mask_b 1 [2, 4]).1 :=
  bands_outside_not_read example_sqrt example_acos example_mask_a example_mask_b 1 [2, 3] [2, 4]
    example_mask_a_wf example_mask_b_wf example_band_agree example_lines_agree

/-! ### The argument of `acos` -/

/-- The bit `pixel_belong` is computed from `acos` of the two quotients `cos_orig` and
`cos_updated` as they are. -/
theorem pixel_belong_eq_cos (acos : K → K) (m : masking_t K) (no norms : List K) (pv : Int → K)
    (pn : K) (k : Int) :
    pixel_belong acos m no norms pv pn k
      = (flt (facos acos (cos_orig m no pv pn k)) (getI m.sam_thresh k)
        || flt (facos acos (cos_updated m norms pv pn k)) (getI m.sam_thresh k)) := rfl

theorem diag_mask_wf : masking_wf (diag_mask : masking_t K) := by
  unfold masking_wf diag_mask
  simp

/-- C14 (counterexample): with a square root that rounds (`sqrt 2 = 1.414`), for the pixel
`[1, 1]` and the reference `[1, 1]` the value handed to `acos` is
`2 / (1.414 * 1.414) > 1`: it is not clamped to `[-1, 1]`, `acos` is evaluated outside its
domain, and the pixel, although equal to the reference, is classified as not belonging, whatever
`acos` is inside its domain. -/
theorem cosine_not_clamped :
    cos_orig (diag_mask : masking_t ℚ) (thresh_norms_orig rounded_sqrt diag_mask)
        (pixel_of 1 [1, 1] 0) (pixel_norm_of rounded_sqrt 0 1 (pixel_of 1 [1, 1] 0)) 0
      = some (2 / (1414 / 1000 * (1414 / 1000))) ∧
    (1 : ℚ) < 2 / (1414 / 1000 * (1414 / 1000)) ∧
    ∀ acos : ℚ → ℚ, (masking_thresh rounded_sqrt acos (diag_mask : masking_t ℚ) 1 [1, 1]).2
      = [[false]] := by
  refine ⟨?_, by norm_num, fun acos => ?_⟩
  · simp [cos_orig, thresh_norms_orig, ref_norm, samval, pixel_norm_of, pixel_of, band_inds,
      diag_mask, rounded_sqrt, getI, rowI, fdiv, List.range_succ]
    norm_num
  · simp [masking_thresh, thresh_after, thresh_sample, thresh_entry, thresh_norms_orig,
      spectra_after, thresh_spectrum, pixel_belong, update_spectrum, samval, ref_norm,
      pixel_norm_of, pixel_of, band_inds, diag_mask, rounded_sqrt, getI, setI, rowI, fdiv, facos,
      flt, List.range_succ]
    norm_num

theorem foldl_add_eq_map_sum {R : Type} [LinearOrderedField R] (f g : Int → R) (l : List Int)
    (a : R) :
    l.foldl (fun acc i => acc + f i * g i) a = a + (l.map (fun i => f i * g i)).sum := by
  induction l generalizing a with
  | nil => simp
  | cons i l ih =>
    simp only [List.foldl_cons, ih, List.map_cons, List.sum_cons]
    ring

/-- Cauchy-Schwarz for the three sums of `masking_thresh`: with the real square root, the
quotient of the accumulated product by the product of the two norms lies in `[-1, 1]` whenever
it is defined. -/
theorem fdiv_mem_Icc (l : List Int) (hl : l.Nodup) (f g : Int → ℝ) (c : ℝ)
    (h : fdiv (l.foldl (fun acc i => acc + f i * g i) 0)
      (Real.sqrt (l.foldl (fun acc i => acc + f i * f i) 0)
        * Real.sqrt (l.foldl (fun acc i => acc + g i * g i) 0)) = some c) :
    -1 ≤ c ∧ c ≤ 1 := by
  rw [foldl_add_eq_map_sum, foldl_add_eq_map_sum, foldl_add_eq_map_sum, zero_add, zero_add,
    zero_add, ← List.sum_toFinset _ hl, ← List.sum_toFinset _ hl, ← List.sum_toFinset _ hl] at h
  have hcs := Finset.sum_mul_sq_le_sq_mul_sq l.toFinset f g
  have hff : ∀ i, f i * f i = f i ^ 2 := fun i => by ring
  have hgg : ∀ i, g i * g i = g i ^ 2 := fun i => by ring
  simp only [hff, hgg] at h
  have hsf : 0 ≤ ∑ i ∈ l.toFinset, f i ^ 2 := Finset.sum_nonneg (fun i _ => sq_nonneg _)
  rw [← Real.sqrt_mul hsf] at h
  have habs : |∑ i ∈ l.toFinset, f i * g i|
      ≤ Real.sqrt ((∑ i ∈ l.toFinset, f i ^ 2) * ∑ i ∈ l.toFinset, g i ^ 2) :=
    Real.abs_le_sqrt hcs
  unfold fdiv at h
  split_ifs at h with hz
  simp only [Option.some.injEq] at h
  have hpos : 0 < Real.sqrt ((∑ i ∈ l.toFinset, f i ^ 2) * ∑ i ∈ l.toFinset, g i ^ 2) :=
    lt_of_le_of_ne (Real.sqrt_nonneg _) (Ne.symm hz)
  rw [← h]
  have := abs_le.1 habs
  constructor
  · rw [le_div_iff₀ hpos]
    linarith [this.1]
  · rw [div_le_iff₀ hpos]
    linarith [this.2]

/-- C14 (amended): `masking_thresh` applies `acos` to the two quotients as they are computed,
without a clamp.  In exact arithmetic, with the real square root and arc cosine, on well-formed
masking parameters each quotient, whenever it is defined (both norms non-zero), lies in
`[-1, 1]`, so `acos` is evaluated inside its domain, and the angle computed from it lies in
`[0, π]`. -/
theorem cosine_in_range (m : masking_t ℝ) (num_samples : Int) (line_data : List ℝ) (j k : Nat)
    (hwf : masking_wf m) (hk : (k : Int) < m.num_masking_spectra) :
    belong_at Real.sqrt Real.arccos m num_samples line_data j (k : Int)
      = (flt (facos Real.arccos
            (cos_orig (thresh_after Real.sqrt Real.arccos m num_samples line_data j).mask_param
              (thresh_norms_orig Real.sqrt m) (pixel_of num_samples line_data (j : Int))
              (pixel_norm_of Real.sqrt m.start_band_ind m.end_band_ind
                (pixel_of num_samples line_data (j : Int))) (k : Int)))
          (getI m.sam_thresh (k : Int))
        || flt (facos Real.arccos
            (cos_updated (thresh_after Real.sqrt Real.arccos m num_samples line_data j).mask_param
              (thresh_after Real.sqrt Real.arccos m num_samples line_data j).ref_norms_updated
              (pixel_of num_samples line_data (j : Int))
              (pixel_norm_of Real.sqrt m.start_band_ind m.end_band_ind
                (pixel_of num_samples line_data (j : Int))) (k : Int)))
          (getI m.sam_thresh (k : Int))) ∧
    (∀ c, cos_orig (thresh_after Real.sqrt Real.arccos m num_samples line_data j).mask_param
          (thresh_norms_orig Real.sqrt m) (pixel_of num_samples line_data (j : Int))
          (pixel_norm_of Real.sqrt m.start_band_ind m.end_band_ind
            (pixel_of num_samples line_data (j : Int))) (k : Int) = some c →
      -1 ≤ c ∧ c ≤ 1 ∧ facos Real.arccos (some c) = some (Real.arccos c) ∧
        0 ≤ Real.arccos c ∧ Real.arccos c ≤ Real.pi) ∧
    (∀ c, cos_updated (thresh_after Real.sqrt Real.arccos m num_samples line_data j).mask_param
          (thresh_after Real.sqrt Real.arccos m num_samples line_data j).ref_norms_updated
          (pixel_of num_samples line_data (j : Int))
          (pixel_norm_of Real.sqrt m.start_band_ind m.end_band_ind
            (pixel_of num_samples line_data (j : Int))) (k : Int) = some c →
      -1 ≤ c ∧ c ≤ 1 ∧ facos Real.arccos (some c) = some (Real.arccos c) ∧
        0 ≤ Real.arccos c ∧ Real.arccos c ≤ Real.pi) := by
  obtain ⟨f, -, n, -, -⟩ := thresh_after_spec Real.sqrt Real.arccos m num_samples line_data hwf j
  obtain ⟨f1, -, f3, f4, f5, f6⟩ := f
  have hn := n.2 (k : Int) (by omega) (by rw [f1]; exact hk)
  have hno := thresh_norms_orig_get Real.sqrt m (k : Int) (by omega) hk
  have hfin : ∀ c : ℝ, -1 ≤ c ∧ c ≤ 1 →
      -1 ≤ c ∧ c ≤ 1 ∧ facos Real.arccos (some c) = some (Real.arccos c) ∧
        0 ≤ Real.arccos c ∧ Real.arccos c ≤ Real.pi := by
    intro c hc
    refine ⟨hc.1, hc.2, ?_, Real.arccos_nonneg c, Real.arccos_le_pi c⟩
    simp [facos, hc.1, hc.2]
  refine ⟨?_, fun c hc => hfin c ?_, fun c hc => hfin c ?_⟩
  · unfold belong_at
    rw [pixel_belong_eq_cos, f4, f5, f6]
  · unfold cos_orig at hc
    rw [hno, f3, f5, f6] at hc
    exact fdiv_mem_Icc _ (nodup_band_inds _ _) _ _ c hc
  · unfold cos_updated at hc
    rw [hn, f5, f6] at hc
    exact fdiv_mem_Icc _ (nodup_band_inds _ _) _ _ c hc

theorem cosine_in_range_witness :
    belong_at Real.sqrt Real.arccos (diag_mask : masking_t ℝ) 1 [1, 1] 0 ((0 : Nat) : Int)
      = (flt (facos Real.arccos
            (cos_orig (thresh_after Real.sqrt Real.arccos (diag_mask : masking_t ℝ) 1 [1, 1]
                0).mask_param
              (thresh_norms_orig Real.sqrt (diag_mask : masking_t ℝ))
              (pixel_of 1 [1, 1] ((0 : Nat) : Int))
              (pixel_norm_of Real.sqrt (diag_mask : masking_t ℝ).start_band_ind
                (diag_mask : masking_t ℝ).end_band_ind
                (pixel_of 1 [1, 1] ((0 : Nat) : Int))) ((0 : Nat) : Int)))
          (getI (diag_mask : masking_t ℝ).sam_thresh ((0 : Nat) : Int))
        || flt (facos Real.arccos
            (cos_updated (thresh_after Real.sqrt Real.arccos (diag_mask : masking_t ℝ) 1 [1, 1]
                0).mask_param
              (thresh_after Real.sqrt Real.arccos (diag_mask : masking_t ℝ) 1 [1, 1]
                0).ref_norms_updated
              (pixel_of 1 [1, 1] ((0 : Nat) : Int))
              (pixel_norm_of Real.sqrt (diag_mask : masking_t ℝ).start_band_ind
                (diag_mask : masking_t ℝ).end_band_ind
                (pixel_of 1 [1, 1] ((0 : Nat) : Int))) ((0 : Nat) : Int)))
          (getI (diag_mask : masking_t ℝ).sam_thresh ((0 : Nat) : Int))) :=
  (cosine_in_range (diag_mask : masking_t ℝ) 1 [1, 1] 0 0 diag_mask_wf
    (by simp [diag_mask])).1

/-! ### Adaptive drift -/

theorem drift_init :
    masking_init (some [some [((400 : K), (4 : K)), (500, 3), (600, 3)]]) none [400, 500]
      .REFLECTANCE_MASKING = (.MASKING_NO_ERR, some drift_mask) := by
  have h1 : find_min_step ([400, 500, 600] : List K) = 100 := by
    norm_num [find_min_step, List.range_succ, getI]
  have h2 : resample_fuel (400 : K) 600 100 = 2 := by
    norm_num [resample_fuel]
    rfl
  have h3 : resample_loop ([400, 500, 600] : List K) [4, 3, 3] 600 100 2 400 0 []
      = some [4, 3] := by
    norm_num [resample_loop, getI]
  have hr : spectral_read_file (some [((400 : K), (4 : K)), (500, 3), (600, 3)])
      = .ok ⟨2, 400, 100, [4, 3]⟩ := by
    simp [spectral_read_file, read_pairs, getI, h1, h2, h3]
  have hp : parsed_spectra [some [((400 : K), (4 : K)), (500, 3), (600, 3)]]
      = [⟨2, 400, 100, [4, 3]⟩] := by
    simp only [parsed_spectra, List.filterMap_cons, hr, List.filterMap_nil]
  have hg1 : spectral_get_value (⟨2, 400, 100, [4, 3]⟩ : spectrum_t K) 400 = .ok 4 := by
    norm_num [spectral_get_value, getI]
  have hg2 : spectral_get_value (⟨2, 400, 100, [4, 3]⟩ : spectrum_t K) 500 = .ok 3 := by
    norm_num [spectral_get_value, getI]
  simp [masking_init, spectral_construct_library_from_directory,
    spectral_construct_library_from_files_eq, hp, masking_from_library, hg1, hg2, drift_mask,
    List.range_succ]

/-- First call on the fresh example state: the pixel `(5, 12)` is too far from the reference
`(4, 3)`, the pixel `(3, 4)` matches it and becomes the updated spectrum. -/
theorem drift_first (sqrt acos : K → K) (h25 : sqrt 25 = 5) (h169 : sqrt 169 = 13)
    (ha1 : ¬ acos (56 / 65) < 3 / 10) (ha2 : acos (24 / 25) < 3 / 10) :
    masking_thresh sqrt acos (drift_mask : masking_t K) 2 drift_line
      = ({ (drift_mask : masking_t K) with
            updated_spectra := [[3, 4]], num_samples_in_spectra := [1] },
          [[false], [true]]) := by
  have e1 : (4 : K) * 4 + 3 * 3 = 25 := by norm_num
  have e2 : (5 : K) * 5 + 12 * 12 = 169 := by norm_num
  have e3 : (3 : K) * 3 + 4 * 4 = 25 := by norm_num
  have e4 : (5 : K) * 4 + 12 * 3 = 56 := by norm_num
  have e5 : (3 : K) * 4 + 4 * 3 = 24 := by norm_num
  have e6 : (56 : K) / (13 * 5) = 56 / 65 := by norm_num
  have e7 : (24 : K) / (5 * 5) = 24 / 25 := by norm_num
  have b1 : (-1 : K) ≤ 56 / 65 ∧ (56 : K) / 65 ≤ 1 := by constructor <;> norm_num
  have b2 : (-1 : K) ≤ 24 / 25 ∧ (24 : K) / 25 ≤ 1 := by constructor <;> norm_num
  simp [masking_thresh, thresh_after, thresh_sample, thresh_entry, thresh_norms_orig,
    spectra_after, thresh_spectrum, pixel_belong, update_spectrum, samval, ref_norm,
    pixel_norm_of, pixel_of, band_inds, drift_mask, drift_line, getI, setI, rowI, fdiv, facos,
    flt, List.range_succ, e1, e2, e3, e4, e5, e6, e7, h25, h169, ha1, ha2, b1, b2]

/-- Second call with the same line on the state left by the first call: the pixel `(5, 12)` now
matches through the updated spectrum `(3, 4)`. -/
theorem drift_second (sqrt acos : K → K) (h25 : sqrt 25 = 5) (h169 : sqrt 169 = 13)
    (ha1 : ¬ acos (56 / 65) < 3 / 10) (ha2 : acos (24 / 25) < 3 / 10)
    (ha3 : acos (63 / 65) < 3 / 10) :
    (masking_thresh sqrt acos
      { (drift_mask : masking_t K) with
          updated_spectra := [[3, 4]], num_samples_in_spectra := [1] } 2 drift_line).2
      = [[true], [true]] := by
  have e1 : (4 : K) * 4 + 3 * 3 = 25 := by norm_num
  have e2 : (5 : K) * 5 + 12 * 12 = 169 := by norm_num
  have e3 : (3 : K) * 3 + 4 * 4 = 25 := by norm_num
  have e4 : (5 : K) * 4 + 12 * 3 = 56 := by norm_num
  have e5 : (3 : K) * 4 + 4 * 3 = 24 := by norm_num
  have e6 : (56 : K) / (13 * 5) = 56 / 65 := by norm_num
  have e7 : (24 : K) / (5 * 5) = 24 / 25 := by norm_num
  have e8 : (5 : K) * 3 + 12 * 4 = 63 := by norm_num
  have e9 : (63 : K) / (13 * 5) = 63 / 65 := by norm_num
  have b1 : (-1 : K) ≤ 56 / 65 ∧ (56 : K) / 65 ≤ 1 := by constructor <;> norm_num
  have b2 : (-1 : K) ≤ 24 / 25 ∧ (24 : K) / 25 ≤ 1 := by constructor <;> norm_num
  have b3 : (-1 : K) ≤ 63 / 65 ∧ (63 : K) / 65 ≤ 1 := by constructor <;> norm_num
  simp [masking_thresh, thresh_after, thresh_sample, thresh_entry, thresh_norms_orig,
    spectra_after, thresh_spectrum, pixel_belong, update_spectrum, samval, ref_norm,
    pixel_norm_of, pixel_of, band_inds, drift_mask, drift_line, getI, setI, rowI, fdiv, facos,
    flt, List.range_succ, e1, e2, e3, e4, e5, e6, e7, e8, e9, h25, h169, ha1, ha2, ha3, b1, b2,
    b3]

theorem cos_three_tenths_bounds :
    (95457 : ℝ) / 100000 ≤ Real.cos (3 / 10) ∧ Real.cos (3 / 10) ≤ 95543 / 100000 := by
  have h := Real.cos_bound (x := 3 / 10) (by rw [abs_le]; constructor <;> norm_num)
  have habs : |(3 / 10 : ℝ)| = 3 / 10 := abs_of_pos (by norm_num)
  rw [habs] at h
  have := abs_le.1 h
  constructor
  · have h1 := this.1
    norm_num at h1
    linarith
  · have h2 := this.2
    norm_num at h2
    linarith

theorem arccos_lt_three_tenths (c : ℝ) (h1 : 95543 / 100000 < c) (h2 : c ≤ 1) :
    Real.arccos c < 3 / 10 := by
  have hb := cos_three_tenths_bounds
  have hcos : Real.arccos (Real.cos (3 / 10)) = 3 / 10 :=
    Real.arccos_cos (by norm_num) (by linarith [Real.pi_gt_three])
  have := Real.strictAntiOn_arccos (a := Real.cos (3 / 10)) (b := c)
    ⟨by linarith [hb.1], by linarith [hb.2]⟩ ⟨by linarith, h2⟩ (by linarith [hb.2])
  rw [hcos] at this
  exact this

theorem not_arccos_lt_three_tenths (c : ℝ) (h1 : -1 ≤ c) (h2 : c < 95457 / 100000) :
    ¬ Real.arccos c < 3 / 10 := by
  have hb := cos_three_tenths_bounds
  have hcos : Real.arccos (Real.cos (3 / 10)) = 3 / 10 :=
    Real.arccos_cos (by norm_num) (by linarith [Real.pi_gt_three])
  have := Real.strictAntiOn_arccos (a := c) (b := Real.cos (3 / 10))
    ⟨h1, by linarith⟩ ⟨by linarith [hb.1], by linarith [hb.2]⟩ (by linarith [hb.1])
  rw [hcos] at this
  exact not_lt.2 this.le

/-- C17: in exact real arithmetic there are a freshly initialised state and a line for which a
second call of `masking_thresh` with the identical line, on the state left by the first call,
returns a table different from the first one (the first sample is rejected in the first call and
accepted in the second, through the updated spectrum); and the results of a sequence of calls
are a function of the initial state and the lines alone: from equal states they are equal. -/
theorem adaptive_drift :
    (∃ (reflectance_dir : Option (List (file_t ℝ))) (wlens : List ℝ) (m0 : masking_t ℝ)
        (num_samples : Int) (line_data : List ℝ),
      masking_init reflectance_dir none wlens .REFLECTANCE_MASKING = (.MASKING_NO_ERR, some m0) ∧
      (masking_thresh Real.sqrt Real.arccos
          (masking_thresh Real.sqrt Real.arccos m0 num_samples line_data).1 num_samples
          line_data).2
        ≠ (masking_thresh Real.sqrt Real.arccos m0 num_samples line_data).2) ∧
    (∀ (m1 m2 : masking_t ℝ) (lines : List (Int × List ℝ)), m1 = m2 →
      masking_run Real.sqrt Real.arccos m1 lines = masking_run Real.sqrt Real.arccos m2 lines) := by
  have h25 : Real.sqrt 25 = 5 :=
    (Real.sqrt_eq_iff_mul_self_eq_of_pos (by norm_num)).2 (by norm_num)
  have h169 : Real.sqrt 169 = 13 :=
    (Real.sqrt_eq_iff_mul_self_eq_of_pos (by norm_num)).2 (by norm_num)
  have ha1 : ¬ Real.arccos (56 / 65) < 3 / 10 :=
    not_arccos_lt_three_tenths _ (by norm_num) (by norm_num)
  have ha2 : Real.arccos (24 / 25) < 3 / 10 :=
    arccos_lt_three_tenths _ (by norm_num) (by norm_num)
  have ha3 : Real.arccos (63 / 65) < 3 / 10 :=
    arccos_lt_three_tenths _ (by norm_num) (by norm_num)
  refine ⟨⟨some [some [((400 : ℝ), (4 : ℝ)), (500, 3), (600, 3)]], [400, 500], drift_mask, 2,
    drift_line, drift_init, ?_⟩, fun m1 m2 lines h => by rw [h]⟩
  rw [drift_first Real.sqrt Real.arccos h25 h169 ha1 ha2]
  simp only
  rw [drift_second Real.sqrt Real.arccos h25 h169 ha1 ha2 ha3]
  simp

/-! ### Bracketing in the resampling loop -/

theorem getI_mem (a : List K) (i : Int) (h0 : 0 ≤ i) (h1 : i < (a.length : Int)) :
    getI a i ∈ a := by
  have h0' : ¬ i < 0 := by omega
  have hlt : i.toNat < a.length := by omega
  simp only [getI, h0', if_false, List.getD_eq_getElem?_getD, List.getElem?_eq_getElem hlt,
    Option.getD_some]
  exact List.getElem_mem hlt

theorem interp_between (a b t : K) (h0 : 0 ≤ t) (h1 : t ≤ 1) :
    min a b ≤ a + t * (b - a) ∧ a + t * (b - a) ≤ max a b := by
  rcases le_total a b with hab | hab
  · rw [min_eq_left hab, max_eq_right hab]
    constructor
    · nlinarith
    · nlinarith
  · rw [min_eq_right hab, max_eq_left hab]
    constructor
    · nlinarith
    · nlinarith

/-- C22: on a spectrum with a positive step whose `num_values ≥ 1` values fill the array, the
value returned by `spectral_get_value` lies between two values of the array, hence between
their minimum and maximum; and when the wavelength lies in the grid cell of an index `i` with
`i + 1` valid, the interpolation weight `(w - (start_wlen + i * step_wlen)) / step_wlen` lies in
`[0, 1)` and the returned value `values[i] + weight * (values[i+1] - values[i])` lies between
`values[i]` and `values[i+1]`. -/
theorem no_overshoot (s : spectrum_t K) (w : K) (hstep : 0 < s.step_wlen)
    (hn : 1 ≤ s.num_values) (hlen : (s.values.length : Int) = s.num_values) :
    (∃ v, spectral_get_value s w = .ok v ∧
      ∃ a ∈ s.values, ∃ b ∈ s.values, a ≤ v ∧ v ≤ b) ∧
    (∀ i : Int, 0 ≤ i → i + 1 < s.num_values →
      s.start_wlen + (i : K) * s.step_wlen ≤ w →
      w < s.start_wlen + ((i : K) + 1) * s.step_wlen →
      0 ≤ (w - (s.start_wlen + (i : K) * s.step_wlen)) / s.step_wlen ∧
      (w - (s.start_wlen + (i : K) * s.step_wlen)) / s.step_wlen < 1 ∧
      ∃ v, spectral_get_value s w = .ok v ∧
        v = getI s.values i + (w - (s.start_wlen + (i : K) * s.step_wlen)) / s.step_wlen
          * (getI s.values (i + 1) - getI s.values i) ∧
        min (getI s.values i) (getI s.values (i + 1)) ≤ v ∧
        v ≤ max (getI s.values i) (getI s.values (i + 1))) := by
  have hcell : ∀ i : Int, 0 ≤ i → i + 1 < s.num_values →
      s.start_wlen + (i : K) * s.step_wlen ≤ w →
      w < s.start_wlen + ((i : K) + 1) * s.step_wlen →
      0 ≤ (w - (s.start_wlen + (i : K) * s.step_wlen)) / s.step_wlen ∧
      (w - (s.start_wlen + (i : K) * s.step_wlen)) / s.step_wlen < 1 ∧
      ∃ v, spectral_get_value s w = .ok v ∧
        v = getI s.values i + (w - (s.start_wlen + (i : K) * s.step_wlen)) / s.step_wlen
          * (getI s.values (i + 1) - getI s.values i) ∧
        min (getI s.values i) (getI s.values (i + 1)) ≤ v ∧
        v ≤ max (getI s.values i) (getI s.values (i + 1)) := by
    intro i h0 h1 hlo hhi
    have ht0 : 0 ≤ (w - (s.start_wlen + (i : K) * s.step_wlen)) / s.step_wlen :=
      div_nonneg (by linarith) hstep.le
    have ht1 : (w - (s.start_wlen + (i : K) * s.step_wlen)) / s.step_wlen < 1 := by
      rw [div_lt_one hstep]
      linarith
    obtain ⟨b1, b2⟩ := interp_between (getI s.values i) (getI s.values (i + 1)) _ ht0 ht1.le
    exact ⟨ht0, ht1, _, spectral_get_value_interp s w i hstep h0 h1 hlo hhi, rfl, b1, b2⟩
  refine ⟨?_, hcell⟩
  by_cases hlow : w < s.start_wlen
  · exact ⟨_, spectral_get_value_below s w hstep hn hlow, _,
      getI_mem _ 0 le_rfl (by omega), _, getI_mem _ 0 le_rfl (by omega), le_rfl, le_rfl⟩
  · by_cases hhigh : s.start_wlen + ((s.num_values : K) - 1) * s.step_wlen ≤ w
    · exact ⟨_, spectral_get_value_above s w hstep hn hhigh, _,
        getI_mem _ _ (by omega) (by omega), _, getI_mem _ _ (by omega) (by omega), le_rfl,
        le_rfl⟩
    · have hlo : s.start_wlen ≤ w := not_lt.1 hlow
      have hhi : w < s.start_wlen + ((s.num_values : K) - 1) * s.step_wlen := not_le.1 hhigh
      have hfl0 : 0 ≤ ⌊(w - s.start_wlen) / s.step_wlen⌋ :=
        Int.floor_nonneg.2 (div_nonneg (by linarith) hstep.le)
      have hfl1 : ⌊(w - s.start_wlen) / s.step_wlen⌋ + 1 < s.num_values := by
        have : ⌊(w - s.start_wlen) / s.step_wlen⌋ < s.num_values - 1 := by
          rw [Int.floor_lt, div_lt_iff₀ hstep]
          push_cast
          linarith
        omega
      have hle : s.start_wlen + (⌊(w - s.start_wlen) / s.step_wlen⌋ : K) * s.step_wlen ≤ w := by
        have := Int.floor_le ((w - s.start_wlen) / s.step_wlen)
        rw [le_div_iff₀ hstep] at this
        linarith
      have hlt : w < s.start_wlen
          + ((⌊(w - s.start_wlen) / s.step_wlen⌋ : K) + 1) * s.step_wlen := by
        have := Int.lt_floor_add_one ((w - s.start_wlen) / s.step_wlen)
        rw [div_lt_iff₀ hstep] at this
        linarith
      obtain ⟨-, -, v, hv, -, b1, b2⟩ := hcell _ hfl0 hfl1 hle hlt
      refine ⟨v, hv, ?_⟩
      have m1 := getI_mem s.values ⌊(w - s.start_wlen) / s.step_wlen⌋ hfl0 (by omega)
      have m2 := getI_mem s.values (⌊(w - s.start_wlen) / s.step_wlen⌋ + 1) (by omega)
        (by omega)
      rcases le_total (getI s.values ⌊(w - s.start_wlen) / s.step_wlen⌋)
        (getI s.values (⌊(w - s.start_wlen) / s.step_wlen⌋ + 1)) with hab | hab
      · rw [min_eq_left hab] at b1
        rw [max_eq_right hab] at b2
        exact ⟨_, m1, _, m2, b1, b2⟩
      · rw [min_eq_right hab] at b1
        rw [max_eq_left hab] at b2
        exact ⟨_, m2, _, m1, b1, b2⟩

theorem no_overshoot_witness :
    ∃ v, spectral_get_value (⟨3, 400, 100, [2, 1, 4]⟩ : spectrum_t ℚ) 450 = .ok v ∧
      ∃ a ∈ ([2, 1, 4] : List ℚ), ∃ b ∈ ([2, 1, 4] : List ℚ), a ≤ v ∧ v ≤ b :=
  (no_overshoot (⟨3, 400, 100, [2, 1, 4]⟩ : spectrum_t ℚ) 450 (by norm_num) (by norm_num)
    (by simp)).1

/-! ### A positive multiple of a reference -/

theorem vec_dot_map {R : Type} [LinearOrderedField R] (l : List Int) (f g : Int → R) :
    List.sum (List.zipWith (fun x y => x * y) (l.map f) (l.map g))
      = (l.map (fun i => f i * g i)).sum := by
  induction l with
  | nil => simp
  | cons i l ih => simp [ih]

/-- Spectral angle, in exact real arithmetic, of a vector with a positive multiple of itself. -/
theorem sam_angle_multiple (l : List Int) (g pv : Int → ℝ) (c : ℝ) (hc : 0 < c)
    (hnz : ∃ i ∈ l, g i ≠ 0) (hp : ∀ i ∈ l, pv i = c * g i) :
    sam_angle Real.sqrt Real.arccos (l.map pv) (l.map g) = some 0 := by
  have hpv : l.map pv = l.map (fun i => c * g i) := List.map_congr_left hp
  have hS0 : ∀ x ∈ l.map (fun i => g i * g i), 0 ≤ x := by
    intro x hx
    obtain ⟨i, -, rfl⟩ := List.mem_map.1 hx
    exact mul_self_nonneg _
  have hSpos : 0 < (l.map (fun i => g i * g i)).sum := by
    obtain ⟨i, hi, hgi⟩ := hnz
    have h1 : g i * g i ≤ (l.map (fun i => g i * g i)).sum :=
      List.single_le_sum hS0 _ (List.mem_map_of_mem _ hi)
    have h2 : 0 < g i * g i := mul_self_pos.2 hgi
    linarith
  have hdot : vec_dot (l.map pv) (l.map g) = c * (l.map (fun i => g i * g i)).sum := by
    unfold vec_dot
    rw [hpv, vec_dot_map, ← List.sum_map_mul_left]
    congr 1
    apply List.map_congr_left
    intro i _
    ring
  have hpp : vec_dot (l.map pv) (l.map pv) = c ^ 2 * (l.map (fun i => g i * g i)).sum := by
    unfold vec_dot
    rw [hpv, vec_dot_map, ← List.sum_map_mul_left]
    congr 1
    apply List.map_congr_left
    intro i _
    ring
  have hrr : vec_dot (l.map g) (l.map g) = (l.map (fun i => g i * g i)).sum := by
    unfold vec_dot
    rw [vec_dot_map]
  have hnorm : vec_norm Real.sqrt (l.map pv) * vec_norm Real.sqrt (l.map g)
      = c * (l.map (fun i => g i * g i)).sum := by
    unfold vec_norm
    rw [hpp, hrr, Real.sqrt_mul (sq_nonneg c), Real.sqrt_sq hc.le, mul_assoc,
      Real.mul_self_sqrt hSpos.le]
  have hne : c * (l.map (fun i => g i * g i)).sum ≠ 0 := (mul_pos hc hSpos).ne'
  unfold sam_angle
  rw [hdot, hnorm]
  simp [fdiv, facos, hne, Real.arccos_one]

/-- C23 (amended): `masking_thresh` applies no clamp to the quotient handed to `acos`.  In exact
real arithmetic, on well-formed masking parameters, when `orig_spectra[k]` is
not zero over the band range, `sam_thresh[k] > 0` and the values of sample `j` over the band
range are `c` times those of `orig_spectra[k]` with `c > 0`, the spectral angle of the pixel
with `orig_spectra[k]` is `0` and the entry of sample `j` and reference `k` in the returned table
is `true`, whatever the updated spectrum and the count of `k` are. -/
theorem positive_multiple_matches (m : masking_t ℝ) (num_samples : Int) (line_data : List ℝ)
    (j k : Nat) (c : ℝ) (hwf : masking_wf m) (hj : (j : Int) < num_samples)
    (hk : (k : Int) < m.num_masking_spectra) (hc : 0 < c)
    (hthr : 0 < getI m.sam_thresh (k : Int))
    (hnz : ∃ i ∈ band_inds m.start_band_ind m.end_band_ind,
      getI (rowI m.orig_spectra (k : Int)) i ≠ 0)
    (hp : ∀ i ∈ band_inds m.start_band_ind m.end_band_ind,
      pixel_of num_samples line_data (j : Int) i = c * getI (rowI m.orig_spectra (k : Int)) i) :
    sam_angle Real.sqrt Real.arccos (pixel_band_vector m (pixel_of num_samples line_data (j : Int)))
        (ref_band_vector m (rowI m.orig_spectra (k : Int))) = some 0 ∧
    ((masking_thresh Real.sqrt Real.arccos m num_samples line_data).2.getD j []).getD k false
      = true := by
  have hang : sam_angle Real.sqrt Real.arccos
      (pixel_band_vector m (pixel_of num_samples line_data (j : Int)))
      (ref_band_vector m (rowI m.orig_spectra (k : Int))) = some 0 :=
    sam_angle_multiple _ _ _ c hc hnz hp
  refine ⟨hang, ?_⟩
  rw [masking_thresh_entry Real.sqrt Real.arccos m num_samples line_data j k hwf hj hk,
    belong_at_iff Real.sqrt Real.arccos m num_samples line_data j (k : Int) hwf (by omega) hk]
  exact Or.inl ⟨0, hang, hthr⟩

theorem positive_multiple_matches_witness :
    sam_angle Real.sqrt Real.arccos
        (pixel_band_vector (diag_mask : masking_t ℝ) (pixel_of 1 [2, 2] ((0 : Nat) : Int)))
        (ref_band_vector (diag_mask : masking_t ℝ)
          (rowI (diag_mask : masking_t ℝ).orig_spectra ((0 : Nat) : Int))) = some 0 ∧
    ((masking_thresh Real.sqrt Real.arccos (diag_mask : masking_t ℝ) 1 [2, 2]).2.getD 0
      []).getD 0 false = true :=
  positive_multiple_matches (diag_mask : masking_t ℝ) 1 [2, 2] 0 0 2 diag_mask_wf (by norm_num)
    (by simp [diag_mask]) (by norm_num) (by simp [diag_mask, getI])
    ⟨0, by rw [mem_band_inds]; simp [diag_mask], by simp [diag_mask, rowI, getI]⟩
    (by
      intro i hi
      rw [mem_band_inds] at hi
      simp only [diag_mask] at hi
      have h01 : i = 0 ∨ i = 1 := by omega
      rcases h01 with rfl | rfl <;> simp [pixel_of, diag_mask, rowI, getI])

/-- C23 (counterexample): with a square root of finite precision (at `2` the IEEE
single-precision value `11863283 / 2^23`, below the real square root), the pixel `[1, 1]` is
`1` times the reference `[1, 1]`, the reference is non-zero and its threshold `3/10` is
positive, yet the quotient handed to `acos` is above `1`: no spectral angle is defined and the
pixel is classified as not belonging, whatever `acos` is inside its domain. -/
theorem positive_multiple_rejected :
    (∀ i ∈ band_inds (diag_mask : masking_t ℚ).start_band_ind
        (diag_mask : masking_t ℚ).end_band_ind,
      pixel_of 1 ([1, 1] : List ℚ) 0 i
        = 1 * getI (rowI (diag_mask : masking_t ℚ).orig_spectra 0) i) ∧
    (∃ i ∈ band_inds (diag_mask : masking_t ℚ).start_band_ind
        (diag_mask : masking_t ℚ).end_band_ind,
      getI (rowI (diag_mask : masking_t ℚ).orig_spectra 0) i ≠ 0) ∧
    (0 : ℚ) < getI (diag_mask : masking_t ℚ).sam_thresh 0 ∧
    fdiv (vec_dot (pixel_band_vector (diag_mask : masking_t ℚ) (pixel_of 1 [1, 1] 0))
        (ref_band_vector diag_mask (rowI (diag_mask : masking_t ℚ).orig_spectra 0)))
      (vec_norm single_sqrt (pixel_band_vector (diag_mask : masking_t ℚ) (pixel_of 1 [1, 1] 0))
        * vec_norm single_sqrt
          (ref_band_vector diag_mask (rowI (diag_mask : masking_t ℚ).orig_spectra 0)))
      = some (2 / (11863283 / 8388608 * (11863283 / 8388608))) ∧
    (1 : ℚ) < 2 / (11863283 / 8388608 * (11863283 / 8388608)) ∧
    (∀ acos : ℚ → ℚ,
      sam_angle single_sqrt acos
          (pixel_band_vector (diag_mask : masking_t ℚ) (pixel_of 1 [1, 1] 0))
          (ref_band_vector diag_mask (rowI (diag_mask : masking_t ℚ).orig_spectra 0))
        = none) ∧
    ∀ acos : ℚ → ℚ,
      ((masking_thresh single_sqrt acos (diag_mask : masking_t ℚ) 1 [1, 1]).2.getD 0 []).getD 0
        false = false := by
  have hb : band_inds (diag_mask : masking_t ℚ).start_band_ind
      (diag_mask : masking_t ℚ).end_band_ind = [0, 1] := by
    simp [band_inds, diag_mask, List.range_succ]
  have hq : fdiv (vec_dot (pixel_band_vector (diag_mask : masking_t ℚ) (pixel_of 1 [1, 1] 0))
        (ref_band_vector diag_mask (rowI (diag_mask : masking_t ℚ).orig_spectra 0)))
      (vec_norm single_sqrt (pixel_band_vector (diag_mask : masking_t ℚ) (pixel_of 1 [1, 1] 0))
        * vec_norm single_sqrt
          (ref_band_vector diag_mask (rowI (diag_mask : masking_t ℚ).orig_spectra 0)))
      = some (2 / (11863283 / 8388608 * (11863283 / 8388608))) := by
    have hpv : pixel_band_vector (diag_mask : masking_t ℚ) (pixel_of 1 [1, 1] 0) = [1, 1] := by
      unfold pixel_band_vector
      rw [hb]
      simp [pixel_of, getI]
    have hrv : ref_band_vector (diag_mask : masking_t ℚ)
        (rowI (diag_mask : masking_t ℚ).orig_spectra 0) = [1, 1] := by
      unfold ref_band_vector
      rw [hb]
      simp [diag_mask, rowI, getI]
    rw [hpv, hrv]
    norm_num [vec_dot, vec_norm, single_sqrt, fdiv]
  refine ⟨?_, ?_, ?_, hq, by norm_num, fun acos => ?_, fun acos => ?_⟩
  · rw [hb]
    intro i hi
    simp at hi
    rcases hi with rfl | rfl <;> simp [pixel_of, diag_mask, rowI, getI]
  · rw [hb]
    exact ⟨0, by simp, by simp [diag_mask, rowI, getI]⟩
  · simp [diag_mask, getI]
  · unfold sam_angle
    rw [hq]
    simp [facos]
    intro _
    norm_num
  · simp [masking_thresh, thresh_after, thresh_sample, thresh_entry, thresh_norms_orig,
      spectra_after, thresh_spectrum, pixel_belong, update_spectrum, samval, ref_norm,
      pixel_norm_of, pixel_of, band_inds, diag_mask, single_sqrt, getI, setI, rowI, fdiv, facos,
      flt, List.range_succ]
    norm_num

/-! ### Splitting a line -/

theorem samval_congr (s e : Int) (pv1 pv2 : Int → K) (spec : List K)
    (h : ∀ i ∈ band_inds s e, pv1 i = pv2 i) : samval s e pv1 spec = samval s e pv2 spec := by
  unfold samval
  apply List.foldl_ext
  intro a i hi
  rw [h i hi]

theorem pixel_norm_of_congr (sqrt : K → K) (s e : Int) (pv1 pv2 : Int → K)
    (h : ∀ i ∈ band_inds s e, pv1 i = pv2 i) :
    pixel_norm_of sqrt s e pv1 = pixel_norm_of sqrt s e pv2 := by
  unfold pixel_norm_of
  congr 1
  apply List.foldl_ext
  intro a i hi
  rw [h i hi]

theorem update_spectrum_congr (s e : Int) (pv1 pv2 : Int → K) (n : Int) (spec : List K)
    (h : ∀ i ∈ band_inds s e, pv1 i = pv2 i) :
    update_spectrum s e pv1 n spec = update_spectrum s e pv2 n spec := by
  unfold update_spectrum
  apply List.foldl_ext
  intro a i hi
  rw [h i hi]

/-- The body of the loop over the references reads the pixel only inside the band range. -/
theorem thresh_spectrum_congr (sqrt acos : K → K) (no : List K) (pv1 pv2 : Int → K) (pn : K)
    (st : masking_t K × List K × List Bool) (k : Int)
    (h : ∀ i ∈ band_inds st.1.start_band_ind st.1.end_band_ind, pv1 i = pv2 i) :
    thresh_spectrum sqrt acos no pv1 pn st k = thresh_spectrum sqrt acos no pv2 pn st k := by
  unfold thresh_spectrum pixel_belong
  simp only [samval_congr _ _ pv1 pv2 _ h, update_spectrum_congr _ _ pv1 pv2 _ _ h]

theorem thresh_spectrum_band (sqrt acos : K → K) (no : List K) (pv : Int → K) (pn : K)
    (st : masking_t K × List K × List Bool) (k : Int) :
    (thresh_spectrum sqrt acos no pv pn st k).1.start_band_ind = st.1.start_band_ind ∧
    (thresh_spectrum sqrt acos no pv pn st k).1.end_band_ind = st.1.end_band_ind := by
  unfold thresh_spectrum
  simp only
  split_ifs <;> exact ⟨rfl, rfl⟩

theorem spectra_after_congr (sqrt acos : K → K) (no : List K) (pv1 pv2 : Int → K) (pn : K)
    (st : masking_t K × List K × List Bool)
    (h : ∀ i ∈ band_inds st.1.start_band_ind st.1.end_band_ind, pv1 i = pv2 i) :
    ∀ n : Nat,
      spectra_after sqrt acos no pv1 pn st n = spectra_after sqrt acos no pv2 pn st n ∧
      (spectra_after sqrt acos no pv2 pn st n).1.start_band_ind = st.1.start_band_ind ∧
      (spectra_after sqrt acos no pv2 pn st n).1.end_band_ind = st.1.end_band_ind := by
  intro n
  induction n with
  | zero => simp [spectra_after_zero]
  | succ n ih =>
    obtain ⟨e, b1, b2⟩ := ih
    obtain ⟨c1, c2⟩ := thresh_spectrum_band sqrt acos no pv2 pn
      (spectra_after sqrt acos no pv2 pn st n) (n : Int)
    rw [spectra_after_succ, spectra_after_succ, e]
    refine ⟨?_, c1.trans b1, c2.trans b2⟩
    apply thresh_spectrum_congr
    rw [b1, b2]
    exact h

/-- The body of the loop over the samples depends on the line and the sample index only through
the values of the pixel inside the band range. -/
theorem thresh_sample_congr (sqrt acos : K → K) (n1 n2 : Int) (l1 l2 no : List K)
    (st : thresh_state K) (j1 j2 : Int)
    (h : ∀ i ∈ band_inds st.mask_param.start_band_ind st.mask_param.end_band_ind,
      pixel_of n1 l1 j1 i = pixel_of n2 l2 j2 i) :
    thresh_sample sqrt acos n1 l1 no st j1 = thresh_sample sqrt acos n2 l2 no st j2 := by
  unfold thresh_sample
  simp only
  rw [pixel_norm_of_congr sqrt _ _ _ _ h,
    (spectra_after_congr sqrt acos no _ _ _ (st.mask_param, st.ref_norms_updated, []) h _).1]

theorem list_eq_of_getI (a b : List K) (h : a.length = b.length)
    (hg : ∀ k : Int, 0 ≤ k → k < (a.length : Int) → getI a k = getI b k) : a = b := by
  apply List.ext_getElem h
  intro n h1 h2
  have e := hg (n : Int) (by omega) (by omega)
  have ea := getI_of_lt a n h1
  have eb := getI_of_lt b n h2
  rw [List.getElem?_eq_getElem h1] at ea
  rw [List.getElem?_eq_getElem h2] at eb
  rw [Option.some.inj ea, Option.some.inj eb]
  exact e

/-- Coherent norms are the norms that the entry of `masking_thresh` computes. -/
theorem norms_inv_entry (sqrt : K → K) (m : masking_t K) (norms : List K)
    (h : norms_inv sqrt m norms) : norms = (thresh_entry sqrt m).ref_norms_updated := by
  have he := thresh_entry_norms sqrt m
  apply list_eq_of_getI _ _ (h.1.trans he.1.symm)
  intro k h0 h1
  have hk : k < m.num_masking_spectra := by
    have := h.1
    omega
  rw [h.2 k h0 hk, he.2 k h0 hk]

theorem thresh_norms_orig_frame (sqrt : K → K) (m1 m2 : masking_t K) (h : same_frame m1 m2) :
    thresh_norms_orig sqrt m2 = thresh_norms_orig sqrt m1 := by
  obtain ⟨a1, -, a3, -, a5, a6⟩ := h
  unfold thresh_norms_orig
  rw [a1, a3, a5, a6]

/-- Handling the samples `a, .., a + J - 1` of a line after the samples before `a` is a call of
`masking_thresh` on the state reached after `a` samples, for any line whose samples
`0, .., J - 1` are those samples inside the band range. -/
theorem thresh_after_shift (sqrt acos : K → K) (m : masking_t K) (n n2 : Int)
    (line line2 : List K) (a : Nat) (hwf : masking_wf m) :
    ∀ J : Nat,
      (∀ j : Nat, j < J → ∀ i ∈ band_inds m.start_band_ind m.end_band_ind,
        pixel_of n line ((a : Int) + (j : Int)) i = pixel_of n2 line2 (j : Int) i) →
      (thresh_after sqrt acos m n line (a + J)).mask_param
        = (thresh_after sqrt acos (thresh_after sqrt acos m n line a).mask_param n2 line2
            J).mask_param ∧
      (thresh_after sqrt acos m n line (a + J)).ref_norms_updated
        = (thresh_after sqrt acos (thresh_after sqrt acos m n line a).mask_param n2 line2
            J).ref_norms_updated ∧
      (thresh_after sqrt acos m n line (a + J)).ret_thresh
        = (thresh_after sqrt acos m n line a).ret_thresh
          ++ (thresh_after sqrt acos (thresh_after sqrt acos m n line a).mask_param n2 line2
            J).ret_thresh := by
  intro J
  induction J with
  | zero =>
    intro _
    obtain ⟨-, -, hn, -, -⟩ := thresh_after_spec sqrt acos m n line hwf a
    rw [thresh_after_zero]
    refine ⟨rfl, ?_, ?_⟩
    · exact norms_inv_entry sqrt _ _ hn
    · simp [thresh_entry]
  | succ J ih =>
    intro hp
    obtain ⟨e1, e2, e3⟩ := ih (fun j hj => hp j (by omega))
    obtain ⟨fa, -, -, -, -⟩ := thresh_after_spec sqrt acos m n line hwf a
    obtain ⟨fs, -, -, -, -⟩ := thresh_after_spec sqrt acos m n line hwf (a + J)
    have hno := thresh_norms_orig_frame sqrt m _ fa
    have hpix : ∀ i ∈ band_inds
        (thresh_after sqrt acos m n line (a + J)).mask_param.start_band_ind
        (thresh_after sqrt acos m n line (a + J)).mask_param.end_band_ind,
        pixel_of n line (((a + J : Nat) : Int)) i = pixel_of n2 line2 (J : Int) i := by
      intro i hi
      rw [fs.2.2.2.2.1, fs.2.2.2.2.2] at hi
      have := hp J (by omega) i hi
      rw [Nat.cast_add]
      exact this
    have hs := thresh_sample_congr sqrt acos n n2 line line2 (thresh_norms_orig sqrt m)
      (thresh_after sqrt acos m n line (a + J)) ((a + J : Nat) : Int) (J : Int) hpix
    rw [← Nat.add_assoc, thresh_after_succ, thresh_after_succ, hno, hs]
    unfold thresh_sample
    simp only
    rw [e1, e2, e3]
    exact ⟨rfl, rfl, by rw [List.append_assoc]⟩

theorem pixel_line_pixel (num_bands n : Int) (line : List K) (j i : Int) (h0 : 0 ≤ i)
    (h1 : i < num_bands) :
    pixel_of 1 (pixel_line num_bands n line j) ((0 : Nat) : Int) i = pixel_of n line j i := by
  unfold pixel_line
  have e : i * 1 + ((0 : Nat) : Int) = i := by simp
  show getI _ (i * 1 + ((0 : Nat) : Int)) = _
  rw [e, getI_map_range _ _ i h0 (by omega)]
  have e2 : ((i.toNat : Nat) : Int) = i := by omega
  rw [e2]

/-- The loop over the samples is the left fold of the single-pixel call. -/
theorem classify_fold_after (sqrt acos : K → K) (m : masking_t K) (n : Int) (line : List K)
    (hwf : masking_wf m) :
    ∀ J : Nat,
      ((List.range J).map (fun (t : Nat) => (t : Int))).foldl
        (fun (st : masking_t K × mask_thresh_t) j =>
          let r := masking_thresh sqrt acos st.1 1 (pixel_line st.1.num_bands n line j)
          (r.1, st.2 ++ r.2))
        (m, [])
      = ((thresh_after sqrt acos m n line J).mask_param,
          (thresh_after sqrt acos m n line J).ret_thresh) := by
  intro J
  induction J with
  | zero => simp [thresh_after_zero, thresh_entry]
  | succ J ih =>
    rw [List.range_succ, List.map_append, List.foldl_append, ih]
    obtain ⟨fs, -, -, -, -⟩ := thresh_after_spec sqrt acos m n line hwf J
    have w7 : 0 ≤ m.start_band_ind := hwf.2.2.2.2.2.2.1
    have w8 : m.end_band_ind < m.num_bands := hwf.2.2.2.2.2.2.2
    have hp : ∀ j : Nat, j < 1 → ∀ i ∈ band_inds m.start_band_ind m.end_band_ind,
        pixel_of n line ((J : Int) + (j : Int)) i
          = pixel_of 1 (pixel_line (thresh_after sqrt acos m n line J).mask_param.num_bands n line
              (J : Int)) (j : Int) i := by
      intro j hj i hi
      have hj0 : j = 0 := by omega
      subst hj0
      rw [mem_band_inds] at hi
      rw [fs.2.1, pixel_line_pixel m.num_bands n line (J : Int) i (by omega) (by omega)]
      simp
    obtain ⟨e1, -, e3⟩ := thresh_after_shift sqrt acos m n 1 line
      (pixel_line (thresh_after sqrt acos m n line J).mask_param.num_bands n line (J : Int)) J
      hwf 1 hp
    simp only [List.map_cons, List.map_nil, List.foldl_cons, List.foldl_nil]
    unfold masking_thresh
    simp only [Int.toNat_one]
    rw [e1, e3]

/-- C21: line splitting for `masking_thresh` on well-formed masking parameters.  When the
samples of a line are those of `A` followed by those of `B` (band-major layout), one call on the
whole line returns the same final parameters as the call on `A` followed by the call on `B`, and
its table is the table of `A` followed by the table of `B`.  The call is also the left fold of
the single-pixel call over the samples in increasing order.  At every point of the two loops
(after `j` samples and `k` references of the next one) the array `ref_norms_updated` holds, for
each reference, the norm over the band range of the current updated spectrum. -/
theorem line_splitting (sqrt acos : K → K) (m : masking_t K) (nA nB : Nat) (A B line : List K)
    (hwf : masking_wf m) (hcat : samples_concat m.num_bands nA nB A B line) :
    masking_thresh sqrt acos m ((nA : Int) + (nB : Int)) line
      = ((masking_thresh sqrt acos (masking_thresh sqrt acos m (nA : Int) A).1 (nB : Int) B).1,
          (masking_thresh sqrt acos m (nA : Int) A).2
            ++ (masking_thresh sqrt acos (masking_thresh sqrt acos m (nA : Int) A).1
                (nB : Int) B).2) ∧
    masking_thresh sqrt acos m ((nA : Int) + (nB : Int)) line
      = classify_fold sqrt acos m ((nA : Int) + (nB : Int)) line ∧
    ∀ j k : Nat, (k : Int) ≤ m.num_masking_spectra →
      norms_inv sqrt
        (spectra_after sqrt acos (thresh_norms_orig sqrt m)
          (pixel_of ((nA : Int) + (nB : Int)) line (j : Int))
          (pixel_norm_of sqrt
            (thresh_after sqrt acos m ((nA : Int) + (nB : Int)) line
              j).mask_param.start_band_ind
            (thresh_after sqrt acos m ((nA : Int) + (nB : Int)) line j).mask_param.end_band_ind
            (pixel_of ((nA : Int) + (nB : Int)) line (j : Int)))
          ((thresh_after sqrt acos m ((nA : Int) + (nB : Int)) line j).mask_param,
            (thresh_after sqrt acos m ((nA : Int) + (nB : Int)) line j).ref_norms_updated, [])
          k).1
        (spectra_after sqrt acos (thresh_norms_orig sqrt m)
          (pixel_of ((nA : Int) + (nB : Int)) line (j : Int))
          (pixel_norm_of sqrt
            (thresh_after sqrt acos m ((nA : Int) + (nB : Int)) line
              j).mask_param.start_band_ind
            (thresh_after sqrt acos m ((nA : Int) + (nB : Int)) line j).mask_param.end_band_ind
            (pixel_of ((nA : Int) + (nB : Int)) line (j : Int)))
          ((thresh_after sqrt acos m ((nA : Int) + (nB : Int)) line j).mask_param,
            (thresh_after sqrt acos m ((nA : Int) + (nB : Int)) line j).ref_norms_updated, [])
          k).2.1 := by
  have w7 : 0 ≤ m.start_band_ind := hwf.2.2.2.2.2.2.1
  have w8 : m.end_band_ind < m.num_bands := hwf.2.2.2.2.2.2.2
  have hn : ((nA : Int) + (nB : Int)).toNat = nA + nB := by omega
  refine ⟨?_, ?_, ?_⟩
  · have hA : ∀ j : Nat, j < nA → ∀ i ∈ band_inds m.start_band_ind m.end_band_ind,
        pixel_of ((nA : Int) + (nB : Int)) line (((0 : Nat) : Int) + (j : Int)) i
          = pixel_of (nA : Int) A (j : Int) i := by
      intro j hj i hi
      rw [mem_band_inds] at hi
      have := (hcat i (by omega) (by omega)).1 j hj
      simpa using this
    have hB : ∀ j : Nat, j < nB → ∀ i ∈ band_inds m.start_band_ind m.end_band_ind,
        pixel_of ((nA : Int) + (nB : Int)) line ((nA : Int) + (j : Int)) i
          = pixel_of (nB : Int) B (j : Int) i := by
      intro j hj i hi
      rw [mem_band_inds] at hi
      exact (hcat i (by omega) (by omega)).2 j hj
    obtain ⟨a1, -, a3⟩ := thresh_after_shift sqrt acos m ((nA : Int) + (nB : Int)) (nA : Int)
      line A 0 hwf nA hA
    obtain ⟨b1, -, b3⟩ := thresh_after_shift sqrt acos m ((nA : Int) + (nB : Int)) (nB : Int)
      line B nA hwf nB hB
    rw [thresh_after_zero] at a1 a3
    rw [Nat.zero_add] at a1 a3
    have e0 : (thresh_entry sqrt m).mask_param = m := rfl
    have e1 : (thresh_entry sqrt m).ret_thresh = [] := rfl
    rw [e0] at a1 a3
    rw [e1, List.nil_append] at a3
    unfold masking_thresh
    simp only [hn, Int.toNat_ofNat]
    rw [b1, b3, a1, a3]
  · unfold masking_thresh classify_fold
    simp only
    rw [classify_fold_after sqrt acos m _ line hwf]
  · intro j k hk
    obtain ⟨fs, ws, ns, -, -⟩ :=
      thresh_after_spec sqrt acos m ((nA : Int) + (nB : Int)) line hwf j
    exact spectra_after_norms sqrt acos _ _ _ _ _ [] ws ns k (by rw [fs.1]; exact hk)

theorem line_splitting_witness :
    samples_concat (diag_mask : masking_t ℚ).num_bands 1 1 ([1, 1] : List ℚ) [1, 0]
      [1, 1, 1, 0] ∧
    masking_thresh example_sqrt example_acos diag_mask (((1 : Nat) : Int) + ((1 : Nat) : Int))
        [1, 1, 1, 0]
      = ((masking_thresh example_sqrt example_acos
            (masking_thresh example_sqrt example_acos diag_mask ((1 : Nat) : Int) [1, 1]).1
            ((1 : Nat) : Int) [1, 0]).1,
          (masking_thresh example_sqrt example_acos diag_mask ((1 : Nat) : Int) [1, 1]).2
            ++ (masking_thresh example_sqrt example_acos
                (masking_thresh example_sqrt example_acos diag_mask ((1 : Nat) : Int) [1, 1]).1
                ((1 : Nat) : Int) [1, 0]).2) := by
  have hcat : samples_concat (diag_mask : masking_t ℚ).num_bands 1 1
      ([1, 1] : List ℚ) [1, 0] [1, 1, 1, 0] := by
    intro i h0 h1
    have h2 : i < 2 := h1
    have h01 : i = 0 ∨ i = 1 := by omega
    refine ⟨fun j hj => ?_, fun j hj => ?_⟩ <;>
    · have hj0 : j = 0 := by omega
      subst hj0
      rcases h01 with rfl | rfl <;> simp [pixel_of, getI]
  exact ⟨hcat, (line_splitting example_sqrt example_acos diag_mask 1 1 [1, 1] [1, 0]
    [1, 1, 1, 0] diag_mask_wf hcat).1⟩

end

end SpectralMask
